import Mathlib

/-!
Verification of the file-explorer tree core (`src/file_explorer/data.rs`,
`src/file_explorer/list.rs`).

The Rust code is shallowly embedded:

* `RPath` models `std::path::PathBuf` restricted to paths made of normal
  components (no `.` / `..`), with an absoluteness flag.  Rust's component
  iterator yields a leading `RootDir` component for absolute paths; we model
  the component sequence as `Option String` lists where `none` stands for
  `RootDir`.
* `im::HashMap<PathBuf, TreeIndex>` is modelled as an association list with a
  deterministic iteration order (insertion order).  The Rust map iterates in
  an unspecified (hash) order; every claim below is insensitive to which
  fixed order the map exposes, so the association list is a faithful
  determinization.
* `TreeIndex` (a `NonZeroUsize`, 1-based) is modelled as a `Nat`; the arena
  access `arena.get(ix.0.get() - 1)` keeps the explicit `- 1`.
* Places where the Rust code calls `.expect(..)` (a panic) are modelled with
  `Option.getD default`; every theorem that relies on such a spot carries a
  well-formedness hypothesis under which the panic is unreachable, mirroring
  the invariants the Rust code itself assumes there.
-/

namespace FileExplorer

/-- Model of a Rust `PathBuf` built from normal components.
`⟨true, ["var", "opt"]⟩` is `/var/opt`; `⟨false, ["opt"]⟩` is `opt`;
`⟨true, []⟩` is `/`; `⟨false, []⟩` is the empty path. -/
structure RPath where
  absolute : Bool
  comps : List String
deriving DecidableEq

/-- Rust `Path::components()` as a list; `none` is the `RootDir` component
produced by absolute paths, `some s` a normal component. -/
def RPath.componentsList (p : RPath) : List (Option String) :=
  (if p.absolute then [none] else []) ++ p.comps.map some

/-- Rust `path.components().count()`. -/
def RPath.componentsCount (p : RPath) : Nat :=
  p.componentsList.length

/-- Rebuild a path from a component list (inverse of `componentsList` on
well-formed lists: a `none` can only occur in head position). -/
def RPath.fromComponents : List (Option String) → RPath
  | none :: rest => ⟨true, rest.filterMap id⟩
  | rest => ⟨false, rest.filterMap id⟩

/-- Rust `p.strip_prefix(base)`: succeeds iff `base`'s components are a
prefix of `p`'s components, returning the remainder. -/
def RPath.stripBase (p base : RPath) : Option RPath :=
  if base.componentsList <+: p.componentsList then
    some (RPath.fromComponents (p.componentsList.drop base.componentsList.length))
  else none

/-- Rust `Path::ancestors()`: the path, its parent, and so on.  For
`/a/b` this is `[/a/b, /a, /]`; for `a/b` it is `[a/b, a, <empty>]`. -/
def RPath.ancestors (p : RPath) : List RPath :=
  (List.range (p.comps.length + 1)).reverse.map (fun i => ⟨p.absolute, p.comps.take i⟩)

/-- Rust `base.join(p)`: if `p` is absolute it replaces `base`. -/
def RPath.join (base p : RPath) : RPath :=
  if p.absolute then p else ⟨base.absolute, base.comps ++ p.comps⟩

/-- Rust `path.file_name().and_then(|s| s.to_str())`.  In this model (normal
components, valid UTF-8) it is the last component, absent exactly for the
empty path and the bare root `/`. -/
def RPath.fileName (p : RPath) : Option String :=
  p.comps.getLast?

/-- Association-list model of `im::HashMap<PathBuf, TreeIndex>`. -/
abbrev ChildMap := List (RPath × Nat)

/-- Map lookup, `children.get(&k)`. -/
def cmGet : ChildMap → RPath → Option Nat
  | [], _ => none
  | (k', v') :: rest, k => if k' = k then some v' else cmGet rest k

/-- Map insertion, `children.insert(k, v)` (replaces in place on an existing
key, appends otherwise). -/
def cmInsert : ChildMap → RPath → Nat → ChildMap
  | [], k, v => [(k, v)]
  | (k', v') :: rest, k, v =>
    if k' = k then (k, v) :: rest else (k', v') :: cmInsert rest k v

/-- Map value iteration, `children.values()`. -/
def cmValues (m : ChildMap) : List Nat :=
  m.map Prod.snd

/-- A file explorer node (`Node` in `data.rs`). -/
structure Node where
  path : RPath
  is_dir : Bool
  is_open : Bool
  children : ChildMap
  children_open_count : Nat
deriving DecidableEq

instance : Inhabited Node :=
  ⟨⟨⟨false, []⟩, false, false, [], 0⟩⟩

/-- `Node::new(path)`. -/
def Node.new (p : RPath) : Node :=
  ⟨p, false, false, [], 0⟩

/-- A file explorer tree (`Tree` in `data.rs`): an arena of nodes.  The
root lives at 1-based index `1` (`TreeIndex::ROOT`). -/
structure Tree where
  arena : List Node
deriving DecidableEq

/-- `Tree::new(base)`. -/
def Tree.new (base : Node) : Tree :=
  ⟨[base]⟩

/-- `Tree::get(ix)`: `arena.get(ix.0.get() - 1)`. -/
def Tree.get (t : Tree) (ix : Nat) : Option Node :=
  t.arena[ix - 1]?

/-- Overwrite the slot `ix` (the effect of a write through
`Tree::get_mut(ix)` / `Rc::make_mut`). -/
def Tree.setNode (t : Tree) (ix : Nat) (n : Node) : Tree :=
  ⟨t.arena.set (ix - 1) n⟩

/-- `Tree::root()`; the `.expect("tree must have root node")` is modelled by
`getD default` (unreachable when the arena is nonempty). -/
def Tree.rootNode (t : Tree) : Node :=
  (t.get 1).getD default

/-- `Tree::push(node)`: append an unlinked node, returning its 1-based index. -/
def Tree.push (t : Tree) (n : Node) : Nat × Tree :=
  (t.arena.length + 1, ⟨t.arena ++ [n]⟩)

/-- One iteration of the `for ancestor in ancestors_rev` loop in
`Tree::create`: follow an existing child link, or push the missing node
(the caller-supplied node at the terminal path, a closed directory
placeholder otherwise) and link it into the current node's children. -/
def Tree.createStep (node : Node) (st : Nat × Tree) (ancestor : RPath) : Nat × Tree :=
  match (st.2.get st.1).bind (fun n => cmGet n.children ancestor) with
  | some ix => (ix, st.2)
  | none =>
    let pushed :=
      if node.path = ancestor then st.2.push node
      else st.2.push { Node.new ancestor with is_dir := true }
    -- `self.get_mut(cur_ix).expect("node exists")`
    let parent := (pushed.2.get st.1).getD default
    (pushed.1,
      pushed.2.setNode st.1 { parent with children := cmInsert parent.children ancestor pushed.1 })

/-- The `ancestors_rev` list computed at the top of `Tree::create`. -/
def Tree.createAnc (t : Tree) (node : Node) (disc : RPath) : List RPath :=
  (((RPath.ancestors node.path).take disc.componentsCount).map
    (fun a => t.rootNode.path.join a)).reverse

/-- One step of the index walk `self.get(cur_ix).and_then(|n| n.children.get(a))`. -/
def Tree.walkStep (t : Tree) (a : RPath) (ix : Nat) : Option Nat :=
  (t.get ix).bind (fun n => cmGet n.children a)

/-- The walk from `TreeIndex::ROOT` through successive `children` lookups
used by `Tree::update_node`; `none` models the early `return`. -/
def Tree.walkFrom (t : Tree) (ps : List RPath) : Option Nat :=
  ps.foldl (fun acc a => acc.bind (t.walkStep a)) (some 1)

/-- The `children_open_count` recomputation loop body of `Tree::update_node`:
each child contributes 1 for its existence plus, when open, its own cached
count; a dangling child index is skipped (`continue`). -/
def Tree.recomputeCount (t : Tree) (m : ChildMap) : Nat :=
  m.foldl
    (fun acc kv =>
      match t.get kv.2 with
      | none => acc
      | some child =>
        acc + 1 + (if child.is_open then child.children_open_count else 0))
    0

/-- The `for i in (0..ancestors_rev.len()).rev()` loop of `Tree::update_node`:
for each `i` (descending), walk the first `i` ancestors from the root and
recompute that node's count; a failed walk aborts the whole call. -/
def Tree.updateLoop (t : Tree) (anc : List RPath) : List Nat → Tree
  | [] => t
  | i :: rest =>
    match t.walkFrom (anc.take i) with
    | none => t
    | some cur_ix =>
      -- the node read through `self.get(cur_ix).expect("node to exist")`
      (t.setNode cur_ix
        { (t.get cur_ix).getD default with
          children_open_count :=
            t.recomputeCount ((t.get cur_ix).getD default).children }).updateLoop anc rest

/-- `Tree::update_node(ix)`.  The `strip_prefix(..).expect("valid subnode")`
panic is modelled by returning `t` unchanged (unreachable under the tree
invariants, where every node's path is under the root). -/
def Tree.updateNode (t : Tree) (ix : Nat) : Tree :=
  match t.get ix with
  | none => t
  | some node =>
    match node.path.stripBase t.rootNode.path with
    | none => t
    | some disc =>
      let anc := (((RPath.ancestors disc).take disc.componentsCount).map
        (fun a => t.rootNode.path.join a)).reverse
      t.updateLoop anc (List.range anc.length).reverse

/-- `Tree::create(node)`: returns the produced index (or `none` when the
path is not under the root) together with the updated tree. -/
def Tree.create (t : Tree) (node : Node) : Option Nat × Tree :=
  match node.path.stripBase t.rootNode.path with
  | none => (none, t)
  | some disc =>
    let res := (t.createAnc node disc).foldl (Tree.createStep node) (1, t)
    (some res.1, res.2.updateNode res.1)

/-- A single virtual row (`NodeView` in `list.rs`). -/
structure NodeView where
  node : Node
  level : Nat
deriving DecidableEq

/-- The fallible part of `NodeView::file_name`:
`self.node.path.file_name().and_then(|s| s.to_str())`.  The Rust method then
calls `.expect("path")`, i.e. it panics when this is `none`. -/
def NodeView.fileNameOpt (v : NodeView) : Option String :=
  v.node.path.fileName

/-- A stack frame of the traversal (`TraverseEl`). -/
structure TraverseEl where
  ix : Nat
  child_ix : Nat
deriving DecidableEq

/-- One call to `<TraverseTree as Iterator>::next`.  The stack is a list with
its head as the top (the Rust `Vec` keeps the top at its back).  Each
iteration of the Rust `loop` either emits the next unvisited child of the
top frame — pushing a frame for it when it is open — or pops an exhausted
frame and retries; an empty stack means exhaustion.  The
`.expect("valid node")` calls are modelled with `getD default`. -/
def Tree.traverseNext (t : Tree) : List TraverseEl → Option NodeView × List TraverseEl
  | [] => (none, [])
  | tos :: rest =>
    match ((cmValues ((t.get tos.ix).getD default).children).drop tos.child_ix).head? with
    | some next_ix =>
      let out : NodeView := ⟨(t.get next_ix).getD default, (tos :: rest).length - 1⟩
      let stack1 := { tos with child_ix := tos.child_ix + 1 } :: rest
      (some out, if out.node.is_open then ⟨next_ix, 0⟩ :: stack1 else stack1)
    | none => t.traverseNext rest

/-- Run the iterator, collecting the emitted items.  The fuel only bounds the
number of emissions; any fuel larger than the (finite, under the tree
invariants) number of items yields the full sequence. -/
def Tree.traverseRun (t : Tree) : Nat → List TraverseEl → List NodeView
  | 0, _ => []
  | fuel + 1, stack =>
    match t.traverseNext stack with
    | (none, _) => []
    | (some v, stack') => v :: t.traverseRun fuel stack'

/-- Recursive (fuelled) description of the visible subtree below `ix`: each
child is emitted at the given level and, when open, followed by its own
visible subtree one level deeper. -/
def Tree.visFromF (t : Tree) : Nat → Nat → Nat → List NodeView
  | 0, _, _ => []
  | fuel + 1, ix, level =>
    (cmValues ((t.get ix).getD default).children).flatMap fun cix =>
      let c := (t.get cix).getD default
      ⟨c, level⟩ :: (if c.is_open then t.visFromF fuel cix (level + 1) else [])

/-- The visible subtree below `ix` with enough fuel to be exact on
well-formed trees (children have strictly larger indices than parents). -/
def Tree.visFrom (t : Tree) (ix level : Nat) : List NodeView :=
  t.visFromF t.arena.length ix level

/-- `TraverseTree::new` seeds the stack with the root frame; running the
iterator to exhaustion produces the visible depth-first sequence.  The fuel
exceeds the number of remaining items, so the run is exhaustive. -/
def Tree.traverse (t : Tree) : List NodeView :=
  t.traverseRun ((t.visFrom 1 0).length + 1) [⟨1, 0⟩]

/-- `<TreeView as VirtualVector>::total_len`. -/
def Tree.totalLen (t : Tree) : Nat :=
  t.rootNode.children_open_count + 1

/-- `<TreeView as VirtualVector>::slice(range)`: a fresh traversal, skipping
`range.start` items and taking `range.len() = end - start` items. -/
def Tree.sliceView (t : Tree) (start stop : Nat) : List NodeView :=
  ((t.traverse).drop start).take (stop - start)

/-- Modelled from the spec (§3 Lifecycle, §6 Mutation interface): the
open/close toggle is not part of the sources under `src/`; per the spec it
sets the node's `is_open` flag and "every toggle must trigger the same
cascading recomputation as creation", i.e. `update_node`. -/
def Tree.toggleOpen (t : Tree) (ix : Nat) (b : Bool) : Tree :=
  match t.get ix with
  | none => t
  | some n => (t.setNode ix { n with is_open := b }).updateNode ix

/-! ### Derived notions used by the invariants -/

/-- The node stored at a (1-based) index, with a default for the
out-of-range case. -/
def Tree.nodeAt (t : Tree) (ix : Nat) : Node :=
  (t.get ix).getD default

/-- The ascending list of full-path prefixes strictly between the root path
and `p` (inclusive of `p` itself): for root `/var` and `p = /var/a/b` this
is `[/var/a, /var/a/b]`.  `Tree::create` and `Tree::update_node` both reduce
their `ancestors_rev` lists to this. -/
def Tree.chain (t : Tree) (p : RPath) : List RPath :=
  (List.range' (t.rootNode.path.comps.length + 1)
    (p.comps.length - t.rootNode.path.comps.length)).map
    (fun i => (⟨p.absolute, p.comps.take i⟩ : RPath))

/-- Structural well-formedness of a tree, as established by `Tree::new`
followed by `Tree::create` calls: the arena is nonempty, paths are absolute
and live under the root's path, every child link goes to a strictly larger
in-range index whose node's path is the link's key and extends the parent's
path by exactly one component, sibling keys are distinct, and every node is
reached from the root by walking the `children` maps along its own path
prefixes. -/
def StructWf (t : Tree) : Prop :=
  t.arena ≠ [] ∧
  t.rootNode.path.absolute = true ∧
  (∀ i, i < t.arena.length →
    ((t.nodeAt (i + 1)).path.absolute = true ∧
      t.rootNode.path.comps <+: (t.nodeAt (i + 1)).path.comps) ∧
    (∀ kv ∈ (t.nodeAt (i + 1)).children,
      i + 1 < kv.2 ∧ kv.2 ≤ t.arena.length ∧
      (t.nodeAt kv.2).path = kv.1 ∧
      kv.1.absolute = (t.nodeAt (i + 1)).path.absolute ∧
      kv.1.comps.dropLast = (t.nodeAt (i + 1)).path.comps ∧
      kv.1.comps.length = (t.nodeAt (i + 1)).path.comps.length + 1) ∧
    ((t.nodeAt (i + 1)).children.map Prod.fst).Nodup ∧
    t.walkFrom (t.chain (t.nodeAt (i + 1)).path) = some (i + 1))

/-- Cached-count consistency: every node's `children_open_count` equals the
value `Tree::update_node` would recompute for it from its children. -/
def CountWf (t : Tree) : Prop :=
  ∀ i, i < t.arena.length →
    (t.nodeAt (i + 1)).children_open_count =
      t.recomputeCount (t.nodeAt (i + 1)).children

/-- Full well-formedness: structure plus consistent cached counts. -/
def Wf (t : Tree) : Prop :=
  StructWf t ∧ CountWf t

/-- All strict ancestors of the node in slot `j` other than the root are
open: the condition under which the stack machine reaches (and yields) the
node.  Position `m` of the walk is the ancestor at depth `m` below the root;
position `0` (the root itself) is deliberately not consulted, mirroring the
iterator, which scans the root frame's children without ever reading the
root's own `is_open`. -/
def Tree.visibleIx (t : Tree) (j : Nat) : Bool :=
  (List.range' 1 ((t.chain (t.nodeAt j).path).length - 1)).all (fun m =>
    match t.walkFrom ((t.chain (t.nodeAt j).path).take m) with
    | some a => (t.nodeAt a).is_open
    | none => false)

/-- The number of open ancestors strictly above the node at path `p`, the
root included among the candidates. -/
def Tree.openAncCount (t : Tree) (p : RPath) : Nat :=
  ((List.range (t.chain p).length).filter (fun m =>
    match t.walkFrom ((t.chain p).take m) with
    | some a => (t.nodeAt a).is_open
    | none => false)).length

instance (t : Tree) : Decidable (StructWf t) := by
  unfold StructWf
  infer_instance

instance (t : Tree) : Decidable (CountWf t) := by
  unfold CountWf
  infer_instance

instance (t : Tree) : Decidable (Wf t) := by
  unfold Wf
  infer_instance

/-- A small concrete tree used to evaluate the verified statements: root
`/var` (open directory) with a closed directory `/var/opt`, an open
directory `/var/games` and a file `/var/games/spelunky`. -/
def rootW : Node := ⟨⟨true, ["var"]⟩, true, true, [], 0⟩

def TW : Tree :=
  ((((Tree.new rootW).create ⟨⟨true, ["var", "opt"]⟩, true, false, [], 0⟩).2.create
      ⟨⟨true, ["var", "games"]⟩, true, true, [], 0⟩).2.create
    (Node.new ⟨true, ["var", "games", "spelunky"]⟩)).2

/-- A tree whose root is closed but has one child: the traversal still
yields the child. -/
def TC6 : Tree :=
  ((Tree.new ⟨⟨true, ["r"]⟩, true, false, [], 0⟩).create
    (Node.new ⟨true, ["r", "a"]⟩)).2

/-- A tree whose root is open with one child: the child is yielded at
level `0` although it has one open strict ancestor. -/
def TC8 : Tree :=
  ((Tree.new ⟨⟨true, ["r"]⟩, true, true, [], 0⟩).create
    (Node.new ⟨true, ["r", "a"]⟩)).2

/-! ### Association-list map lemmas -/

theorem cmGet_eq_none_iff (m : ChildMap) (k : RPath) :
    cmGet m k = none ↔ k ∉ m.map Prod.fst := by
  induction m with
  | nil => simp [cmGet]
  | cons kv rest ih =>
    by_cases h : kv.1 = k
    · simp [cmGet, h]
    · simp only [cmGet, if_neg h, ih, List.map_cons, List.mem_cons]
      constructor
      · intro hn
        rintro (he | he)
        · exact h he.symm
        · exact hn he
      · intro hn he
        exact hn (Or.inr he)

theorem cmGet_mem (m : ChildMap) (k : RPath) (v : Nat) (h : cmGet m k = some v) :
    (k, v) ∈ m := by
  induction m with
  | nil => simp [cmGet] at h
  | cons kv rest ih =>
    by_cases hk : kv.1 = k
    · simp [cmGet, hk] at h
      have : kv = (k, v) := by
        cases kv
        simp_all
      rw [← this]
      exact List.mem_cons_self _ _
    · simp [cmGet, hk] at h
      exact List.mem_cons_of_mem _ (ih h)

theorem cmGet_of_mem (m : ChildMap) (k : RPath) (v : Nat)
    (hnd : (m.map Prod.fst).Nodup) (h : (k, v) ∈ m) : cmGet m k = some v := by
  induction m with
  | nil => simp at h
  | cons kv rest ih =>
    simp only [List.map_cons, List.nodup_cons] at hnd
    rcases List.mem_cons.mp h with h | h
    · simp [cmGet, ← h]
    · have hk : kv.1 ≠ k := by
        intro he
        exact hnd.1 (he ▸ (List.mem_map_of_mem Prod.fst h))
      simp [cmGet, hk, ih hnd.2 h]

theorem cmInsert_of_none (m : ChildMap) (k : RPath) (v : Nat)
    (h : cmGet m k = none) : cmInsert m k v = m ++ [(k, v)] := by
  induction m with
  | nil => rfl
  | cons kv rest ih =>
    by_cases hk : kv.1 = k
    · simp [cmGet, hk] at h
    · simp [cmGet, hk] at h
      simp [cmInsert, hk, ih h]

theorem cmGet_append_of_some (m l : ChildMap) (k : RPath) (v : Nat)
    (h : cmGet m k = some v) : cmGet (m ++ l) k = some v := by
  induction m with
  | nil => simp [cmGet] at h
  | cons kv rest ih =>
    by_cases hk : kv.1 = k <;> simp_all [cmGet, hk]

theorem cmGet_append_of_none (m l : ChildMap) (k : RPath)
    (h : cmGet m k = none) : cmGet (m ++ l) k = cmGet l k := by
  induction m with
  | nil => rfl
  | cons kv rest ih =>
    by_cases hk : kv.1 = k <;> simp_all [cmGet, hk]

theorem cmValues_append (m l : ChildMap) :
    cmValues (m ++ l) = cmValues m ++ cmValues l := by
  simp [cmValues]

/-! ### Arena access lemmas -/

theorem list_set_self {α : Type} (l : List α) (i : Nat) (a : α)
    (h : l[i]? = some a) : l.set i a = l := by
  induction l generalizing i with
  | nil => simp at h
  | cons x xs ih =>
    cases i with
    | zero => simp_all
    | succ j =>
      simp only [List.getElem?_cons_succ] at h
      simp [List.set, ih j h]

theorem tree_get_lt (t : Tree) (ix : Nat) (n : Node) (h : t.get ix = some n) :
    ix - 1 < t.arena.length := by
  simp only [Tree.get] at h
  exact (List.getElem?_eq_some.mp h).1

theorem tree_get_of_lt (t : Tree) (ix : Nat) (h1 : 1 ≤ ix)
    (h2 : ix ≤ t.arena.length) : t.get ix = some (t.nodeAt ix) := by
  have hlt : ix - 1 < t.arena.length := by omega
  simp [Tree.nodeAt, Tree.get, List.getElem?_eq_getElem hlt]

theorem nodeAt_of_get (t : Tree) (ix : Nat) (n : Node) (h : t.get ix = some n) :
    t.nodeAt ix = n := by
  simp [Tree.nodeAt, h]

theorem get_push_old (t : Tree) (n : Node) (ix : Nat) (h1 : 1 ≤ ix)
    (h2 : ix ≤ t.arena.length) : (t.push n).2.get ix = t.get ix := by
  simp only [Tree.push, Tree.get]
  exact List.getElem?_append_left (by omega)

theorem get_push_new (t : Tree) (n : Node) :
    (t.push n).2.get (t.arena.length + 1) = some n := by
  simp only [Tree.push, Tree.get, Nat.add_sub_cancel]
  exact List.getElem?_concat_length t.arena n

theorem push_length (t : Tree) (n : Node) :
    (t.push n).2.arena.length = t.arena.length + 1 := by
  simp [Tree.push]

theorem push_fst (t : Tree) (n : Node) : (t.push n).1 = t.arena.length + 1 := rfl

theorem get_set_self (t : Tree) (ix : Nat) (n m : Node) (h : t.get ix = some m) :
    (t.setNode ix n).get ix = some n := by
  simp only [Tree.setNode, Tree.get]
  rw [List.getElem?_set_self']
  have := tree_get_lt t ix m h
  simp [Tree.get, List.getElem?_eq_getElem this]

theorem get_set_other (t : Tree) (ix j : Nat) (n : Node) (h1 : 1 ≤ ix)
    (h2 : 1 ≤ j) (hne : ix ≠ j) : (t.setNode ix n).get j = t.get j := by
  simp only [Tree.setNode, Tree.get]
  exact List.getElem?_set_ne (by omega)

theorem set_length (t : Tree) (ix : Nat) (n : Node) :
    (t.setNode ix n).arena.length = t.arena.length := by
  simp [Tree.setNode]

theorem set_self_eq (t : Tree) (ix : Nat) (n : Node) (h : t.get ix = some n) :
    t.setNode ix n = t := by
  simp only [Tree.setNode]
  have := list_set_self t.arena (ix - 1) n h
  cases t
  simp_all

/-! ### Path lemmas -/

theorem fromComponents_map_some (l : List String) :
    RPath.fromComponents (l.map some) = ⟨false, l⟩ := by
  cases l with
  | nil => rfl
  | cons a rest =>
    simp only [List.map_cons, RPath.fromComponents]
    simp [List.filterMap_map]

theorem map_some_prefix_iff (l1 l2 : List String) :
    l1.map some <+: l2.map some ↔ l1 <+: l2 := by
  constructor
  · intro h
    have hlen : l1.length ≤ l2.length := by
      have := h.length_le
      simpa using this
    have := List.prefix_iff_eq_take.mp h
    rw [List.length_map, ← List.map_take] at this
    have heq : l1 = List.take l1.length l2 :=
      List.map_injective_iff.mpr (Option.some_injective _) this
    exact List.prefix_iff_eq_take.mpr heq
  · exact fun h => h.map some

theorem componentsCount_rel (cs : List String) :
    RPath.componentsCount ⟨false, cs⟩ = cs.length := by
  simp [RPath.componentsCount, RPath.componentsList]

theorem stripBase_of_absolute (p base : RPath) (hb : base.absolute = true) :
    p.stripBase base =
      if p.absolute = true ∧ base.comps <+: p.comps then
        some ⟨false, p.comps.drop base.comps.length⟩
      else none := by
  cases hpabs : p.absolute with
  | true =>
    have hcl : p.componentsList = none :: p.comps.map some := by
      simp [RPath.componentsList, hpabs]
    have hbl : base.componentsList = none :: base.comps.map some := by
      simp [RPath.componentsList, hb]
    by_cases hpre : base.comps <+: p.comps
    · have hp : base.componentsList <+: p.componentsList := by
        rw [hcl, hbl, List.cons_prefix_cons]
        exact ⟨rfl, hpre.map some⟩
      simp only [RPath.stripBase, if_pos hp, hcl, hbl]
      simp only [List.length_cons, List.drop_succ_cons, List.length_map]
      rw [← List.map_drop, fromComponents_map_some]
      simp only [hpre, hpabs, and_self, if_pos]
      have hcond : (none :: List.map some base.comps) <+: (none :: List.map some p.comps) := by
        rw [List.cons_prefix_cons]
        exact ⟨rfl, hpre.map some⟩
      simp [hcond]
    · have hp : ¬ base.componentsList <+: p.componentsList := by
        rw [hcl, hbl, List.cons_prefix_cons]
        rintro ⟨-, h⟩
        exact hpre ((map_some_prefix_iff _ _).mp h)
      simp [RPath.stripBase, hp, hpre]
  | false =>
    have hcl : p.componentsList = p.comps.map some := by
      simp [RPath.componentsList, hpabs]
    have hbl : base.componentsList = none :: base.comps.map some := by
      simp [RPath.componentsList, hb]
    have hp : ¬ base.componentsList <+: p.componentsList := by
      rw [hcl, hbl]
      intro h
      rcases h with ⟨t, ht⟩
      cases cs : p.comps with
      | nil => simp [cs] at ht
      | cons a rest =>
        rw [cs] at ht
        simp at ht
    simp [RPath.stripBase, hp, hpabs]

theorem range'_concat1 (s n : Nat) :
    List.range' s (n + 1) = List.range' s n ++ [s + n] := by
  have h : List.range' s (n + 1) 1 = List.range' s n 1 ++ [s + 1 * n] :=
    List.range'_concat s n
  simpa using h

theorem ancestors_cons (abs : Bool) (cs : List String) (h : cs ≠ []) :
    RPath.ancestors ⟨abs, cs⟩ = ⟨abs, cs⟩ :: RPath.ancestors ⟨abs, cs.dropLast⟩ := by
  rcases Nat.exists_eq_succ_of_ne_zero (fun h0 => h (List.length_eq_zero.mp h0)) with ⟨m, hm⟩
  simp only [RPath.ancestors, hm]
  rw [List.range_succ, List.reverse_append]
  simp only [List.reverse_cons, List.reverse_nil, List.nil_append, List.map_cons,
    List.singleton_append, List.cons_append]
  rw [List.cons_eq_cons]
  constructor
  · have hm' : m + 1 = cs.length := by omega
    rw [hm', List.take_length]
  · have hlen : cs.dropLast.length = m := by
      simp [hm]
    rw [hlen]
    apply List.map_congr_left
    intro i hi
    have him : i < m + 1 := by
      have := List.mem_reverse.mp hi
      exact List.mem_range.mp this
    have : cs.dropLast.take i = cs.take i := by
      rw [List.dropLast_eq_take, List.take_take, hm]
      congr 1
      omega
    simp [this]

theorem anc_take_rev (abs : Bool) (cs : List String) (k : Nat) (hk : k ≤ cs.length) :
    ((RPath.ancestors ⟨abs, cs⟩).take k).reverse =
      (List.range' (cs.length - k + 1) k).map (fun i => (⟨abs, cs.take i⟩ : RPath)) := by
  induction k generalizing cs with
  | zero => simp
  | succ k ih =>
    have hne : cs ≠ [] := by
      intro h0
      rw [h0] at hk
      simp at hk
    rw [ancestors_cons abs cs hne, List.take_succ_cons, List.reverse_cons]
    have hk' : k ≤ cs.dropLast.length := by
      simp only [List.length_dropLast]
      omega
    rw [ih cs.dropLast hk']
    have hcongr :
        (List.range' (cs.dropLast.length - k + 1) k).map
            (fun i => (⟨abs, cs.dropLast.take i⟩ : RPath)) =
          (List.range' (cs.length - (k + 1) + 1) k).map
            (fun i => (⟨abs, cs.take i⟩ : RPath)) := by
      have hst : cs.dropLast.length - k + 1 = cs.length - (k + 1) + 1 := by
        simp only [List.length_dropLast]
        omega
      rw [hst]
      apply List.map_congr_left
      intro i hi
      have hir := List.mem_range'_1.mp hi
      have : cs.dropLast.take i = cs.take i := by
        rw [List.dropLast_eq_take, List.take_take]
        congr 1
        omega
      simp [this]
    rw [hcongr, range'_concat1, List.map_append]
    congr 1
    have hlast : cs.length - (k + 1) + 1 + k = cs.length := by omega
    simp [hlast]

theorem chain_length (t : Tree) (p : RPath) :
    (t.chain p).length = p.comps.length - t.rootNode.path.comps.length := by
  simp [Tree.chain]

theorem createAnc_eq_chain (t : Tree) (node : Node)
    (hb : t.rootNode.path.absolute = true)
    (hp : node.path.absolute = true)
    (hpre : t.rootNode.path.comps <+: node.path.comps) :
    t.createAnc node ⟨false, node.path.comps.drop t.rootNode.path.comps.length⟩ =
      t.chain node.path := by
  have hr : t.rootNode.path.comps.length ≤ node.path.comps.length := hpre.length_le
  simp only [Tree.createAnc, componentsCount_rel, List.length_drop]
  have hjoin :
      ((RPath.ancestors node.path).take
          (node.path.comps.length - t.rootNode.path.comps.length)).map
          (fun a => t.rootNode.path.join a) =
        (RPath.ancestors node.path).take
          (node.path.comps.length - t.rootNode.path.comps.length) := by
    have : ∀ a ∈ (RPath.ancestors node.path).take
        (node.path.comps.length - t.rootNode.path.comps.length),
        t.rootNode.path.join a = a := by
      intro a ha
      have hmem := List.mem_of_mem_take ha
      simp only [RPath.ancestors, List.mem_map] at hmem
      rcases hmem with ⟨i, -, rfl⟩
      simp [RPath.join, hp]
    calc ((RPath.ancestors node.path).take _).map (fun a => t.rootNode.path.join a)
        = ((RPath.ancestors node.path).take _).map id := List.map_congr_left this
      _ = _ := List.map_id _
  rw [hjoin]
  have hanc : RPath.ancestors node.path =
      RPath.ancestors ⟨node.path.absolute, node.path.comps⟩ := rfl
  rw [hanc, anc_take_rev _ _ _ (by omega)]
  simp only [Tree.chain]
  have h1 : node.path.comps.length -
      (node.path.comps.length - t.rootNode.path.comps.length) + 1 =
      t.rootNode.path.comps.length + 1 := by omega
  rw [h1]

theorem updateAnc_eq_chain (t : Tree) (p : RPath)
    (hb : t.rootNode.path.absolute = true) (hp : p.absolute = true)
    (hpre : t.rootNode.path.comps <+: p.comps) :
    (((RPath.ancestors
          (⟨false, p.comps.drop t.rootNode.path.comps.length⟩ : RPath)).take
        (RPath.componentsCount
          (⟨false, p.comps.drop t.rootNode.path.comps.length⟩ : RPath))).map
      (fun a => t.rootNode.path.join a)).reverse = t.chain p := by
  have hr : t.rootNode.path.comps.length ≤ p.comps.length := hpre.length_le
  have hd : (p.comps.drop t.rootNode.path.comps.length).length =
      p.comps.length - t.rootNode.path.comps.length := by simp
  rw [componentsCount_rel, ← List.map_reverse,
    anc_take_rev false (p.comps.drop t.rootNode.path.comps.length) _ le_rfl]
  simp only [Nat.sub_self, Nat.zero_add, List.map_map]
  simp only [Tree.chain]
  rw [List.range'_eq_map_range 1 _, List.range'_eq_map_range
    (t.rootNode.path.comps.length + 1) _, hd]
  rw [List.map_map, List.map_map]
  apply List.map_congr_left
  intro j hj
  have hjlt : j < p.comps.length - t.rootNode.path.comps.length :=
    List.mem_range.mp hj
  have hsplit : p.comps =
      t.rootNode.path.comps ++ p.comps.drop t.rootNode.path.comps.length := by
    have := List.prefix_iff_eq_take.mp hpre
    conv_lhs => rw [← List.take_append_drop t.rootNode.path.comps.length p.comps]
    rw [← this]
  simp only [Function.comp_apply, RPath.join]
  have htake : p.comps.take (t.rootNode.path.comps.length + 1 + j) =
      t.rootNode.path.comps ++
        (p.comps.drop t.rootNode.path.comps.length).take (1 + j) := by
    conv_lhs => rw [hsplit]
    have : t.rootNode.path.comps.length + 1 + j =
        t.rootNode.path.comps.length + (1 + j) := by omega
    rw [this, List.take_append]
  simp [htake, hp, hb]

/-! ### Walk lemmas -/

/-- Resuming the walk from an arbitrary accumulator. -/
def Tree.walkAux (t : Tree) (o : Option Nat) (ps : List RPath) : Option Nat :=
  ps.foldl (fun acc a => acc.bind (t.walkStep a)) o

theorem walkAux_none (t : Tree) (ps : List RPath) : t.walkAux none ps = none := by
  induction ps with
  | nil => rfl
  | cons a ps ih => simpa [Tree.walkAux] using ih

theorem walkFrom_eq_aux (t : Tree) (ps : List RPath) :
    t.walkFrom ps = t.walkAux (some 1) ps := rfl

theorem walkAux_append (t : Tree) (o : Option Nat) (ps qs : List RPath) :
    t.walkAux o (ps ++ qs) = t.walkAux (t.walkAux o ps) qs := by
  simp [Tree.walkAux, List.foldl_append]

theorem walkAux_cons (t : Tree) (o : Option Nat) (a : RPath) (ps : List RPath) :
    t.walkAux o (a :: ps) = t.walkAux (o.bind (t.walkStep a)) ps := rfl

theorem walkAux_some_of_some (t : Tree) (o : Option Nat) (ps : List RPath)
    (x : Nat) (h : t.walkAux o ps = some x) : ∃ y, o = some y := by
  cases o with
  | none => rw [walkAux_none] at h; exact absurd h (by simp)
  | some y => exact ⟨y, rfl⟩

theorem walkFrom_append_some (t : Tree) (ps qs : List RPath) (x : Nat)
    (h : t.walkFrom (ps ++ qs) = some x) : ∃ y, t.walkFrom ps = some y := by
  rw [walkFrom_eq_aux, walkAux_append] at h
  exact walkAux_some_of_some t _ qs x h

/-- Tree extension: every node keeps its slot and its existing child links
keep their targets.  Pushing fresh nodes and inserting new keys both yield
extensions; so does any rewrite that keeps every node's `children`. -/
def ExtendsT (t t' : Tree) : Prop :=
  ∀ ix n, t.get ix = some n →
    ∃ n', t'.get ix = some n' ∧
      (∀ k v, cmGet n.children k = some v → cmGet n'.children k = some v)

theorem extendsT_refl (t : Tree) : ExtendsT t t :=
  fun _ n h => ⟨n, h, fun _ _ hv => hv⟩

theorem extendsT_trans {t1 t2 t3 : Tree} (h12 : ExtendsT t1 t2)
    (h23 : ExtendsT t2 t3) : ExtendsT t1 t3 := by
  intro ix n h
  rcases h12 ix n h with ⟨n', h', hsub⟩
  rcases h23 ix n' h' with ⟨n'', h'', hsub'⟩
  exact ⟨n'', h'', fun k v hv => hsub' k v (hsub k v hv)⟩

theorem walkStep_mono {t t' : Tree} (he : ExtendsT t t') (a : RPath)
    (i j : Nat) (h : t.walkStep a i = some j) : t'.walkStep a i = some j := by
  simp only [Tree.walkStep, Option.bind_eq_some] at h ⊢
  rcases h with ⟨n, hget, hcm⟩
  rcases he i n hget with ⟨n', hget', hsub⟩
  exact ⟨n', hget', hsub a j hcm⟩

theorem walkAux_mono {t t' : Tree} (he : ExtendsT t t') (ps : List RPath)
    (i x : Nat) (h : t.walkAux (some i) ps = some x) :
    t'.walkAux (some i) ps = some x := by
  induction ps generalizing i with
  | nil => exact h
  | cons a ps ih =>
    rw [walkAux_cons, Option.some_bind] at h ⊢
    rcases walkAux_some_of_some t _ ps x h with ⟨j, hj⟩
    rw [hj] at h
    rw [walkStep_mono he a i j hj]
    exact ih j h

theorem walkFrom_mono {t t' : Tree} (he : ExtendsT t t') (ps : List RPath)
    (x : Nat) (h : t.walkFrom ps = some x) : t'.walkFrom ps = some x :=
  walkAux_mono he ps 1 x h

/-! ### StructWf accessors -/

theorem swf_len_pos {t : Tree} (h : StructWf t) : 0 < t.arena.length :=
  List.length_pos.mpr h.1

theorem swf_root_get {t : Tree} (h : StructWf t) : t.get 1 = some t.rootNode := by
  have := tree_get_of_lt t 1 le_rfl (swf_len_pos h)
  rw [this]
  rfl

theorem swf_at {t : Tree} (h : StructWf t) {ix : Nat} {n : Node} (h1 : 1 ≤ ix)
    (hget : t.get ix = some n) :
    ((n.path.absolute = true ∧ t.rootNode.path.comps <+: n.path.comps) ∧
      (∀ kv ∈ n.children,
        ix < kv.2 ∧ kv.2 ≤ t.arena.length ∧
        (t.nodeAt kv.2).path = kv.1 ∧
        kv.1.absolute = n.path.absolute ∧
        kv.1.comps.dropLast = n.path.comps ∧
        kv.1.comps.length = n.path.comps.length + 1) ∧
      (n.children.map Prod.fst).Nodup ∧
      t.walkFrom (t.chain n.path) = some ix) := by
  have hlt : ix - 1 < t.arena.length := tree_get_lt t ix n hget
  have hix : ix - 1 + 1 = ix := by omega
  have := h.2.2 (ix - 1) hlt
  rw [hix] at this
  rw [nodeAt_of_get t ix n hget] at this
  exact this

theorem swf_child_get {t : Tree} (h : StructWf t) {ix : Nat} {n : Node}
    (h1 : 1 ≤ ix) (hget : t.get ix = some n) {kv : RPath × Nat}
    (hkv : kv ∈ n.children) : t.get kv.2 = some (t.nodeAt kv.2) := by
  have hf := ((swf_at h h1 hget).2.1 kv hkv)
  exact tree_get_of_lt t kv.2 (by omega) hf.2.1

theorem walk_result {t : Tree} (h : StructWf t) (ps : List RPath) (x : Nat)
    (hw : t.walkFrom ps = some x) :
    1 ≤ x ∧ x ≤ t.arena.length ∧
      (ps = [] → x = 1) ∧ (∀ a, ps.getLast? = some a → (t.nodeAt x).path = a) := by
  induction ps using List.reverseRecOn generalizing x with
  | nil =>
    have : x = 1 := by
      simp only [Tree.walkFrom, List.foldl_nil] at hw
      exact (Option.some_injective _ hw.symm)
    subst this
    exact ⟨le_rfl, swf_len_pos h, fun _ => rfl, by simp⟩
  | append_singleton ps a ih =>
    rcases walkFrom_append_some t ps [a] x hw with ⟨y, hy⟩
    rw [walkFrom_eq_aux, walkAux_append, ← walkFrom_eq_aux, hy] at hw
    rw [walkAux_cons, Option.some_bind] at hw
    have hw' : t.walkStep a y = some x := by
      rcases walkAux_some_of_some t _ [] x hw with ⟨z, hz⟩
      rw [hz] at hw
      simp only [Tree.walkAux, List.foldl_nil] at hw
      rw [hz, hw]
    rcases ih y hy with ⟨hy1, hy2, -, -⟩
    simp only [Tree.walkStep, Option.bind_eq_some] at hw'
    rcases hw' with ⟨n, hget, hcm⟩
    have hmem := cmGet_mem n.children a x hcm
    have hfacts := (swf_at h hy1 hget).2.1 (a, x) hmem
    refine ⟨by omega, hfacts.2.1, by simp, ?_⟩
    intro b hb
    rw [List.getLast?_concat] at hb
    have hba : b = a := (Option.some_injective _ hb).symm
    subst hba
    exact hfacts.2.2.1

theorem walk_unique {t : Tree} (h : StructWf t) {i j : Nat} {n m : Node}
    (hi1 : 1 ≤ i) (hj1 : 1 ≤ j) (hgi : t.get i = some n) (hgj : t.get j = some m)
    (hpath : n.path = m.path) : i = j := by
  have ri := (swf_at h hi1 hgi).2.2.2
  have rj := (swf_at h hj1 hgj).2.2.2
  rw [hpath] at ri
  rw [ri] at rj
  exact (Option.some_injective _ rj)

/-! ### Traversal: the stack machine runs the recursive visible-subtree
description to exhaustion -/

theorem get_zero (t : Tree) : t.get 0 = t.get 1 := rfl

theorem swf_child_any {t : Tree} (h : StructWf t) {ix : Nat} {n : Node}
    (hget : t.get ix = some n) {kv : RPath × Nat} (hkv : kv ∈ n.children) :
    ix < kv.2 ∧ kv.2 ≤ t.arena.length ∧ t.get kv.2 = some (t.nodeAt kv.2) ∧
      (t.nodeAt kv.2).path = kv.1 ∧ kv.1.absolute = n.path.absolute ∧
      kv.1.comps.dropLast = n.path.comps ∧
      kv.1.comps.length = n.path.comps.length + 1 := by
  rcases Nat.eq_zero_or_pos ix with h0 | h1
  · subst h0
    rw [get_zero] at hget
    have hf := (swf_at h le_rfl hget).2.1 kv hkv
    have hg := swf_child_get h le_rfl hget hkv
    exact ⟨by omega, hf.2.1, hg, hf.2.2.1, hf.2.2.2.1, hf.2.2.2.2.1, hf.2.2.2.2.2⟩
  · have hf := (swf_at h h1 hget).2.1 kv hkv
    have hg := swf_child_get h h1 hget hkv
    exact ⟨hf.1, hf.2.1, hg, hf.2.2.1, hf.2.2.2.1, hf.2.2.2.2.1, hf.2.2.2.2.2⟩

theorem default_children : (default : Node).children = [] := rfl

theorem visFromF_children_nil (t : Tree) (ix l : Nat)
    (hch : ((t.get ix).getD default).children = []) (f : Nat) :
    t.visFromF f ix l = [] := by
  cases f with
  | zero => rfl
  | succ f => simp [Tree.visFromF, hch, cmValues]

theorem swf_children_nil_of_ge {t : Tree} (h : StructWf t) {ix : Nat}
    (hge : t.arena.length ≤ ix) : ((t.get ix).getD default).children = [] := by
  cases hget : t.get ix with
  | none => rfl
  | some n =>
    rw [Option.getD_some]
    by_contra hne
    rcases List.exists_mem_of_ne_nil n.children hne with ⟨kv, hkv⟩
    have := swf_child_any h hget hkv
    omega

theorem visFromF_stable {t : Tree} (h : StructWf t) :
    ∀ g f f' ix l, t.arena.length - ix ≤ g →
      t.arena.length - ix ≤ f → t.arena.length - ix ≤ f' →
      t.visFromF f ix l = t.visFromF f' ix l := by
  intro g
  induction g with
  | zero =>
    intro f f' ix l hg _ _
    have hge : t.arena.length ≤ ix := by omega
    rw [visFromF_children_nil t ix l (swf_children_nil_of_ge h hge) f,
      visFromF_children_nil t ix l (swf_children_nil_of_ge h hge) f']
  | succ g ih =>
    intro f f' ix l hg hf hf'
    by_cases hge : t.arena.length ≤ ix
    · rw [visFromF_children_nil t ix l (swf_children_nil_of_ge h hge) f,
        visFromF_children_nil t ix l (swf_children_nil_of_ge h hge) f']
    · push_neg at hge
      cases f with
      | zero => omega
      | succ fa =>
        cases f' with
        | zero => omega
        | succ fb =>
          simp only [Tree.visFromF]
          apply List.flatMap_congr
          intro cix hcix
          cases hget : t.get ix with
          | none => simp [hget, cmValues, default_children] at hcix
          | some n =>
            rw [hget] at hcix
            simp only [Option.getD_some, cmValues, List.mem_map] at hcix
            rcases hcix with ⟨kv, hkv, rfl⟩
            have hc := swf_child_any h hget hkv
            have h1 : t.arena.length - kv.2 ≤ g := by omega
            have h2 : t.arena.length - kv.2 ≤ fa := by omega
            have h3 : t.arena.length - kv.2 ≤ fb := by omega
            rw [ih fa fb kv.2 (l + 1) h1 h2 h3]

theorem visFrom_unfold {t : Tree} (h : StructWf t) (ix l : Nat) :
    t.visFrom ix l =
      (cmValues ((t.get ix).getD default).children).flatMap fun cix =>
        (⟨(t.get cix).getD default, l⟩ : NodeView) ::
          (if ((t.get cix).getD default).is_open then t.visFrom cix (l + 1) else []) := by
  have hlen := swf_len_pos h
  rcases Nat.exists_eq_succ_of_ne_zero (Nat.pos_iff_ne_zero.mp hlen) with ⟨m, hm⟩
  by_cases hge : t.arena.length ≤ ix
  · have hch := swf_children_nil_of_ge h hge
    rw [Tree.visFrom, visFromF_children_nil t ix l hch, hch]
    simp [cmValues]
  · push_neg at hge
    rw [Tree.visFrom, hm]
    simp only [Tree.visFromF]
    apply List.flatMap_congr
    intro cix hcix
    cases hget : t.get ix with
    | none => simp [hget, cmValues, default_children] at hcix
    | some n =>
      rw [hget] at hcix
      simp only [Option.getD_some, cmValues, List.mem_map] at hcix
      rcases hcix with ⟨kv, hkv, rfl⟩
      have hc := swf_child_any h hget hkv
      have heq : t.visFromF m kv.2 (l + 1) = t.visFrom kv.2 (l + 1) := by
        rw [Tree.visFrom]
        exact visFromF_stable h t.arena.length m t.arena.length kv.2 (l + 1)
          (by omega) (by omega) (by omega)
      rw [heq]

/-- The items the machine will still emit for one frame: the frame's
unvisited children, each followed (when open) by its visible subtree. -/
def Tree.frameRest (t : Tree) (e : TraverseEl) (level : Nat) : List NodeView :=
  ((cmValues ((t.get e.ix).getD default).children).drop e.child_ix).flatMap fun cix =>
    (⟨(t.get cix).getD default, level⟩ : NodeView) ::
      (if ((t.get cix).getD default).is_open then t.visFrom cix (level + 1) else [])

/-- All items the machine will still emit from a given stack. -/
def Tree.pending (t : Tree) : List TraverseEl → List NodeView
  | [] => []
  | e :: rest => t.frameRest e rest.length ++ t.pending rest

theorem frameRest_zero {t : Tree} (h : StructWf t) (ix level : Nat) :
    t.frameRest ⟨ix, 0⟩ level = t.visFrom ix level := by
  rw [Tree.frameRest, visFrom_unfold h ix level]
  rfl

theorem next_none {t : Tree} (stack : List TraverseEl)
    (h : (t.traverseNext stack).1 = none) : t.pending stack = [] := by
  induction stack with
  | nil => rfl
  | cons tos rest ih =>
    rw [Tree.traverseNext] at h
    cases hh : ((cmValues ((t.get tos.ix).getD default).children).drop tos.child_ix).head? with
    | some c => rw [hh] at h; simp at h
    | none =>
      rw [hh] at h
      have hdrop : (cmValues ((t.get tos.ix).getD default).children).drop tos.child_ix = [] :=
        List.head?_eq_none_iff.mp hh
      rw [Tree.pending, Tree.frameRest, hdrop]
      simp only [List.flatMap_nil, List.nil_append]
      exact ih h

theorem next_some {t : Tree} (h : StructWf t) (stack stack' : List TraverseEl)
    (v : NodeView) (hn : t.traverseNext stack = (some v, stack')) :
    t.pending stack = v :: t.pending stack' := by
  induction stack with
  | nil => simp [Tree.traverseNext] at hn
  | cons tos rest ih =>
    rw [Tree.traverseNext] at hn
    cases hh : ((cmValues ((t.get tos.ix).getD default).children).drop tos.child_ix).head? with
    | none =>
      rw [hh] at hn
      rw [Tree.pending, Tree.frameRest, List.head?_eq_none_iff.mp hh]
      simp only [List.flatMap_nil, List.nil_append]
      exact ih hn
    | some c =>
      rw [hh] at hn
      simp only [Prod.mk.injEq] at hn
      have hv : v = ⟨(t.get c).getD default, rest.length⟩ := by
        have hvv := Option.some_injective _ hn.1
        rw [← hvv]
        simp
      have hdrop : (cmValues ((t.get tos.ix).getD default).children).drop tos.child_ix =
          c :: (cmValues ((t.get tos.ix).getD default).children).drop (tos.child_ix + 1) := by
        rcases List.head?_eq_some_iff.mp hh with ⟨tl, htl⟩
        rw [htl]
        congr 1
        rw [← List.drop_drop]
        rw [htl]
        rfl
      have hpend : t.pending (tos :: rest) =
          ((⟨(t.get c).getD default, rest.length⟩ : NodeView) ::
            (if ((t.get c).getD default).is_open then t.visFrom c (rest.length + 1) else [])) ++
          (t.frameRest ⟨tos.ix, tos.child_ix + 1⟩ rest.length ++ t.pending rest) := by
        rw [Tree.pending, Tree.frameRest, hdrop, List.flatMap_cons, List.append_assoc]
        rfl
      cases hopen : ((t.get c).getD default).is_open with
      | false =>
        have hs' : stack' = ⟨tos.ix, tos.child_ix + 1⟩ :: rest := by
          rw [← hn.2, hopen]
          simp
        rw [hpend, hs', Tree.pending, hv, hopen]
        simp
      | true =>
        have hs' : stack' = ⟨c, 0⟩ :: ⟨tos.ix, tos.child_ix + 1⟩ :: rest := by
          rw [← hn.2, hopen]
          simp
        rw [hpend, hs', Tree.pending, Tree.pending, hv, hopen]
        simp only [List.length_cons, if_true]
        rw [frameRest_zero h c (rest.length + 1)]
        simp

theorem traverseRun_pending {t : Tree} (h : StructWf t) :
    ∀ fuel stack, t.traverseRun fuel stack = (t.pending stack).take fuel := by
  intro fuel
  induction fuel with
  | zero => intro stack; simp [Tree.traverseRun]
  | succ fuel ih =>
    intro stack
    rw [Tree.traverseRun]
    cases hn : t.traverseNext stack with
    | mk o stack' =>
      cases o with
      | none =>
        rw [next_none stack (by rw [hn])]
        rfl
      | some v =>
        simp only
        rw [ih stack', next_some h stack stack' v hn, List.take_succ_cons]

theorem traverse_eq_visFrom {t : Tree} (h : StructWf t) :
    t.traverse = t.visFrom 1 0 := by
  rw [Tree.traverse, traverseRun_pending h, Tree.pending, Tree.pending]
  simp only [List.length_nil, List.append_nil]
  rw [frameRest_zero h 1 0]
  exact List.take_of_length_le (by omega)

/-! ### Cached counts measure the visible traversal -/

/-- The contribution of one child entry to a recomputed count. -/
def childWeight (t : Tree) (kv : RPath × Nat) : Nat :=
  match t.get kv.2 with
  | none => 0
  | some child => 1 + (if child.is_open then child.children_open_count else 0)

theorem recomputeCount_foldl (t : Tree) (m : ChildMap) :
    ∀ acc, m.foldl
        (fun acc kv =>
          match t.get kv.2 with
          | none => acc
          | some child =>
            acc + 1 + (if child.is_open then child.children_open_count else 0)) acc =
      acc + (m.map (childWeight t)).sum := by
  induction m with
  | nil => intro acc; simp
  | cons kv rest ih =>
    intro acc
    rw [List.foldl_cons, List.map_cons, List.sum_cons, ih]
    have hstep :
        (match t.get kv.2 with
          | none => acc
          | some child =>
            acc + 1 + (if child.is_open then child.children_open_count else 0)) =
          acc + childWeight t kv := by
      rw [childWeight]
      cases hg : t.get kv.2 with
      | none => simp
      | some child =>
        simp
        cases child.is_open <;> simp <;> exact Nat.add_assoc _ _ _
    rw [hstep]
    omega

theorem recomputeCount_eq_sum (t : Tree) (m : ChildMap) :
    t.recomputeCount m = (m.map (childWeight t)).sum := by
  rw [Tree.recomputeCount, recomputeCount_foldl]
  simp

theorem visFrom_length_eq_sum {t : Tree} (h : StructWf t) (ix l : Nat) :
    (t.visFrom ix l).length =
      (((t.get ix).getD default).children.map (fun kv =>
        1 + (if ((t.get kv.2).getD default).is_open
          then (t.visFrom kv.2 (l + 1)).length else 0))).sum := by
  rw [visFrom_unfold h ix l, cmValues, List.flatMap_map, List.length_flatMap]
  congr 1
  apply List.map_congr_left
  intro kv hkv
  simp only [Function.comp_apply, List.length_cons]
  cases hopen : ((t.get kv.2).getD default).is_open with
  | true => simp [hopen]; omega
  | false => simp [hopen]

theorem count_eq_visFrom_length {t : Tree} (hs : StructWf t) (hc : CountWf t) :
    ∀ g ix l, t.arena.length - ix ≤ g → 1 ≤ ix → ix ≤ t.arena.length →
      (t.nodeAt ix).children_open_count = (t.visFrom ix l).length := by
  intro g
  induction g with
  | zero =>
    intro ix l hg h1 h2
    have hix : ix = t.arena.length := by omega
    have hch : ((t.get ix).getD default).children = [] :=
      swf_children_nil_of_ge hs (by omega)
    have hcnt := hc (ix - 1) (by omega)
    rw [show ix - 1 + 1 = ix from by omega] at hcnt
    have hch' : (t.nodeAt ix).children = [] := by
      rw [Tree.nodeAt]
      exact hch
    rw [hcnt, hch', visFrom_length_eq_sum hs ix l, hch]
    simp [Tree.recomputeCount]
  | succ g ih =>
    intro ix l hg h1 h2
    have hcnt := hc (ix - 1) (by omega)
    rw [show ix - 1 + 1 = ix from by omega] at hcnt
    have hget : t.get ix = some (t.nodeAt ix) := tree_get_of_lt t ix h1 h2
    rw [hcnt, visFrom_length_eq_sum hs ix l, recomputeCount_eq_sum]
    have hh : (t.nodeAt ix).children = ((t.get ix).getD default).children := by
      simp [hget]
    rw [hh]
    congr 1
    apply List.map_congr_left
    intro kv hkv
    have hkv' : kv ∈ (t.nodeAt ix).children := by
      rw [hh]
      exact hkv
    have hcf := swf_child_any hs hget hkv'
    simp only [childWeight, hcf.2.2.1, Option.getD_some]
    have hrec := ih kv.2 (l + 1) (by omega) (by omega) hcf.2.1
    rw [← hrec]

theorem traverse_length_eq_count {t : Tree} (hs : StructWf t) (hc : CountWf t) :
    (t.traverse).length = t.rootNode.children_open_count := by
  rw [traverse_eq_visFrom hs]
  have := count_eq_visFrom_length hs hc t.arena.length 1 0 (by omega) le_rfl
    (swf_len_pos hs)
  rw [← this]
  rfl

/-! ### Structural equality up to cached counts -/

/-- Everything about a node except its cached count. -/
def nodeStr (n : Node) : RPath × Bool × Bool × ChildMap :=
  (n.path, n.is_dir, n.is_open, n.children)

/-- The data `recomputeCount` reads from a child. -/
def cntOf (n : Node) : Bool × Nat :=
  (n.is_open, n.children_open_count)

/-- Two trees with the same shape: same arena length and, slot by slot, the
same node data apart from the cached `children_open_count`. -/
def StrEq (t t' : Tree) : Prop :=
  t.arena.length = t'.arena.length ∧
  ∀ ix, (t.get ix).map nodeStr = (t'.get ix).map nodeStr

theorem strEq_refl (t : Tree) : StrEq t t :=
  ⟨rfl, fun _ => rfl⟩

theorem strEq_trans {t1 t2 t3 : Tree} (h12 : StrEq t1 t2) (h23 : StrEq t2 t3) :
    StrEq t1 t3 :=
  ⟨h12.1.trans h23.1, fun ix => (h12.2 ix).trans (h23.2 ix)⟩

theorem strEq_get_none {t t' : Tree} (h : StrEq t t') {ix : Nat}
    (hg : t.get ix = none) : t'.get ix = none := by
  have := h.2 ix
  rw [hg] at this
  cases hg' : t'.get ix with
  | none => rfl
  | some n => rw [hg'] at this; simp at this

theorem strEq_get_some {t t' : Tree} (h : StrEq t t') {ix : Nat} {n : Node}
    (hg : t.get ix = some n) :
    ∃ n', t'.get ix = some n' ∧ nodeStr n' = nodeStr n := by
  have := h.2 ix
  rw [hg] at this
  cases hg' : t'.get ix with
  | none => rw [hg'] at this; simp at this
  | some n' =>
    rw [hg'] at this
    simp at this
    exact ⟨n', rfl, this.symm⟩

theorem nodeStr_path {n m : Node} (h : nodeStr n = nodeStr m) : n.path = m.path := by
  simp only [nodeStr, Prod.mk.injEq] at h
  exact h.1

theorem nodeStr_dir {n m : Node} (h : nodeStr n = nodeStr m) : n.is_dir = m.is_dir := by
  simp only [nodeStr, Prod.mk.injEq] at h
  exact h.2.1

theorem nodeStr_open {n m : Node} (h : nodeStr n = nodeStr m) : n.is_open = m.is_open := by
  simp only [nodeStr, Prod.mk.injEq] at h
  exact h.2.2.1

theorem nodeStr_children {n m : Node} (h : nodeStr n = nodeStr m) :
    n.children = m.children := by
  simp only [nodeStr, Prod.mk.injEq] at h
  exact h.2.2.2

theorem strEq_walkStep {t t' : Tree} (h : StrEq t t') (a : RPath) (ix : Nat) :
    t.walkStep a ix = t'.walkStep a ix := by
  simp only [Tree.walkStep]
  cases hg : t.get ix with
  | none => rw [strEq_get_none h hg]
  | some n =>
    rcases strEq_get_some h hg with ⟨n', hg', hstr⟩
    rw [hg', Option.some_bind, Option.some_bind, nodeStr_children hstr]

theorem strEq_walkAux {t t' : Tree} (h : StrEq t t') (ps : List RPath)
    (o : Option Nat) : t.walkAux o ps = t'.walkAux o ps := by
  induction ps generalizing o with
  | nil => rfl
  | cons a ps ih =>
    rw [walkAux_cons, walkAux_cons, ih]
    congr 1
    cases o with
    | none => rfl
    | some i => simp only [Option.some_bind]; rw [strEq_walkStep h]

theorem strEq_walkFrom {t t' : Tree} (h : StrEq t t') (ps : List RPath) :
    t.walkFrom ps = t'.walkFrom ps :=
  strEq_walkAux h ps (some 1)

theorem strEq_rootPath {t t' : Tree} (h : StrEq t t') :
    t.rootNode.path = t'.rootNode.path := by
  rw [Tree.rootNode, Tree.rootNode]
  cases hg : t.get 1 with
  | none => rw [strEq_get_none h hg]
  | some n =>
    rcases strEq_get_some h hg with ⟨n', hg', hstr⟩
    rw [hg']
    simp only [Option.getD_some]
    exact (nodeStr_path hstr).symm

theorem strEq_chain {t t' : Tree} (h : StrEq t t') (p : RPath) :
    t.chain p = t'.chain p := by
  rw [Tree.chain, Tree.chain, strEq_rootPath h]

theorem strEq_nodeAt_children {t t' : Tree} (h : StrEq t t') (ix : Nat) :
    (t.nodeAt ix).children = (t'.nodeAt ix).children := by
  cases hg : t.get ix with
  | none =>
    rw [Tree.nodeAt, Tree.nodeAt, hg, strEq_get_none h hg]
  | some n =>
    rcases strEq_get_some h hg with ⟨n', hg', hstr⟩
    rw [Tree.nodeAt, Tree.nodeAt, hg, hg']
    exact (nodeStr_children hstr).symm

theorem strEq_nodeAt_path {t t' : Tree} (h : StrEq t t') (ix : Nat) :
    (t.nodeAt ix).path = (t'.nodeAt ix).path := by
  cases hg : t.get ix with
  | none =>
    rw [Tree.nodeAt, Tree.nodeAt, hg, strEq_get_none h hg]
  | some n =>
    rcases strEq_get_some h hg with ⟨n', hg', hstr⟩
    rw [Tree.nodeAt, Tree.nodeAt, hg, hg']
    exact (nodeStr_path hstr).symm

theorem strEq_swf {t t' : Tree} (he : StrEq t t') (h : StructWf t) : StructWf t' := by
  refine ⟨?_, ?_, ?_⟩
  · intro h0
    apply h.1
    have hlen := he.1
    rw [h0] at hlen
    simp only [List.length_nil] at hlen
    exact List.length_eq_zero.mp hlen
  · have := strEq_rootPath he
    rw [← this]
    exact h.2.1
  · intro i hi
    have hi0 : i < t.arena.length := by rw [he.1]; exact hi
    have hfacts := h.2.2 i hi0
    have hget : t.get (i + 1) = some (t.nodeAt (i + 1)) :=
      tree_get_of_lt t (i + 1) (by omega) (by omega)
    rcases strEq_get_some he hget with ⟨n', hg', hstr⟩
    have hn' : t'.nodeAt (i + 1) = n' := nodeAt_of_get t' (i + 1) n' hg'
    refine ⟨?_, ?_, ?_, ?_⟩
    · rw [hn', nodeStr_path hstr, ← strEq_rootPath he]
      exact hfacts.1
    · intro kv hkv
      rw [hn'] at hkv
      rw [nodeStr_children hstr] at hkv
      have hkvf := hfacts.2.1 kv hkv
      refine ⟨hkvf.1, by rw [← he.1]; exact hkvf.2.1, ?_, ?_, ?_, ?_⟩
      · rw [← strEq_nodeAt_path he kv.2]
        exact hkvf.2.2.1
      · rw [hn', nodeStr_path hstr]
        exact hkvf.2.2.2.1
      · rw [hn', nodeStr_path hstr]
        exact hkvf.2.2.2.2.1
      · rw [hn', nodeStr_path hstr]
        exact hkvf.2.2.2.2.2
    · rw [hn', nodeStr_children hstr]
      exact hfacts.2.2.1
    · rw [hn', nodeStr_path hstr, ← strEq_chain he, ← strEq_walkFrom he]
      exact hfacts.2.2.2

theorem strEq_set_count (t : Tree) (ix : Nat) (n : Node) (c : Nat)
    (h : t.get ix = some n) :
    StrEq t (t.setNode ix { n with children_open_count := c }) := by
  constructor
  · rw [set_length]
  · intro j
    by_cases hj : j - 1 = ix - 1
    · have hlt := tree_get_lt t ix n h
      have hgj : t.get j = some n := by
        rw [Tree.get, hj, ← Tree.get, h]
      have hgj' : (t.setNode ix { n with children_open_count := c }).get j =
          some { n with children_open_count := c } := by
        rw [Tree.get, Tree.setNode, hj]
        simp only
        rw [List.getElem?_set_self']
        rw [show t.arena[ix - 1]? = some n from h]
        rfl
      rw [hgj, hgj']
      rfl
    · have heq : (t.setNode ix { n with children_open_count := c }).get j = t.get j := by
        show (t.arena.set (ix - 1) _)[j - 1]? = t.arena[j - 1]?
        exact List.getElem?_set_ne (by omega)
      rw [heq]

theorem childWeight_eq {t t' : Tree} (kv : RPath × Nat)
    (h : (t.get kv.2).map cntOf = (t'.get kv.2).map cntOf) :
    childWeight t kv = childWeight t' kv := by
  rw [childWeight, childWeight]
  cases hg : t.get kv.2 with
  | none =>
    rw [hg] at h
    cases hg' : t'.get kv.2 with
    | none => rfl
    | some m => rw [hg'] at h; simp at h
  | some n =>
    rw [hg] at h
    cases hg' : t'.get kv.2 with
    | none => rw [hg'] at h; simp at h
    | some m =>
      rw [hg'] at h
      show (1 + if n.is_open then n.children_open_count else 0) =
        (1 + if m.is_open then m.children_open_count else 0)
      simp [cntOf, Prod.ext_iff] at h
      rw [h.1, h.2]

/-! ### `update_node` leaves an already-consistent tree unchanged -/

theorem updateLoop_id {t : Tree} (hs : StructWf t) (hc : CountWf t)
    (anc : List RPath) : ∀ js : List Nat, t.updateLoop anc js = t := by
  intro js
  induction js with
  | nil => rfl
  | cons i rest ih =>
    rw [Tree.updateLoop]
    cases hw : t.walkFrom (anc.take i) with
    | none => rfl
    | some cur =>
      have hres := walk_result hs _ cur hw
      have hget : t.get cur = some (t.nodeAt cur) :=
        tree_get_of_lt t cur hres.1 hres.2.1
      have hcnt := hc (cur - 1) (by omega)
      rw [show cur - 1 + 1 = cur from by omega] at hcnt
      have hnode : ({ (t.get cur).getD default with
          children_open_count :=
            t.recomputeCount ((t.get cur).getD default).children } : Node) =
          t.nodeAt cur := by
        show ({ t.nodeAt cur with
          children_open_count := t.recomputeCount (t.nodeAt cur).children } : Node) =
          t.nodeAt cur
        rw [← hcnt]
      show (t.setNode cur { (t.get cur).getD default with
          children_open_count :=
            t.recomputeCount ((t.get cur).getD default).children }).updateLoop anc rest = t
      rw [hnode, set_self_eq t cur (t.nodeAt cur) hget]
      exact ih

theorem updateNode_id {t : Tree} (hs : StructWf t) (hc : CountWf t) (ix : Nat) :
    t.updateNode ix = t := by
  rw [Tree.updateNode]
  cases hg : t.get ix with
  | none => rfl
  | some n =>
    cases hstrip : n.path.stripBase t.rootNode.path with
    | none => simp [hstrip]
    | some disc =>
      simp only [hstrip]
      exact updateLoop_id hs hc _ _

/-! ### Chain prefixes and loop index bookkeeping -/

theorem dropLast_take {α : Type} (l : List α) (i : Nat) (h : i + 1 ≤ l.length) :
    (l.take (i + 1)).dropLast = l.take i := by
  rw [List.dropLast_eq_take, List.take_take]
  have h1 : (l.take (i + 1)).length = i + 1 := by
    rw [List.length_take]
    omega
  rw [h1]
  congr 1
  omega

theorem length_take_of_le {α : Type} (l : List α) (i : Nat) (h : i ≤ l.length) :
    (l.take i).length = i := by
  rw [List.length_take]
  omega

theorem chain_take (t : Tree) (p : RPath) (j : Nat)
    (hj : j ≤ p.comps.length - t.rootNode.path.comps.length) :
    (t.chain p).take j =
      (List.range' (t.rootNode.path.comps.length + 1) j).map
        (fun i => (⟨p.absolute, p.comps.take i⟩ : RPath)) := by
  rw [Tree.chain, ← List.map_take]
  congr 1
  have hsplit : List.range' (t.rootNode.path.comps.length + 1)
      (p.comps.length - t.rootNode.path.comps.length) =
      List.range' (t.rootNode.path.comps.length + 1) j ++
        List.range' (t.rootNode.path.comps.length + 1 + j)
          (p.comps.length - t.rootNode.path.comps.length - j) := by
    have := List.range'_append (t.rootNode.path.comps.length + 1) j
      (p.comps.length - t.rootNode.path.comps.length - j) 1
    simp only [Nat.one_mul] at this
    rw [this]
    congr 1
    omega
  rw [hsplit, List.take_left' (List.length_range' _ _ _)]

theorem chain_take_getLast (t : Tree) (p : RPath) (m : Nat)
    (hm : m + 1 ≤ p.comps.length - t.rootNode.path.comps.length) :
    ((t.chain p).take (m + 1)).getLast? =
      some ⟨p.absolute, p.comps.take (t.rootNode.path.comps.length + 1 + m)⟩ := by
  rw [chain_take t p (m + 1) hm, range'_concat1, List.map_append]
  exact List.getLast?_concat _

theorem range_reverse_succ (m : Nat) :
    (List.range (m + 1)).reverse = m :: (List.range m).reverse := by
  rw [List.range_succ, List.reverse_append]
  rfl

theorem walk_take_some (t : Tree) (C : List RPath) (x m : Nat)
    (h : t.walkFrom C = some x) : ∃ y, t.walkFrom (C.take m) = some y := by
  apply walkFrom_append_some t (C.take m) (C.drop m) x
  rw [List.take_append_drop]
  exact h

theorem recomputeCount_congr {t t' : Tree} (m : ChildMap)
    (h : ∀ kv ∈ m, childWeight t kv = childWeight t' kv) :
    t.recomputeCount m = t'.recomputeCount m := by
  rw [recomputeCount_eq_sum, recomputeCount_eq_sum]
  congr 1
  exact List.map_congr_left h

theorem updateLoop_cons_some (t : Tree) (anc : List RPath) (i : Nat)
    (rest : List Nat) (cur : Nat) (h : t.walkFrom (anc.take i) = some cur) :
    t.updateLoop anc (i :: rest) =
      (t.setNode cur
        { t.nodeAt cur with
          children_open_count := t.recomputeCount ((t.nodeAt cur).children) }).updateLoop
        anc rest := by
  rw [Tree.updateLoop, h]
  rfl

/-- Running the recomputation loop of `update_node` over the (descending)
levels `m - 1, …, 0` of an ancestor chain: counts away from the chain are
untouched, and afterwards every strict-ancestor level of the chain carries
the count recomputed from its children. -/
theorem updateLoop_spec (t0 : Tree) (hs0 : StructWf t0) (C : List RPath) (k : Nat)
    (w : Nat → Nat)
    (hw : ∀ m, m ≤ k → t0.walkFrom (C.take m) = some (w m))
    (hplen : ∀ m, m ≤ k →
      (t0.nodeAt (w m)).path.comps.length = t0.rootNode.path.comps.length + m) :
    ∀ m, m ≤ k → ∀ tc, StrEq t0 tc →
      (∀ j, 1 ≤ j → j ≤ t0.arena.length →
        (∀ m', m ≤ m' → m' < k → j ≠ w m') →
        (tc.nodeAt j).children_open_count = (t0.nodeAt j).children_open_count) →
      (∀ m', m ≤ m' → m' < k →
        (tc.nodeAt (w m')).children_open_count =
          tc.recomputeCount ((tc.nodeAt (w m')).children)) →
      StrEq t0 (tc.updateLoop C (List.range m).reverse) ∧
      (∀ j, 1 ≤ j → j ≤ t0.arena.length → (∀ m', m' < k → j ≠ w m') →
        ((tc.updateLoop C (List.range m).reverse).nodeAt j).children_open_count =
          (t0.nodeAt j).children_open_count) ∧
      (∀ m', m' < k →
        ((tc.updateLoop C (List.range m).reverse).nodeAt (w m')).children_open_count =
          (tc.updateLoop C (List.range m).reverse).recomputeCount
            (((tc.updateLoop C (List.range m).reverse).nodeAt (w m')).children)) := by
  intro m
  induction m with
  | zero =>
    intro hm tc hstr hcounts hcons
    simp only [List.range_zero, List.reverse_nil, Tree.updateLoop]
    exact ⟨hstr,
      fun j hj1 hj2 hjW => hcounts j hj1 hj2 (fun m' _ h2 => hjW m' h2),
      fun m' hm' => hcons m' (Nat.zero_le m') hm'⟩
  | succ m ih =>
    intro hm tc hstr hcounts hcons
    have hmk : m < k := by omega
    have hwm : t0.walkFrom (C.take m) = some (w m) := hw m (by omega)
    have hwm_tc : tc.walkFrom (C.take m) = some (w m) := by
      rw [← strEq_walkFrom hstr]
      exact hwm
    have hres := walk_result hs0 _ (w m) hwm
    have hlen_eq := hstr.1
    have hget_tc : tc.get (w m) = some (tc.nodeAt (w m)) :=
      tree_get_of_lt tc (w m) hres.1 (by omega)
    have hswf_tc : StructWf tc := strEq_swf hstr hs0
    have hpath_pres : ∀ x, (tc.nodeAt x).path = (t0.nodeAt x).path :=
      fun x => (strEq_nodeAt_path hstr x).symm
    rw [range_reverse_succ, updateLoop_cons_some tc C m _ (w m) hwm_tc]
    set t' := tc.setNode (w m)
      { tc.nodeAt (w m) with
        children_open_count := tc.recomputeCount ((tc.nodeAt (w m)).children) } with ht'
    have hstep : StrEq tc t' :=
      strEq_set_count tc (w m) (tc.nodeAt (w m)) _ hget_tc
    have hstr' : StrEq t0 t' := strEq_trans hstr hstep
    have hget_other : ∀ j, 1 ≤ j → j ≠ w m → t'.get j = tc.get j := by
      intro j hj1 hj
      rw [ht']
      show (tc.arena.set (w m - 1) _)[j - 1]? = tc.arena[j - 1]?
      exact List.getElem?_set_ne (by omega)
    have hnode_other : ∀ j, 1 ≤ j → j ≠ w m → t'.nodeAt j = tc.nodeAt j := by
      intro j hj1 hj
      show (t'.get j).getD default = (tc.get j).getD default
      rw [hget_other j hj1 hj]
    have hnode_self : t'.nodeAt (w m) =
        { tc.nodeAt (w m) with
          children_open_count := tc.recomputeCount ((tc.nodeAt (w m)).children) } := by
      show (t'.get (w m)).getD default = _
      rw [ht', get_set_self tc (w m) _ _ hget_tc]
      rfl
    have hwdist : ∀ m1 m2, m1 ≤ k → m2 ≤ k → m1 ≠ m2 → w m1 ≠ w m2 := by
      intro m1 m2 hm1 hm2 hne he
      have h1 := hplen m1 hm1
      have h2 := hplen m2 hm2
      rw [he] at h1
      omega
    have hweight : ∀ mm : ChildMap,
        (∀ kv, kv ∈ mm → 1 ≤ kv.2 ∧ kv.2 ≠ w m) →
        tc.recomputeCount mm = t'.recomputeCount mm := by
      intro mm hkvne
      apply recomputeCount_congr
      intro kv hkv
      apply childWeight_eq
      rw [hget_other kv.2 (hkvne kv hkv).1 (hkvne kv hkv).2]
    -- children of a chain node at level `m' ≥ m` never point back at `w m`
    have hchild_ne : ∀ m', m ≤ m' → m' < k →
        ∀ kv, kv ∈ (tc.nodeAt (w m')).children → 1 ≤ kv.2 ∧ kv.2 ≠ w m := by
      intro m' hmm' hm'k kv hkv
      have hwm' : t0.walkFrom (C.take m') = some (w m') := hw m' (by omega)
      have hres' := walk_result hs0 _ (w m') hwm'
      have hget_tc' : tc.get (w m') = some (tc.nodeAt (w m')) :=
        tree_get_of_lt tc (w m') hres'.1 (by omega)
      have hcf := swf_child_any hswf_tc hget_tc' hkv
      refine ⟨by omega, ?_⟩
      intro he
      have hlen1 : kv.1.comps.length = (tc.nodeAt (w m')).path.comps.length + 1 :=
        hcf.2.2.2.2.2.2
      have hpath2 : (tc.nodeAt kv.2).path = kv.1 := hcf.2.2.2.1
      have e1 : (tc.nodeAt kv.2).path.comps.length =
          t0.rootNode.path.comps.length + m' + 1 := by
        rw [hpath2, hlen1, hpath_pres (w m'), hplen m' (by omega)]
      rw [he, hpath_pres (w m), hplen m (by omega)] at e1
      omega
    have hcounts' : ∀ j, 1 ≤ j → j ≤ t0.arena.length →
        (∀ m', m ≤ m' → m' < k → j ≠ w m') →
        (t'.nodeAt j).children_open_count = (t0.nodeAt j).children_open_count := by
      intro j hj1 hj2 hjW
      rw [hnode_other j hj1 (hjW m le_rfl hmk)]
      exact hcounts j hj1 hj2 (fun m' h1 h2 => hjW m' (by omega) h2)
    have hcons' : ∀ m', m ≤ m' → m' < k →
        (t'.nodeAt (w m')).children_open_count =
          t'.recomputeCount ((t'.nodeAt (w m')).children) := by
      intro m' hmm' hm'k
      rcases Nat.eq_or_lt_of_le hmm' with heq | hlt
      · subst heq
        rw [hnode_self]
        show tc.recomputeCount ((tc.nodeAt (w m)).children) =
          t'.recomputeCount ((tc.nodeAt (w m)).children)
        exact hweight _ (hchild_ne m le_rfl hm'k)
      · have hne : w m' ≠ w m :=
          hwdist m' m (by omega) (by omega) (by omega)
        have hv' := walk_result hs0 _ (w m') (hw m' (by omega))
        rw [hnode_other (w m') hv'.1 hne]
        rw [← hweight _ (hchild_ne m' (by omega) hm'k)]
        exact hcons m' (by omega) hm'k
    exact ih (by omega) t' hstr' hcounts' hcons'

theorem updateNode_eq_loop (t : Tree) (ixT : Nat) (nT : Node)
    (hget : t.get ixT = some nT) (hb : t.rootNode.path.absolute = true)
    (habs : nT.path.absolute = true)
    (hpre : t.rootNode.path.comps <+: nT.path.comps) :
    t.updateNode ixT =
      t.updateLoop (t.chain nT.path)
        (List.range (t.chain nT.path).length).reverse := by
  have hstrip : nT.path.stripBase t.rootNode.path =
      some ⟨false, nT.path.comps.drop t.rootNode.path.comps.length⟩ := by
    rw [stripBase_of_absolute _ _ hb]
    simp [habs, hpre]
  have hanc := updateAnc_eq_chain t nT.path hb habs hpre
  rw [Tree.updateNode, hget]
  show (match nT.path.stripBase t.rootNode.path with
    | none => t
    | some disc =>
      let anc := (((RPath.ancestors disc).take disc.componentsCount).map
        (fun a => t.rootNode.path.join a)).reverse
      t.updateLoop anc (List.range anc.length).reverse) = _
  rw [hstrip]
  show t.updateLoop
      (((RPath.ancestors
            (⟨false, nT.path.comps.drop t.rootNode.path.comps.length⟩ : RPath)).take
          (RPath.componentsCount
            (⟨false, nT.path.comps.drop t.rootNode.path.comps.length⟩ : RPath))).map
        (fun a => t.rootNode.path.join a)).reverse
      (List.range
        (((RPath.ancestors
              (⟨false, nT.path.comps.drop t.rootNode.path.comps.length⟩ : RPath)).take
            (RPath.componentsCount
              (⟨false, nT.path.comps.drop t.rootNode.path.comps.length⟩ : RPath))).map
          (fun a => t.rootNode.path.join a)).reverse.length).reverse = _
  rw [hanc]

/-- Full effect of `Tree::update_node` on a structurally well-formed tree:
the shape is unchanged, counts away from the strict-ancestor chain of the
target are untouched, and if every node off that chain was already
consistent then the whole tree is consistent afterwards. -/
theorem updateNode_spec {t : Tree} (hs : StructWf t) {ixT : Nat} {nT : Node}
    (h1 : 1 ≤ ixT) (hget : t.get ixT = some nT)
    (hcons : ∀ j, 1 ≤ j → j ≤ t.arena.length →
      (∀ m', m' < (t.chain nT.path).length →
        t.walkFrom ((t.chain nT.path).take m') ≠ some j) →
      (t.nodeAt j).children_open_count = t.recomputeCount ((t.nodeAt j).children)) :
    StrEq t (t.updateNode ixT) ∧ StructWf (t.updateNode ixT) ∧
      CountWf (t.updateNode ixT) ∧
      (∀ j, 1 ≤ j → j ≤ t.arena.length →
        (∀ m', m' < (t.chain nT.path).length →
          t.walkFrom ((t.chain nT.path).take m') ≠ some j) →
        ((t.updateNode ixT).nodeAt j).children_open_count =
          (t.nodeAt j).children_open_count) := by
  have hb : t.rootNode.path.absolute = true := hs.2.1
  have hat := swf_at hs h1 hget
  have habs : nT.path.absolute = true := hat.1.1
  have hpre : t.rootNode.path.comps <+: nT.path.comps := hat.1.2
  have hreach : t.walkFrom (t.chain nT.path) = some ixT := hat.2.2.2
  have hNr : t.rootNode.path.comps.length ≤ nT.path.comps.length := hpre.length_le
  have hklen : (t.chain nT.path).length =
      nT.path.comps.length - t.rootNode.path.comps.length := chain_length t nT.path
  set C := t.chain nT.path with hC
  set k := C.length with hk
  set w : Nat → Nat := fun m => (t.walkFrom (C.take m)).getD 1 with hwdef
  have hw : ∀ m, m ≤ k → t.walkFrom (C.take m) = some (w m) := by
    intro m hm
    rcases walk_take_some t C ixT m hreach with ⟨y, hy⟩
    have hwm : w m = y := by
      show (t.walkFrom (C.take m)).getD 1 = y
      rw [hy]
      rfl
    rw [hwm, hy]
  have hw0 : w 0 = 1 := by
    rw [hwdef]
    simp [Tree.walkFrom]
  have hwk : w k = ixT := by
    have := hw k le_rfl
    rw [List.take_length] at this
    rw [hreach] at this
    exact (Option.some_injective _ this).symm
  have hroot_nodeAt : t.nodeAt 1 = t.rootNode := rfl
  have hwpath : ∀ m, 1 ≤ m → m ≤ k →
      (t.nodeAt (w m)).path =
        ⟨nT.path.absolute, nT.path.comps.take (t.rootNode.path.comps.length + m)⟩ := by
    intro m hm1 hmk
    rcases Nat.exists_eq_succ_of_ne_zero (by omega : m ≠ 0) with ⟨mm, hmm⟩
    subst hmm
    have hlast := chain_take_getLast t nT.path mm (by omega)
    have hres := walk_result hs (C.take (mm + 1)) (w (mm + 1)) (hw (mm + 1) hmk)
    have := hres.2.2.2 _ hlast
    rw [this]
    have harith : t.rootNode.path.comps.length + 1 + mm =
        t.rootNode.path.comps.length + (mm + 1) := by omega
    rw [harith]
  have hplen : ∀ m, m ≤ k →
      (t.nodeAt (w m)).path.comps.length = t.rootNode.path.comps.length + m := by
    intro m hm
    rcases Nat.eq_zero_or_pos m with h0 | hpos
    · subst h0
      rw [hw0, hroot_nodeAt]
      omega
    · rw [hwpath m hpos hm]
      have : t.rootNode.path.comps.length + m ≤ nT.path.comps.length := by omega
      simp only
      rw [List.length_take]
      omega
  have hloop := updateLoop_spec t hs C k w hw hplen k le_rfl t (strEq_refl t)
    (fun j _ _ _ => rfl) (fun m' h1' h2' => absurd (lt_of_le_of_lt h1' h2') (lt_irrefl _))
  have hupd : t.updateNode ixT = t.updateLoop C (List.range k).reverse :=
    updateNode_eq_loop t ixT nT hget hb habs hpre
  have hWne : ∀ j, 1 ≤ j → j ≤ t.arena.length →
      ((∀ m', m' < k → t.walkFrom (C.take m') ≠ some j) ↔
        (∀ m', m' < k → j ≠ w m')) := by
    intro j hj1 hj2
    constructor
    · intro h m' hm' he
      exact h m' hm' (by rw [hw m' (by omega), he])
    · intro h m' hm' he
      apply h m' hm'
      have := hw m' (by omega)
      rw [he] at this
      exact Option.some_injective _ this
  refine ⟨?_, ?_, ?_, ?_⟩
  · rw [hupd]
    exact hloop.1
  · rw [hupd]
    exact strEq_swf hloop.1 hs
  · -- consistency everywhere
    rw [hupd]
    intro i hi
    set tf := t.updateLoop C (List.range k).reverse with htf
    have hlenf : t.arena.length = tf.arena.length := hloop.1.1
    have hj2 : i + 1 ≤ t.arena.length := by omega
    by_cases hjW : ∃ m', m' < k ∧ i + 1 = w m'
    · rcases hjW with ⟨m', hm', he⟩
      rw [he]
      exact hloop.2.2 m' hm'
    · push_neg at hjW
      have hjW' : ∀ m', m' < k → i + 1 ≠ w m' := hjW
      have hcnt_pres := hloop.2.1 (i + 1) (by omega) hj2 hjW'
      have hcons_t := hcons (i + 1) (by omega) hj2
        ((hWne (i + 1) (by omega) hj2).mpr hjW')
      rw [hcnt_pres, hcons_t]
      have hch_eq : (t.nodeAt (i + 1)).children = (tf.nodeAt (i + 1)).children :=
        strEq_nodeAt_children hloop.1 (i + 1)
      rw [← hch_eq]
      apply recomputeCount_congr
      intro kv hkv
      apply childWeight_eq
      -- the child is not on the updated chain
      have hgetj : t.get (i + 1) = some (t.nodeAt (i + 1)) :=
        tree_get_of_lt t (i + 1) (by omega) hj2
      have hcf := swf_child_any hs hgetj hkv
      have hkvW : ∀ m', m' < k → kv.2 ≠ w m' := by
        intro m' hm' he
        rcases Nat.eq_zero_or_pos m' with h0 | hpos
        · subst h0
          rw [hw0] at he
          omega
        · have hpathkv : (t.nodeAt kv.2).path =
              ⟨nT.path.absolute,
                nT.path.comps.take (t.rootNode.path.comps.length + m')⟩ := by
            rw [he]
            exact hwpath m' hpos (by omega)
          have hkey : kv.1 = (t.nodeAt kv.2).path := hcf.2.2.2.1.symm
          have hdrop : (t.nodeAt (i + 1)).path.comps = kv.1.comps.dropLast :=
            hcf.2.2.2.2.2.1.symm
          have htk : t.rootNode.path.comps.length + m' ≤ nT.path.comps.length := by
            omega
          have hdl : kv.1.comps.dropLast =
              nT.path.comps.take (t.rootNode.path.comps.length + m' - 1) := by
            rw [hkey, hpathkv]
            simp only
            rw [show nT.path.comps.take (t.rootNode.path.comps.length + m') =
              nT.path.comps.take ((t.rootNode.path.comps.length + m' - 1) + 1) from by
                rw [show (t.rootNode.path.comps.length + m' - 1) + 1 =
                  t.rootNode.path.comps.length + m' from by omega]]
            rw [dropLast_take _ _ (by omega)]
          have habsj : (t.nodeAt (i + 1)).path.absolute = true :=
            (swf_at hs (by omega : 1 ≤ i + 1) hgetj).1.1
          have hpathj : (t.nodeAt (i + 1)).path =
              ⟨true, nT.path.comps.take (t.rootNode.path.comps.length + m' - 1)⟩ := by
            cases hpj : (t.nodeAt (i + 1)).path with
            | mk a c =>
              rw [hpj] at habsj hdrop
              simp only at habsj hdrop ⊢
              rw [habsj, hdrop, hdl]
          rcases Nat.eq_or_lt_of_le hpos with h1' | h2'
          · -- m' = 1 : the parent would be the root
            have hm'1 : m' = 1 := h1'.symm
            subst hm'1
            have hrootc : nT.path.comps.take (t.rootNode.path.comps.length + 1 - 1) =
                t.rootNode.path.comps := by
              have := List.prefix_iff_eq_take.mp hpre
              rw [show t.rootNode.path.comps.length + 1 - 1 =
                t.rootNode.path.comps.length from by omega]
              exact this.symm
            have hpathj' : (t.nodeAt (i + 1)).path = t.rootNode.path := by
              rw [hpathj, hrootc]
              cases hrp : t.rootNode.path with
              | mk a c =>
                have : a = true := by rw [hrp] at hb; exact hb
                simp [this]
            have : i + 1 = 1 := by
              apply walk_unique hs (by omega : 1 ≤ i + 1) (le_refl 1) hgetj
                (swf_root_get hs)
              rw [hpathj']
            have := hjW' 0 (by omega)
            rw [hw0] at this
            omega
          · -- m' ≥ 2 : the parent is the previous chain node
            have hppath : (t.nodeAt (w (m' - 1))).path =
                ⟨nT.path.absolute,
                  nT.path.comps.take (t.rootNode.path.comps.length + (m' - 1))⟩ :=
              hwpath (m' - 1) (by omega) (by omega)
            have hgetw : t.get (w (m' - 1)) = some (t.nodeAt (w (m' - 1))) := by
              have hres := walk_result hs _ (w (m' - 1)) (hw (m' - 1) (by omega))
              exact tree_get_of_lt t _ hres.1 hres.2.1
            have heqp : (t.nodeAt (i + 1)).path = (t.nodeAt (w (m' - 1))).path := by
              rw [hpathj, hppath, habs]
              congr 2
              omega
            have hres := walk_result hs _ (w (m' - 1)) (hw (m' - 1) (by omega))
            have : i + 1 = w (m' - 1) :=
              walk_unique hs (by omega : 1 ≤ i + 1) hres.1 hgetj hgetw heqp
            exact hjW' (m' - 1) (by omega) this
      -- counts and flags at the child are unchanged
      have hvalid : 1 ≤ kv.2 ∧ kv.2 ≤ t.arena.length := ⟨by omega, hcf.2.1⟩
      have hcnt_kv := hloop.2.1 kv.2 hvalid.1 hvalid.2 hkvW
      have hgetkv : t.get kv.2 = some (t.nodeAt kv.2) :=
        tree_get_of_lt t kv.2 hvalid.1 hvalid.2
      rcases strEq_get_some hloop.1 hgetkv with ⟨n', hg', hstr'⟩
      rw [hgetkv, hg']
      show some (cntOf (t.nodeAt kv.2)) = some (cntOf n')
      have hopen := nodeStr_open hstr'
      have hcnt2 : n'.children_open_count = (t.nodeAt kv.2).children_open_count := by
        have hnf : tf.nodeAt kv.2 = n' := nodeAt_of_get tf kv.2 n' hg'
        rw [← hnf]
        exact hcnt_kv
      rw [cntOf, cntOf, hopen, hcnt2]
  · intro j hj1 hj2 hjne
    rw [hupd]
    exact hloop.2.1 j hj1 hj2 ((hWne j hj1 hj2).mp hjne)

/-! ### Shape-only equality (ignores flags and counts) -/

/-- The data `StructWf` depends on. -/
def shapeOf (n : Node) : RPath × ChildMap :=
  (n.path, n.children)

def ShapeEq (t t' : Tree) : Prop :=
  t.arena.length = t'.arena.length ∧
  ∀ ix, (t.get ix).map shapeOf = (t'.get ix).map shapeOf

theorem strEq_shapeEq {t t' : Tree} (h : StrEq t t') : ShapeEq t t' := by
  refine ⟨h.1, fun ix => ?_⟩
  cases hg : t.get ix with
  | none => rw [strEq_get_none h hg]
  | some n =>
    rcases strEq_get_some h hg with ⟨n', hg', hstr⟩
    rw [hg']
    show some (shapeOf n) = some (shapeOf n')
    rw [shapeOf, shapeOf, nodeStr_path hstr, nodeStr_children hstr]

theorem shapeEq_get_none {t t' : Tree} (h : ShapeEq t t') {ix : Nat}
    (hg : t.get ix = none) : t'.get ix = none := by
  have := h.2 ix
  rw [hg] at this
  cases hg' : t'.get ix with
  | none => rfl
  | some n => rw [hg'] at this; simp at this

theorem shapeEq_get_some {t t' : Tree} (h : ShapeEq t t') {ix : Nat} {n : Node}
    (hg : t.get ix = some n) :
    ∃ n', t'.get ix = some n' ∧ n'.path = n.path ∧ n'.children = n.children := by
  have := h.2 ix
  rw [hg] at this
  cases hg' : t'.get ix with
  | none => rw [hg'] at this; simp at this
  | some n' =>
    rw [hg'] at this
    simp at this
    simp only [shapeOf, Prod.mk.injEq] at this
    exact ⟨n', rfl, this.1.symm, this.2.symm⟩

theorem shapeEq_walkStep {t t' : Tree} (h : ShapeEq t t') (a : RPath) (ix : Nat) :
    t.walkStep a ix = t'.walkStep a ix := by
  simp only [Tree.walkStep]
  cases hg : t.get ix with
  | none => rw [shapeEq_get_none h hg]
  | some n =>
    rcases shapeEq_get_some h hg with ⟨n', hg', hp, hch⟩
    rw [hg', Option.some_bind, Option.some_bind, hch]

theorem shapeEq_walkAux {t t' : Tree} (h : ShapeEq t t') (ps : List RPath) :
    ∀ o, t.walkAux o ps = t'.walkAux o ps := by
  induction ps with
  | nil => intro o; rfl
  | cons a ps ih =>
    intro o
    rw [walkAux_cons, walkAux_cons, ih]
    congr 1
    cases o with
    | none => rfl
    | some i =>
      simp only [Option.some_bind]
      rw [shapeEq_walkStep h]

theorem shapeEq_walkFrom {t t' : Tree} (h : ShapeEq t t') (ps : List RPath) :
    t.walkFrom ps = t'.walkFrom ps :=
  shapeEq_walkAux h ps (some 1)

theorem shapeEq_rootPath {t t' : Tree} (h : ShapeEq t t') :
    t.rootNode.path = t'.rootNode.path := by
  rw [Tree.rootNode, Tree.rootNode]
  cases hg : t.get 1 with
  | none => rw [shapeEq_get_none h hg]
  | some n =>
    rcases shapeEq_get_some h hg with ⟨n', hg', hp, hch⟩
    rw [hg']
    simp only [Option.getD_some]
    exact hp.symm

theorem shapeEq_chain {t t' : Tree} (h : ShapeEq t t') (p : RPath) :
    t.chain p = t'.chain p := by
  rw [Tree.chain, Tree.chain, shapeEq_rootPath h]

theorem shapeEq_nodeAt_path {t t' : Tree} (h : ShapeEq t t') (ix : Nat) :
    (t.nodeAt ix).path = (t'.nodeAt ix).path := by
  cases hg : t.get ix with
  | none => rw [Tree.nodeAt, Tree.nodeAt, hg, shapeEq_get_none h hg]
  | some n =>
    rcases shapeEq_get_some h hg with ⟨n', hg', hp, hch⟩
    rw [Tree.nodeAt, Tree.nodeAt, hg, hg']
    exact hp.symm

theorem shapeEq_nodeAt_children {t t' : Tree} (h : ShapeEq t t') (ix : Nat) :
    (t.nodeAt ix).children = (t'.nodeAt ix).children := by
  cases hg : t.get ix with
  | none => rw [Tree.nodeAt, Tree.nodeAt, hg, shapeEq_get_none h hg]
  | some n =>
    rcases shapeEq_get_some h hg with ⟨n', hg', hp, hch⟩
    rw [Tree.nodeAt, Tree.nodeAt, hg, hg']
    exact hch.symm

theorem shapeEq_swf {t t' : Tree} (he : ShapeEq t t') (h : StructWf t) :
    StructWf t' := by
  refine ⟨?_, ?_, ?_⟩
  · intro h0
    apply h.1
    have hlen := he.1
    rw [h0] at hlen
    simp only [List.length_nil] at hlen
    exact List.length_eq_zero.mp hlen
  · rw [← shapeEq_rootPath he]
    exact h.2.1
  · intro i hi
    have hi0 : i < t.arena.length := by rw [he.1]; exact hi
    have hfacts := h.2.2 i hi0
    have hget : t.get (i + 1) = some (t.nodeAt (i + 1)) :=
      tree_get_of_lt t (i + 1) (by omega) (by omega)
    rcases shapeEq_get_some he hget with ⟨n', hg', hp, hch⟩
    have hn' : t'.nodeAt (i + 1) = n' := nodeAt_of_get t' (i + 1) n' hg'
    refine ⟨?_, ?_, ?_, ?_⟩
    · rw [hn', hp, ← shapeEq_rootPath he]
      exact hfacts.1
    · intro kv hkv
      rw [hn', hch] at hkv
      have hkvf := hfacts.2.1 kv hkv
      refine ⟨hkvf.1, by rw [← he.1]; exact hkvf.2.1, ?_, ?_, ?_, ?_⟩
      · rw [← shapeEq_nodeAt_path he kv.2]
        exact hkvf.2.2.1
      · rw [hn', hp]
        exact hkvf.2.2.2.1
      · rw [hn', hp]
        exact hkvf.2.2.2.2.1
      · rw [hn', hp]
        exact hkvf.2.2.2.2.2
    · rw [hn', hch]
      exact hfacts.2.2.1
    · rw [hn', hp, ← shapeEq_chain he, ← shapeEq_walkFrom he]
      exact hfacts.2.2.2

theorem shapeEq_set_flags (t : Tree) (ix : Nat) (n n' : Node)
    (h : t.get ix = some n) (hp : n'.path = n.path) (hch : n'.children = n.children) :
    ShapeEq t (t.setNode ix n') := by
  constructor
  · rw [set_length]
  · intro j
    by_cases hj : j - 1 = ix - 1
    · have hgj : t.get j = some n := by
        rw [Tree.get, hj, ← Tree.get, h]
      have hgj' : (t.setNode ix n').get j = some n' := by
        show (t.arena.set (ix - 1) n')[j - 1]? = some n'
        rw [hj, List.getElem?_set_self']
        rw [show t.arena[ix - 1]? = some n from h]
        rfl
      rw [hgj, hgj']
      show some (shapeOf n) = some (shapeOf n')
      simp only [shapeOf, hp, hch]
    · have heq : (t.setNode ix n').get j = t.get j := by
        show (t.arena.set (ix - 1) _)[j - 1]? = t.arena[j - 1]?
        exact List.getElem?_set_ne (by omega)
      rw [heq]

/-! ### Open/close toggling preserves the invariants -/

theorem node_ext {n m : Node} (h : nodeStr n = nodeStr m)
    (hc : n.children_open_count = m.children_open_count) : n = m := by
  cases n
  cases m
  simp only [nodeStr, Prod.mk.injEq] at h
  simp_all

/-- Two well-formed consistent trees with the same shape and flags are equal:
the cached counts are determined by the rest of the data. -/
theorem wf_eq_of_strEq {t1 t2 : Tree} (hs1 : StructWf t1) (hs2 : StructWf t2)
    (hc1 : CountWf t1) (hc2 : CountWf t2) (he : StrEq t1 t2) : t1 = t2 := by
  have key : ∀ g ix, 1 ≤ ix → ix ≤ t1.arena.length → t1.arena.length - ix ≤ g →
      (t1.nodeAt ix).children_open_count = (t2.nodeAt ix).children_open_count := by
    intro g
    induction g with
    | zero =>
      intro ix hx1 hx2 hg
      have hx : ix = t1.arena.length := by omega
      have hch1 : ((t1.get ix).getD default).children = [] :=
        swf_children_nil_of_ge hs1 (by omega)
      have hch2 : ((t2.get ix).getD default).children = [] :=
        swf_children_nil_of_ge hs2 (by rw [← he.1]; omega)
      have e1 := hc1 (ix - 1) (by omega)
      have e2 := hc2 (ix - 1) (by rw [← he.1]; omega)
      rw [show ix - 1 + 1 = ix from by omega] at e1 e2
      rw [e1, e2]
      rw [show (t1.nodeAt ix).children = [] from hch1,
        show (t2.nodeAt ix).children = [] from hch2]
      rfl
    | succ g ih =>
      intro ix hx1 hx2 hg
      have e1 := hc1 (ix - 1) (by omega)
      have e2 := hc2 (ix - 1) (by rw [← he.1]; omega)
      rw [show ix - 1 + 1 = ix from by omega] at e1 e2
      rw [e1, e2]
      have hch : (t1.nodeAt ix).children = (t2.nodeAt ix).children :=
        strEq_nodeAt_children he ix
      rw [← hch]
      apply recomputeCount_congr
      intro kv hkv
      apply childWeight_eq
      have hget1 : t1.get ix = some (t1.nodeAt ix) := tree_get_of_lt t1 ix hx1 hx2
      have hcf := swf_child_any hs1 hget1 hkv
      have hgkv : t1.get kv.2 = some (t1.nodeAt kv.2) := hcf.2.2.1
      rcases strEq_get_some he hgkv with ⟨n', hg', hstr⟩
      rw [hgkv, hg']
      show some (cntOf (t1.nodeAt kv.2)) = some (cntOf n')
      have hopen := nodeStr_open hstr
      have hcnt := ih kv.2 (by omega) hcf.2.1 (by omega)
      have hn2 : t2.nodeAt kv.2 = n' := nodeAt_of_get t2 kv.2 n' hg'
      rw [cntOf, cntOf, hopen, ← hn2, hcnt]
  have harena : ∀ i : Nat, t1.arena[i]? = t2.arena[i]? := by
    intro i
    by_cases hi : i < t1.arena.length
    · have hget1 : t1.get (i + 1) = some (t1.nodeAt (i + 1)) :=
        tree_get_of_lt t1 (i + 1) (by omega) (by omega)
      rcases strEq_get_some he hget1 with ⟨n', hg', hstr⟩
      have hcnt := key t1.arena.length (i + 1) (by omega) (by omega) (by omega)
      have hn2 : t2.nodeAt (i + 1) = n' := nodeAt_of_get t2 (i + 1) n' hg'
      have : t1.nodeAt (i + 1) = n' := by
        apply node_ext hstr.symm
        rw [hcnt, hn2]
      show t1.get (i + 1) = t2.get (i + 1)
      rw [hget1, hg', this]
    · have h1 : t1.arena[i]? = none := by
        rw [List.getElem?_eq_none]
        omega
      have h2 : t2.arena[i]? = none := by
        rw [List.getElem?_eq_none]
        rw [← he.1]
        omega
      rw [h1, h2]
  have : t1.arena = t2.arena := List.ext_getElem? harena
  cases t1
  cases t2
  simpa using this

theorem toggle_wf {t : Tree} (hs : StructWf t) (hc : CountWf t) {ix : Nat}
    {n : Node} (h1 : 1 ≤ ix) (hget : t.get ix = some n) (b : Bool) :
    StructWf (t.toggleOpen ix b) ∧ CountWf (t.toggleOpen ix b) ∧
      StrEq (t.setNode ix { n with is_open := b }) (t.toggleOpen ix b) := by
  have htog : t.toggleOpen ix b =
      (t.setNode ix { n with is_open := b }).updateNode ix := by
    rw [Tree.toggleOpen, hget]
  set t1 := t.setNode ix { n with is_open := b } with ht1
  have hshape : ShapeEq t t1 :=
    shapeEq_set_flags t ix n { n with is_open := b } hget rfl rfl
  have hs1 : StructWf t1 := shapeEq_swf hshape hs
  have hget1 : t1.get ix = some { n with is_open := b } := by
    rw [ht1]
    exact get_set_self t ix _ n hget
  have hn1 : t1.nodeAt ix = { n with is_open := b } := nodeAt_of_get t1 ix _ hget1
  have hlen1 : t.arena.length = t1.arena.length := hshape.1
  have hcnt1 : ∀ j, (t1.nodeAt j).children_open_count =
      (t.nodeAt j).children_open_count := by
    intro j
    by_cases hj : j - 1 = ix - 1
    · have hgj : t.get j = some n := by
        rw [Tree.get, hj, ← Tree.get, hget]
      have hgj1 : t1.get j = some { n with is_open := b } := by
        rw [ht1]
        show (t.arena.set (ix - 1) _)[j - 1]? = _
        rw [hj, List.getElem?_set_self']
        rw [show t.arena[ix - 1]? = some n from hget]
        rfl
      rw [Tree.nodeAt, Tree.nodeAt, hgj, hgj1]
      rfl
    · have hgj : t1.get j = t.get j := by
        rw [ht1]
        show (t.arena.set (ix - 1) _)[j - 1]? = t.arena[j - 1]?
        exact List.getElem?_set_ne (by omega)
      rw [Tree.nodeAt, Tree.nodeAt, hgj]
  have hopen1 : ∀ j, 1 ≤ j → j ≠ ix →
      (t1.nodeAt j).is_open = (t.nodeAt j).is_open := by
    intro j hj1 hj
    have hgj : t1.get j = t.get j := by
      rw [ht1]
      show (t.arena.set (ix - 1) _)[j - 1]? = t.arena[j - 1]?
      exact List.getElem?_set_ne (by omega)
    rw [Tree.nodeAt, Tree.nodeAt, hgj]
  -- path facts of the toggled node
  have hat := swf_at hs h1 hget
  have hb : t.rootNode.path.absolute = true := hs.2.1
  have habs : n.path.absolute = true := hat.1.1
  have hpre : t.rootNode.path.comps <+: n.path.comps := hat.1.2
  have hNr : t.rootNode.path.comps.length ≤ n.path.comps.length := hpre.length_le
  have hreach : t.walkFrom (t.chain n.path) = some ix := hat.2.2.2
  have hchain1 : t1.chain n.path = t.chain n.path := (shapeEq_chain hshape n.path).symm
  have hwalk1 : ∀ ps, t1.walkFrom ps = t.walkFrom ps :=
    fun ps => (shapeEq_walkFrom hshape ps).symm
  have hklen : (t.chain n.path).length =
      n.path.comps.length - t.rootNode.path.comps.length := chain_length t n.path
  -- consistency of t1 away from the ancestors of ix
  have hcons1 : ∀ j, 1 ≤ j → j ≤ t1.arena.length →
      (∀ m', m' < (t1.chain (t1.nodeAt ix).path).length →
        t1.walkFrom ((t1.chain (t1.nodeAt ix).path).take m') ≠ some j) →
      (t1.nodeAt j).children_open_count =
        t1.recomputeCount ((t1.nodeAt j).children) := by
    intro j hj1 hj2 hjW
    rw [hn1] at hjW
    simp only at hjW
    rw [hchain1] at hjW
    have hjW' : ∀ m', m' < (t.chain n.path).length →
        t.walkFrom ((t.chain n.path).take m') ≠ some j := by
      intro m' hm' he
      exact hjW m' hm' (by rw [hwalk1, he])
    have hj2t : j ≤ t.arena.length := by omega
    have hcj := hc (j - 1) (by omega)
    rw [show j - 1 + 1 = j from by omega] at hcj
    rw [hcnt1 j, hcj]
    have hchj : (t1.nodeAt j).children = (t.nodeAt j).children :=
      (shapeEq_nodeAt_children hshape j).symm
    rw [hchj]
    apply recomputeCount_congr
    intro kv hkv
    apply childWeight_eq
    have hgetj : t.get j = some (t.nodeAt j) := tree_get_of_lt t j hj1 hj2t
    have hcf := swf_child_any hs hgetj hkv
    -- the child slot is not the toggled node
    have hkvne : kv.2 ≠ ix := by
      intro he2
      -- then j would be the parent of ix, which lies on the ancestor chain
      have hpathkv : (t.nodeAt kv.2).path = n.path := by
        rw [he2, nodeAt_of_get t ix n hget]
      have hkey : kv.1 = n.path := by
        rw [← hcf.2.2.2.1, hpathkv]
      have hdrop : (t.nodeAt j).path.comps = n.path.comps.dropLast := by
        rw [← hcf.2.2.2.2.2.1, hkey]
      have hlenkv : n.path.comps.length = (t.nodeAt j).path.comps.length + 1 := by
        have := hcf.2.2.2.2.2.2
        rw [hkey] at this
        exact this
      have hk1 : 1 ≤ (t.chain n.path).length := by
        rw [hklen]
        -- j's path extends the root's path, so n.path is strictly longer than it
        have hjat := swf_at hs hj1 hgetj
        have := hjat.1.2.length_le
        omega
      rcases walk_take_some t (t.chain n.path) ix
        ((t.chain n.path).length - 1) hreach with ⟨y, hy⟩
      have hres := walk_result hs _ y hy
      rcases Nat.eq_zero_or_pos ((t.chain n.path).length - 1) with hz | hpos
      · -- the parent is the root itself
        rw [hz, List.take_zero] at hy
        have hy1 : y = 1 := by
          simp [Tree.walkFrom] at hy
          omega
        have hjpath : (t.nodeAt j).path = t.rootNode.path := by
          have hNr1 : n.path.comps.length = t.rootNode.path.comps.length + 1 := by
            rw [hklen] at hk1 hz
            omega
          have : (t.nodeAt j).path.comps = t.rootNode.path.comps := by
            rw [hdrop, List.dropLast_eq_take, hNr1]
            simp only [Nat.add_sub_cancel]
            have := List.prefix_iff_eq_take.mp hpre
            exact this.symm
          have habsj : (t.nodeAt j).path.absolute = true :=
            (swf_at hs hj1 hgetj).1.1
          cases hpj : (t.nodeAt j).path with
          | mk a c =>
            rw [hpj] at habsj this
            cases hrp : t.rootNode.path with
            | mk a' c' =>
              rw [hrp] at hb this
              simp only at habsj hb this ⊢
              rw [habsj, hb, this]
        have : j = 1 :=
          walk_unique hs hj1 (le_refl 1) hgetj (swf_root_get hs)
            (by rw [hjpath])
        apply hjW' 0 (by omega)
        rw [List.take_zero]
        simp [Tree.walkFrom]
        omega
      · -- the parent is the chain node one level up
        have harith : (t.chain n.path).length - 1 - 1 + 1 =
            (t.chain n.path).length - 1 := by omega
        have hlast' : ((t.chain n.path).take ((t.chain n.path).length - 1)).getLast? =
            some ⟨n.path.absolute, n.path.comps.take (t.rootNode.path.comps.length +
              ((t.chain n.path).length - 1))⟩ := by
          rw [← harith]
          rw [chain_take_getLast t n.path ((t.chain n.path).length - 1 - 1)
            (by rw [hklen] at hpos ⊢; omega)]
          congr 3
          omega
        have hypath := hres.2.2.2 _ hlast'
        have hjpath : (t.nodeAt j).path = (t.nodeAt y).path := by
          rw [hypath]
          have hNlen : t.rootNode.path.comps.length + ((t.chain n.path).length - 1) =
              n.path.comps.length - 1 := by
            rw [hklen]
            omega
          have hcomps : (t.nodeAt j).path.comps =
              n.path.comps.take (n.path.comps.length - 1) := by
            rw [hdrop, List.dropLast_eq_take]
          have habsj : (t.nodeAt j).path.absolute = true :=
            (swf_at hs hj1 hgetj).1.1
          cases hpj : (t.nodeAt j).path with
          | mk a c =>
            rw [hpj] at habsj hcomps
            simp only at habsj hcomps ⊢
            rw [habsj, habs, hcomps, hNlen]
        have : j = y :=
          walk_unique hs hj1 hres.1 hgetj
            (tree_get_of_lt t y hres.1 hres.2.1) hjpath
        apply hjW' ((t.chain n.path).length - 1) (by omega)
        rw [hy, this]
    -- counts and flags at the child agree between t and t1
    have hgkv : t.get kv.2 = some (t.nodeAt kv.2) := hcf.2.2.1
    rcases shapeEq_get_some hshape hgkv with ⟨n', hg', hp', hch'⟩
    rw [hgkv, hg']
    show some (cntOf (t.nodeAt kv.2)) = some (cntOf n')
    have hn1kv : t1.nodeAt kv.2 = n' := nodeAt_of_get t1 kv.2 n' hg'
    rw [cntOf, cntOf]
    have hopen : (t.nodeAt kv.2).is_open = n'.is_open := by
      rw [← hn1kv]
      exact (hopen1 kv.2 (by omega) hkvne).symm
    have hcntkv : (t.nodeAt kv.2).children_open_count = n'.children_open_count := by
      rw [← hn1kv]
      exact (hcnt1 kv.2).symm
    rw [hopen, hcntkv]
  have hspec := updateNode_spec hs1 h1 hget1 (by rw [hn1] at hcons1; exact hcons1)
  rw [htog]
  exact ⟨hspec.2.1, hspec.2.2.1, hspec.1⟩

/-! ### The `create` walk -/

theorem chain_getElem? (t : Tree) (p : RPath) (m : Nat)
    (hm : m < (t.chain p).length) :
    (t.chain p)[m]? =
      some ⟨p.absolute, p.comps.take (t.rootNode.path.comps.length + 1 + m)⟩ := by
  rw [Tree.chain] at hm ⊢
  rw [List.getElem?_map]
  rw [List.length_map, List.length_range'] at hm
  rw [List.getElem?_range' _ _ hm]
  simp

theorem chain_take_succ (t : Tree) (p : RPath) (m : Nat)
    (hm : m < (t.chain p).length) :
    (t.chain p).take (m + 1) =
      (t.chain p).take m ++
        [⟨p.absolute, p.comps.take (t.rootNode.path.comps.length + 1 + m)⟩] := by
  rw [List.take_succ, chain_getElem? t p m hm]
  rfl

theorem chain_take_path (t : Tree) (p : RPath) (j : Nat)
    (hr : t.rootNode.path.comps.length ≤ p.comps.length)
    (hj : j ≤ p.comps.length - t.rootNode.path.comps.length) :
    t.chain ⟨p.absolute, p.comps.take (t.rootNode.path.comps.length + j)⟩ =
      (t.chain p).take j := by
  rw [chain_take t p j hj, Tree.chain]
  simp only
  have hlen : (p.comps.take (t.rootNode.path.comps.length + j)).length =
      t.rootNode.path.comps.length + j := by
    rw [List.length_take]
    omega
  rw [hlen]
  rw [show t.rootNode.path.comps.length + j - t.rootNode.path.comps.length = j
    from by omega]
  apply List.map_congr_left
  intro i hi
  have hir := List.mem_range'_1.mp hi
  congr 1
  rw [List.take_take]
  congr 1
  omega

theorem create_fail {t : Tree} {nd : Node}
    (h : nd.path.stripBase t.rootNode.path = none) : t.create nd = (none, t) := by
  rw [Tree.create, h]

theorem create_ok {t : Tree} {nd : Node} {disc : RPath}
    (h : nd.path.stripBase t.rootNode.path = some disc) :
    t.create nd =
      (some ((t.createAnc nd disc).foldl (Tree.createStep nd) (1, t)).1,
        (((t.createAnc nd disc).foldl (Tree.createStep nd) (1, t)).2).updateNode
          ((t.createAnc nd disc).foldl (Tree.createStep nd) (1, t)).1) := by
  rw [Tree.create, h]

theorem createStep_hit {nd : Node} {st : Nat × Tree} {a : RPath} {ix : Nat}
    (h : (st.2.get st.1).bind (fun n => cmGet n.children a) = some ix) :
    Tree.createStep nd st a = (ix, st.2) := by
  rw [Tree.createStep, h]

theorem createStep_miss_terminal {nd : Node} {st : Nat × Tree} {a : RPath}
    (h : (st.2.get st.1).bind (fun n => cmGet n.children a) = none)
    (heq : nd.path = a) :
    Tree.createStep nd st a =
      (st.2.arena.length + 1,
        (st.2.push nd).2.setNode st.1
          { ((st.2.push nd).2.get st.1).getD default with
            children :=
              cmInsert (((st.2.push nd).2.get st.1).getD default).children a
                (st.2.arena.length + 1) }) := by
  rw [Tree.createStep, h]
  simp only [if_pos heq]
  rfl

theorem createStep_miss_inner {nd : Node} {st : Nat × Tree} {a : RPath}
    (h : (st.2.get st.1).bind (fun n => cmGet n.children a) = none)
    (hne : ¬ nd.path = a) :
    Tree.createStep nd st a =
      (st.2.arena.length + 1,
        (st.2.push { Node.new a with is_dir := true }).2.setNode st.1
          { ((st.2.push { Node.new a with is_dir := true }).2.get st.1).getD default with
            children :=
              cmInsert
                (((st.2.push { Node.new a with is_dir := true }).2.get st.1).getD
                  default).children a
                (st.2.arena.length + 1) }) := by
  rw [Tree.createStep, h]
  simp only [if_neg hne]
  rfl

/-- Invariant of the `for ancestor in ancestors_rev` loop in `Tree::create`,
after processing the first `m` chain elements: the tree stays structurally
well-formed, the current index sits at the `m`-th path prefix, old nodes
keep their data (children can only gain links), new slots are placeholder
directories (or the inserted node itself at the terminal path), and every
node off the already-visited chain still has a consistent cached count. -/
structure MidInv (t0 : Tree) (nd : Node) (m : Nat) (st : Nat × Tree) : Prop where
  swf : StructWf st.2
  rootp : st.2.rootNode.path = t0.rootNode.path
  lenge : t0.arena.length ≤ st.2.arena.length
  cur1 : 1 ≤ st.1
  curle : st.1 ≤ st.2.arena.length
  curpath : (st.2.nodeAt st.1).path =
    ⟨nd.path.absolute, nd.path.comps.take (t0.rootNode.path.comps.length + m)⟩
  walk : st.2.walkFrom ((t0.chain nd.path).take m) = some st.1
  ext : ExtendsT t0 st.2
  oldflags : ∀ j, 1 ≤ j → j ≤ t0.arena.length →
    (st.2.nodeAt j).path = (t0.nodeAt j).path ∧
    (st.2.nodeAt j).is_dir = (t0.nodeAt j).is_dir ∧
    (st.2.nodeAt j).is_open = (t0.nodeAt j).is_open ∧
    (st.2.nodeAt j).children_open_count = (t0.nodeAt j).children_open_count
  newdata : ∀ j, t0.arena.length < j → j ≤ st.2.arena.length →
    (∃ mm, 1 ≤ mm ∧ mm ≤ m ∧ (st.2.nodeAt j).path =
      ⟨nd.path.absolute, nd.path.comps.take (t0.rootNode.path.comps.length + mm)⟩) ∧
    ((st.2.nodeAt j).path ≠ nd.path →
      (st.2.nodeAt j).is_dir = true ∧ (st.2.nodeAt j).is_open = false) ∧
    ((st.2.nodeAt j).path = nd.path → st.2.nodeAt j = nd)
  consist : ∀ j, 1 ≤ j → j ≤ st.2.arena.length →
    (∀ m', m' < m → st.2.walkFrom ((t0.chain nd.path).take m') ≠ some j) →
    (st.2.nodeAt j).children_open_count =
      st.2.recomputeCount ((st.2.nodeAt j).children)

theorem midInv_base {t0 : Tree} {nd : Node} (hs0 : StructWf t0) (hc0 : CountWf t0)
    (habs : nd.path.absolute = true)
    (hpre : t0.rootNode.path.comps <+: nd.path.comps) :
    MidInv t0 nd 0 (1, t0) := by
  have hroot : t0.nodeAt 1 = t0.rootNode := rfl
  refine ⟨hs0, rfl, le_rfl, le_rfl, swf_len_pos hs0, ?_, ?_, extendsT_refl t0,
    fun j _ _ => ⟨rfl, rfl, rfl, rfl⟩,
    fun j hj1 hj2 => absurd (show j ≤ t0.arena.length from hj2) (by omega), ?_⟩
  · rw [hroot]
    have hcomps : nd.path.comps.take t0.rootNode.path.comps.length =
        t0.rootNode.path.comps := (List.prefix_iff_eq_take.mp hpre).symm
    have hb : t0.rootNode.path.absolute = true := hs0.2.1
    rw [Nat.add_zero, hcomps, habs, ← hb]
  · simp [Tree.walkFrom]
  · intro j hj1 hj2 _
    have hj2' : j ≤ t0.arena.length := hj2
    have := hc0 (j - 1) (by omega)
    rw [show j - 1 + 1 = j from by omega] at this
    exact this

/-- Effect of the `None` branch of the walk in `Tree::create`: pushing the
missing node `p` (the caller's node at the terminal path, a closed directory
placeholder otherwise) and linking it under the current node re-establishes
the loop invariant one level deeper. -/
theorem midInv_miss {t0 : Tree} {nd : Node} (hs0 : StructWf t0)
    (habs : nd.path.absolute = true)
    (hpre : t0.rootNode.path.comps <+: nd.path.comps)
    {m : Nat} (hm : m < (t0.chain nd.path).length)
    {st : Nat × Tree} (hinv : MidInv t0 nd m st) (p : Node)
    (hp_path : p.path =
      ⟨nd.path.absolute, nd.path.comps.take (t0.rootNode.path.comps.length + 1 + m)⟩)
    (hp_ch : p.children = []) (hp_cnt : p.children_open_count = 0)
    (hp_inner : p.path ≠ nd.path → p.is_dir = true ∧ p.is_open = false)
    (hp_term : p.path = nd.path → p = nd)
    (hlook : cmGet (st.2.nodeAt st.1).children
      ⟨nd.path.absolute, nd.path.comps.take (t0.rootNode.path.comps.length + 1 + m)⟩ =
        none) :
    MidInv t0 nd (m + 1)
      (st.2.arena.length + 1,
        (st.2.push p).2.setNode st.1
          { ((st.2.push p).2.get st.1).getD default with
            children :=
              cmInsert (((st.2.push p).2.get st.1).getD default).children
                ⟨nd.path.absolute,
                  nd.path.comps.take (t0.rootNode.path.comps.length + 1 + m)⟩
                (st.2.arena.length + 1) }) := by
  have hr : t0.rootNode.path.comps.length ≤ nd.path.comps.length := hpre.length_le
  have hklen := chain_length t0 nd.path
  have hrm : t0.rootNode.path.comps.length + 1 + m ≤ nd.path.comps.length := by
    rw [hklen] at hm
    omega
  set r := t0.rootNode.path.comps.length with hrdef
  set c : RPath := ⟨nd.path.absolute, nd.path.comps.take (r + 1 + m)⟩ with hcdef
  set tc := st.2 with htcdef
  set cur := st.1 with hcurdef
  set lenc := tc.arena.length with hlencdef
  have hrootp : tc.rootNode.path = t0.rootNode.path := hinv.rootp
  have hcur1 : 1 ≤ cur := hinv.cur1
  have hcurle : cur ≤ lenc := hinv.curle
  have hl0 : t0.arena.length ≤ lenc := hinv.lenge
  have hstlen : st.2.arena.length = lenc := rfl
  have hgetcur : tc.get cur = some (tc.nodeAt cur) :=
    tree_get_of_lt tc cur hcur1 hcurle
  set ncur := tc.nodeAt cur with hncurdef
  have hcurpath : ncur.path = ⟨nd.path.absolute, nd.path.comps.take (r + m)⟩ :=
    hinv.curpath
  have hwalkm : tc.walkFrom ((t0.chain nd.path).take m) = some cur := hinv.walk
  have hget1cur : (tc.push p).2.get cur = some ncur := by
    rw [get_push_old tc p cur hcur1 hcurle, hgetcur]
  have hparentD : ((tc.push p).2.get cur).getD default = ncur := by
    rw [hget1cur]
    rfl
  set ncur' : Node := { ncur with children := cmInsert ncur.children c (lenc + 1) }
    with hncurdef'
  set t2 := (tc.push p).2.setNode cur ncur' with ht2def
  simp only [hparentD]
  show MidInv t0 nd (m + 1) (lenc + 1, t2)
  have hncur'_path : ncur'.path = ncur.path := rfl
  have hncur'_dir : ncur'.is_dir = ncur.is_dir := rfl
  have hncur'_open : ncur'.is_open = ncur.is_open := rfl
  have hncur'_cnt : ncur'.children_open_count = ncur.children_open_count := rfl
  have hncur'_ch : ncur'.children = cmInsert ncur.children c (lenc + 1) := rfl
  have hchins : ncur'.children = ncur.children ++ [(c, lenc + 1)] := by
    rw [hncur'_ch]
    exact cmInsert_of_none _ _ _ hlook
  have hget2_cur : t2.get cur = some ncur' :=
    get_set_self _ cur _ ncur hget1cur
  have hget2_new : t2.get (lenc + 1) = some p := by
    show ((tc.push p).2.setNode cur ncur').get (lenc + 1) = some p
    rw [get_set_other _ cur (lenc + 1) _ hcur1 (by omega) (by omega)]
    exact get_push_new tc p
  have hget2_old : ∀ j, 1 ≤ j → j ≤ lenc → j ≠ cur → t2.get j = tc.get j := by
    intro j hj1 hj2 hj
    show ((tc.push p).2.setNode cur ncur').get j = tc.get j
    rw [get_set_other _ cur j _ hcur1 hj1 (Ne.symm hj), get_push_old tc p j hj1 hj2]
  have hlen2 : t2.arena.length = lenc + 1 := by
    show ((tc.push p).2.setNode cur ncur').arena.length = lenc + 1
    rw [set_length, push_length]
  have hnode2_cur : t2.nodeAt cur = ncur' := nodeAt_of_get _ cur _ hget2_cur
  have hnode2_new : t2.nodeAt (lenc + 1) = p := nodeAt_of_get _ _ _ hget2_new
  have hnode2_old : ∀ j, 1 ≤ j → j ≤ lenc → j ≠ cur →
      t2.nodeAt j = tc.nodeAt j := by
    intro j hj1 hj2 hj
    show (t2.get j).getD default = (tc.get j).getD default
    rw [hget2_old j hj1 hj2 hj]
  have hpath2 : ∀ j, 1 ≤ j → j ≤ lenc → (t2.nodeAt j).path = (tc.nodeAt j).path := by
    intro j hj1 hj2
    by_cases hj : j = cur
    · rw [hj, hnode2_cur, hncur'_path]
    · rw [hnode2_old j hj1 hj2 hj]
  have hflags2 : ∀ j, 1 ≤ j → j ≤ lenc →
      (t2.nodeAt j).is_dir = (tc.nodeAt j).is_dir ∧
      (t2.nodeAt j).is_open = (tc.nodeAt j).is_open ∧
      (t2.nodeAt j).children_open_count = (tc.nodeAt j).children_open_count := by
    intro j hj1 hj2
    by_cases hj : j = cur
    · subst hj
      rw [hnode2_cur, hncur'_dir, hncur'_open, hncur'_cnt]
      exact ⟨rfl, rfl, rfl⟩
    · rw [hnode2_old j hj1 hj2 hj]
      exact ⟨rfl, rfl, rfl⟩
  have hroot2 : t2.rootNode.path = tc.rootNode.path := by
    show ((t2.get 1).getD default).path = ((tc.get 1).getD default).path
    by_cases hc1 : cur = 1
    · rw [← hc1, hget2_cur, hgetcur]
      exact hncur'_path
    · rw [hget2_old 1 le_rfl (by omega) (fun h => hc1 h.symm)]
  have hext12 : ExtendsT tc t2 := by
    have key : ∀ jx n, 1 ≤ jx → tc.get jx = some n →
        ∃ n', t2.get jx = some n' ∧
          (∀ k v, cmGet n.children k = some v → cmGet n'.children k = some v) := by
      intro jx n hj1 hgetjx
      have hjle : jx ≤ lenc := by
        have := tree_get_lt tc jx n hgetjx
        omega
      by_cases hj : jx = cur
      · subst hj
        have hn : n = ncur := by
          have h2 := hgetcur
          rw [hgetjx] at h2
          exact Option.some_injective _ h2
        refine ⟨ncur', hget2_cur, ?_⟩
        intro k v hv
        rw [hchins]
        exact cmGet_append_of_some _ _ _ _ (hn ▸ hv)
      · refine ⟨n, ?_, fun k v hv => hv⟩
        rw [hget2_old jx hj1 hjle hj]
        exact hgetjx
    intro ix n hgetix
    rcases Nat.eq_zero_or_pos ix with h0 | h1
    · subst h0
      rcases key 1 n le_rfl hgetix with ⟨n', hg, hs⟩
      exact ⟨n', hg, hs⟩
    · exact key ix n h1 hgetix
  have hwalk2 : t2.walkFrom ((t0.chain nd.path).take m) = some cur :=
    walkFrom_mono hext12 _ _ hwalkm
  have hcget : cmGet ncur'.children c = some (lenc + 1) := by
    rw [hchins, cmGet_append_of_none _ _ _ hlook]
    simp [cmGet]
  have hwalk2' : t2.walkFrom ((t0.chain nd.path).take (m + 1)) = some (lenc + 1) := by
    rw [chain_take_succ t0 nd.path m hm, walkFrom_eq_aux, walkAux_append,
      ← walkFrom_eq_aux, hwalk2, walkAux_cons, Option.some_bind]
    show (t2.get cur).bind (fun n => cmGet n.children c) = some (lenc + 1)
    rw [hget2_cur]
    show cmGet ncur'.children c = some (lenc + 1)
    exact hcget
  have hrtc : tc.rootNode.path.comps.length = r := by rw [hrootp]
  have hdropc : c.comps.dropLast = ncur.path.comps := by
    show (nd.path.comps.take (r + 1 + m)).dropLast = ncur.path.comps
    rw [show r + 1 + m = (r + m) + 1 from by omega,
      dropLast_take _ _ (by omega), hcurpath]
  have hlenc2 : c.comps.length = ncur.path.comps.length + 1 := by
    rw [hcurpath]
    show (nd.path.comps.take (r + 1 + m)).length =
      (nd.path.comps.take (r + m)).length + 1
    rw [List.length_take, List.length_take]
    omega
  have habsc : c.absolute = ncur.path.absolute := by
    rw [hcurpath]
  have hrootpre2 : ∀ q : RPath, tc.rootNode.path.comps <+: q.comps →
      t2.rootNode.path.comps <+: q.comps := by
    intro q hqq
    rw [hroot2]
    exact hqq
  have hcpre : t0.rootNode.path.comps <+: c.comps := by
    show t0.rootNode.path.comps <+: nd.path.comps.take (r + 1 + m)
    rw [List.prefix_iff_eq_take, List.take_take,
      show min t0.rootNode.path.comps.length (r + 1 + m) =
        t0.rootNode.path.comps.length from by omega]
    exact List.prefix_iff_eq_take.mp hpre
  have hcpre' : tc.rootNode.path.comps <+: c.comps := by
    rw [hrootp]
    exact hcpre
  have hchain2 : ∀ q, t2.chain q = tc.chain q := by
    intro q
    rw [Tree.chain, Tree.chain, hroot2]
  have h2chain : tc.chain nd.path = t0.chain nd.path := by
    rw [Tree.chain, Tree.chain, hrootp]
  have htup : (⟨nd.path.absolute,
      nd.path.comps.take (tc.rootNode.path.comps.length + (m + 1))⟩ : RPath) = c := by
    rw [hrtc, show r + (m + 1) = r + 1 + m from by omega]
  have hchainc : t2.chain c = (t0.chain nd.path).take (m + 1) := by
    rw [hchain2, ← htup,
      chain_take_path tc nd.path (m + 1) (by omega) (by omega), h2chain]
  have hswf2 : StructWf t2 := by
    refine ⟨?_, ?_, ?_⟩
    · intro h0
      have h00 : t2.arena.length = 0 := by simp [h0]
      rw [hlen2] at h00
      omega
    · rw [hroot2, hrootp]
      exact hs0.2.1
    · intro i hi
      rw [hlen2] at hi
      by_cases hjn : i + 1 = lenc + 1
      · rw [hjn, hnode2_new]
        refine ⟨⟨?_, ?_⟩, ?_, ?_, ?_⟩
        · rw [hp_path]
          exact habs
        · rw [hp_path]
          exact hrootpre2 c hcpre'
        · intro kv hkv
          rw [hp_ch] at hkv
          simp at hkv
        · simp [hp_ch]
        · rw [hp_path, hchainc]
          exact hwalk2'
      · have hj2 : i + 1 ≤ lenc := by omega
        by_cases hjc : i + 1 = cur
        · rw [hjc, hnode2_cur]
          have hat := swf_at hinv.swf hcur1 hgetcur
          refine ⟨⟨?_, ?_⟩, ?_, ?_, ?_⟩
          · rw [hncur'_path]
            exact hat.1.1
          · rw [hncur'_path]
            exact hrootpre2 ncur.path hat.1.2
          · intro kv hkv
            rw [hchins] at hkv
            rw [hlen2, hncur'_path]
            rcases List.mem_append.mp hkv with hold | hnew
            · obtain ⟨hf1, hf2, hf3, hf4, hf5, hf6⟩ := hat.2.1 kv hold
              refine ⟨hf1, by omega, ?_, hf4, hf5, hf6⟩
              rw [hpath2 kv.2 (by omega) (by omega)]
              exact hf3
            · have hk : kv = (c, lenc + 1) := by simpa using hnew
              have hk1 : kv.1 = c := by rw [hk]
              have hk2 : kv.2 = lenc + 1 := by rw [hk]
              rw [hk1, hk2, hnode2_new, hp_path]
              exact ⟨by omega, by omega, rfl, habsc, hdropc, hlenc2⟩
          · have hm2 : ncur'.children.map Prod.fst =
                ncur.children.map Prod.fst ++ [c] := by
              rw [hchins, List.map_append]
              rfl
            rw [hm2, List.nodup_append]
            refine ⟨hat.2.2.1, List.nodup_singleton c, ?_⟩
            intro a ha hb
            have hb' : a = c := by simpa using hb
            subst hb'
            exact (cmGet_eq_none_iff _ _).mp hlook ha
          · rw [hncur'_path, hchain2]
            exact walkFrom_mono hext12 _ _ hat.2.2.2
        · rw [hnode2_old (i + 1) (by omega) hj2 hjc]
          have hget : tc.get (i + 1) = some (tc.nodeAt (i + 1)) :=
            tree_get_of_lt tc (i + 1) (by omega) hj2
          have hat := swf_at hinv.swf (by omega : 1 ≤ i + 1) hget
          obtain ⟨⟨hab, hpr⟩, hch, hnd, hre⟩ := hat
          refine ⟨⟨hab, hrootpre2 _ hpr⟩, ?_, hnd, ?_⟩
          · intro kv hkv
            obtain ⟨hf1, hf2, hf3, hf4, hf5, hf6⟩ := hch kv hkv
            rw [hlen2]
            refine ⟨hf1, by omega, ?_, hf4, hf5, hf6⟩
            rw [hpath2 kv.2 (by omega) (by omega)]
            exact hf3
          · rw [hchain2]
            exact walkFrom_mono hext12 _ _ hre
  refine ⟨hswf2, ?_, ?_, ?_, ?_, ?_, hwalk2', extendsT_trans hinv.ext hext12,
    ?_, ?_, ?_⟩
  · show t2.rootNode.path = t0.rootNode.path
    rw [hroot2]
    exact hrootp
  · show t0.arena.length ≤ t2.arena.length
    omega
  · show (1 : Nat) ≤ lenc + 1
    omega
  · show lenc + 1 ≤ t2.arena.length
    omega
  · show (t2.nodeAt (lenc + 1)).path =
      ⟨nd.path.absolute, nd.path.comps.take (r + (m + 1))⟩
    rw [show r + (m + 1) = r + 1 + m from by omega, hnode2_new, hp_path]
  · intro j hj1 hj2
    have hj2c : j ≤ lenc := by omega
    have hfl := hflags2 j hj1 hj2c
    have hold : (tc.nodeAt j).path = (t0.nodeAt j).path ∧
        (tc.nodeAt j).is_dir = (t0.nodeAt j).is_dir ∧
        (tc.nodeAt j).is_open = (t0.nodeAt j).is_open ∧
        (tc.nodeAt j).children_open_count = (t0.nodeAt j).children_open_count :=
      hinv.oldflags j hj1 hj2
    exact ⟨(hpath2 j hj1 hj2c).trans hold.1, (hfl.1).trans hold.2.1,
      (hfl.2.1).trans hold.2.2.1, (hfl.2.2).trans hold.2.2.2⟩
  · intro j hj1 hj2
    have hj2'' : j ≤ t2.arena.length := hj2
    by_cases hjn : j = lenc + 1
    · subst hjn
      refine ⟨⟨m + 1, by omega, le_rfl, ?_⟩, ?_, ?_⟩
      · show (t2.nodeAt (lenc + 1)).path =
          ⟨nd.path.absolute, nd.path.comps.take (r + (m + 1))⟩
        rw [show r + (m + 1) = r + 1 + m from by omega, hnode2_new, hp_path]
      · show (t2.nodeAt (lenc + 1)).path ≠ nd.path →
          (t2.nodeAt (lenc + 1)).is_dir = true ∧
            (t2.nodeAt (lenc + 1)).is_open = false
        rw [hnode2_new]
        exact hp_inner
      · show (t2.nodeAt (lenc + 1)).path = nd.path → t2.nodeAt (lenc + 1) = nd
        rw [hnode2_new]
        exact hp_term
    · have hj2c : j ≤ lenc := by omega
      by_cases hjc : j = cur
      · subst hjc
        have hnd2 : (∃ mm, 1 ≤ mm ∧ mm ≤ m ∧ ncur.path =
            ⟨nd.path.absolute, nd.path.comps.take (r + mm)⟩) ∧
            (ncur.path ≠ nd.path → ncur.is_dir = true ∧ ncur.is_open = false) ∧
            (ncur.path = nd.path → ncur = nd) :=
          hinv.newdata cur hj1 hcurle
        refine ⟨?_, ?_, ?_⟩
        · obtain ⟨mm, hmm1, hmm2, hmm3⟩ := hnd2.1
          refine ⟨mm, hmm1, by omega, ?_⟩
          show (t2.nodeAt cur).path = ⟨nd.path.absolute, nd.path.comps.take (r + mm)⟩
          rw [hnode2_cur, hncur'_path]
          exact hmm3
        · intro hne
          have hne' : ncur.path ≠ nd.path := by
            intro he
            apply hne
            show (t2.nodeAt cur).path = nd.path
            rw [hnode2_cur, hncur'_path]
            exact he
          have hdo := hnd2.2.1 hne'
          constructor
          · show (t2.nodeAt cur).is_dir = true
            rw [hnode2_cur, hncur'_dir]
            exact hdo.1
          · show (t2.nodeAt cur).is_open = false
            rw [hnode2_cur, hncur'_open]
            exact hdo.2
        · intro heqp
          exfalso
          have heqp' : ncur.path = nd.path := by
            have h3 : (t2.nodeAt cur).path = nd.path := heqp
            rw [hnode2_cur, hncur'_path] at h3
            exact h3
          rw [hcurpath] at heqp'
          have h1 : (nd.path.comps.take (r + m)).length = nd.path.comps.length :=
            congrArg (fun q : RPath => q.comps.length) heqp'
          rw [List.length_take] at h1
          omega
      · show (∃ mm, 1 ≤ mm ∧ mm ≤ m + 1 ∧ (t2.nodeAt j).path =
            ⟨nd.path.absolute, nd.path.comps.take (r + mm)⟩) ∧
          ((t2.nodeAt j).path ≠ nd.path →
            (t2.nodeAt j).is_dir = true ∧ (t2.nodeAt j).is_open = false) ∧
          ((t2.nodeAt j).path = nd.path → t2.nodeAt j = nd)
        rw [hnode2_old j (by omega) hj2c hjc]
        have hnd3 : (∃ mm, 1 ≤ mm ∧ mm ≤ m ∧ (tc.nodeAt j).path =
            ⟨nd.path.absolute, nd.path.comps.take (r + mm)⟩) ∧
            ((tc.nodeAt j).path ≠ nd.path →
              (tc.nodeAt j).is_dir = true ∧ (tc.nodeAt j).is_open = false) ∧
            ((tc.nodeAt j).path = nd.path → tc.nodeAt j = nd) :=
          hinv.newdata j hj1 hj2c
        obtain ⟨⟨mm, hmm1, hmm2, hmm3⟩, hrest⟩ := hnd3
        exact ⟨⟨mm, hmm1, by omega, hmm3⟩, hrest⟩
  · intro j hj1 hj2 hjW
    have hj2'' : j ≤ t2.arena.length := hj2
    have hjW' : ∀ m', m' < m + 1 →
        t2.walkFrom ((t0.chain nd.path).take m') ≠ some j := hjW
    show (t2.nodeAt j).children_open_count = t2.recomputeCount (t2.nodeAt j).children
    by_cases hjn : j = lenc + 1
    · subst hjn
      rw [hnode2_new, hp_cnt, hp_ch]
      rfl
    · have hj2c : j ≤ lenc := by omega
      have hjc : j ≠ cur := by
        intro he
        exact hjW' m (by omega) (by rw [he]; exact hwalk2)
      rw [hnode2_old j hj1 hj2c hjc]
      have hbase : (tc.nodeAt j).children_open_count =
          tc.recomputeCount (tc.nodeAt j).children :=
        hinv.consist j hj1 hj2c (by
          intro m' hm' he
          exact hjW' m' (by omega) (walkFrom_mono hext12 _ _ he))
      rw [hbase]
      apply recomputeCount_congr
      intro kv hkv
      have hget : tc.get j = some (tc.nodeAt j) := tree_get_of_lt tc j hj1 hj2c
      obtain ⟨hcf1, hcf2, hcf3, hcf4, hcf5, hcf6, hcf7⟩ :=
        swf_child_any hinv.swf hget hkv
      by_cases hkvc : kv.2 = cur
      · exact childWeight_eq kv (by rw [hkvc, hgetcur, hget2_cur]; rfl)
      · exact childWeight_eq kv (by rw [hget2_old kv.2 (by omega) hcf2 hkvc])

/-- Effect of the `Some(ix)` branch of the walk in `Tree::create`: following
an existing child link advances the loop invariant one level without
changing the tree. -/
theorem midInv_hit {t0 : Tree} {nd : Node}
    {m : Nat} (hm : m < (t0.chain nd.path).length)
    {st : Nat × Tree} (hinv : MidInv t0 nd m st) {ix : Nat}
    (hcm : cmGet (st.2.nodeAt st.1).children
      ⟨nd.path.absolute, nd.path.comps.take (t0.rootNode.path.comps.length + 1 + m)⟩ =
        some ix) :
    MidInv t0 nd (m + 1) (ix, st.2) := by
  set r := t0.rootNode.path.comps.length with hrdef
  set c : RPath := ⟨nd.path.absolute, nd.path.comps.take (r + 1 + m)⟩ with hcdef
  have hcur1 : 1 ≤ st.1 := hinv.cur1
  have hcurle : st.1 ≤ st.2.arena.length := hinv.curle
  have hget1 : st.2.get st.1 = some (st.2.nodeAt st.1) :=
    tree_get_of_lt _ _ hcur1 hcurle
  have hkv : (c, ix) ∈ (st.2.nodeAt st.1).children := cmGet_mem _ _ _ hcm
  obtain ⟨hcf1, hcf2, hcf3, hcf4, hcf5, hcf6, hcf7⟩ :=
    swf_child_any hinv.swf hget1 hkv
  have hcf1' : st.1 < ix := hcf1
  have hcf2' : ix ≤ st.2.arena.length := hcf2
  have hcf4' : (st.2.nodeAt ix).path = c := hcf4
  have hwalk' : st.2.walkFrom ((t0.chain nd.path).take (m + 1)) = some ix := by
    rw [chain_take_succ t0 nd.path m hm, walkFrom_eq_aux, walkAux_append,
      ← walkFrom_eq_aux, hinv.walk, walkAux_cons, Option.some_bind]
    show (st.2.get st.1).bind (fun n => cmGet n.children c) = some ix
    rw [hget1]
    show cmGet (st.2.nodeAt st.1).children c = some ix
    exact hcm
  refine ⟨hinv.swf, hinv.rootp, hinv.lenge, ?_, hcf2', ?_, hwalk', hinv.ext,
    hinv.oldflags, ?_, ?_⟩
  · show 1 ≤ ix
    omega
  · show (st.2.nodeAt ix).path = ⟨nd.path.absolute, nd.path.comps.take (r + (m + 1))⟩
    rw [show r + (m + 1) = r + 1 + m from by omega]
    exact hcf4'
  · intro j hj1 hj2
    obtain ⟨⟨mm, hmm1, hmm2, hmm3⟩, hrest⟩ := hinv.newdata j hj1 hj2
    exact ⟨⟨mm, hmm1, by omega, hmm3⟩, hrest⟩
  · intro j hj1 hj2 hjW
    exact hinv.consist j hj1 hj2 (fun m' hm' => hjW m' (by omega))

/-- One iteration of the `for ancestor in ancestors_rev` loop of
`Tree::create` preserves the loop invariant, advancing it to the next
element of the ancestor chain. -/
theorem midInv_step {t0 : Tree} {nd : Node} (hs0 : StructWf t0)
    (habs : nd.path.absolute = true)
    (hpre : t0.rootNode.path.comps <+: nd.path.comps)
    (hnd_ch : nd.children = []) (hnd_cnt : nd.children_open_count = 0)
    {m : Nat} (hm : m < (t0.chain nd.path).length)
    {st : Nat × Tree} (hinv : MidInv t0 nd m st) :
    MidInv t0 nd (m + 1)
      (Tree.createStep nd st
        ⟨nd.path.absolute,
          nd.path.comps.take (t0.rootNode.path.comps.length + 1 + m)⟩) := by
  have hget1 : st.2.get st.1 = some (st.2.nodeAt st.1) :=
    tree_get_of_lt _ _ hinv.cur1 hinv.curle
  cases hbind : (st.2.get st.1).bind (fun n => cmGet n.children
      ⟨nd.path.absolute,
        nd.path.comps.take (t0.rootNode.path.comps.length + 1 + m)⟩) with
  | some ix =>
    rw [createStep_hit hbind]
    apply midInv_hit hm hinv
    rw [hget1, Option.some_bind] at hbind
    exact hbind
  | none =>
    rw [hget1, Option.some_bind] at hbind
    by_cases hterm : nd.path =
        (⟨nd.path.absolute,
          nd.path.comps.take (t0.rootNode.path.comps.length + 1 + m)⟩ : RPath)
    · rw [createStep_miss_terminal (by rw [hget1, Option.some_bind]; exact hbind) hterm]
      exact midInv_miss hs0 habs hpre hm hinv nd hterm hnd_ch hnd_cnt
        (fun h => absurd rfl h) (fun _ => rfl) hbind
    · rw [createStep_miss_inner (by rw [hget1, Option.some_bind]; exact hbind) hterm]
      exact midInv_miss hs0 habs hpre hm hinv _ rfl rfl rfl
        (fun _ => ⟨rfl, rfl⟩) (fun h => absurd h.symm hterm) hbind

/-- Running the whole `for ancestor in ancestors_rev` loop of `Tree::create`
maintains the invariant along the full ancestor chain. -/
theorem midInv_fold {t0 : Tree} {nd : Node} (hs0 : StructWf t0) (hc0 : CountWf t0)
    (habs : nd.path.absolute = true)
    (hpre : t0.rootNode.path.comps <+: nd.path.comps)
    (hnd_ch : nd.children = []) (hnd_cnt : nd.children_open_count = 0)
    (m : Nat) (hm : m ≤ (t0.chain nd.path).length) :
    MidInv t0 nd m
      (((t0.chain nd.path).take m).foldl (Tree.createStep nd) (1, t0)) := by
  induction m with
  | zero =>
    simp only [List.take_zero, List.foldl_nil]
    exact midInv_base hs0 hc0 habs hpre
  | succ k ih =>
    have hk : k < (t0.chain nd.path).length := by omega
    rw [chain_take_succ t0 nd.path k hk, List.foldl_append]
    simp only [List.foldl_cons, List.foldl_nil]
    exact midInv_step hs0 habs hpre hnd_ch hnd_cnt hk (ih (by omega))

/-- Full specification of a successful `Tree::create`: the ancestor-walk fold
establishes the invariant along the whole chain, the call returns the final
walk index paired with the updated tree, the produced slot carries the
requested path, and the trailing `update_node` restores full count
consistency while changing nothing but cached counts. -/
theorem create_spec {t0 : Tree} {nd : Node} (hs0 : StructWf t0) (hc0 : CountWf t0)
    (habs : nd.path.absolute = true)
    (hpre : t0.rootNode.path.comps <+: nd.path.comps)
    (hch : nd.children = []) (hcnt : nd.children_open_count = 0) :
    MidInv t0 nd (t0.chain nd.path).length
        ((t0.chain nd.path).foldl (Tree.createStep nd) (1, t0)) ∧
    t0.create nd =
      (some ((t0.chain nd.path).foldl (Tree.createStep nd) (1, t0)).1,
        ((t0.chain nd.path).foldl (Tree.createStep nd) (1, t0)).2.updateNode
          ((t0.chain nd.path).foldl (Tree.createStep nd) (1, t0)).1) ∧
    ((((t0.chain nd.path).foldl (Tree.createStep nd) (1, t0)).2.nodeAt
        ((t0.chain nd.path).foldl (Tree.createStep nd) (1, t0)).1).path = nd.path) ∧
    StrEq ((t0.chain nd.path).foldl (Tree.createStep nd) (1, t0)).2
      (t0.create nd).2 ∧
    StructWf (t0.create nd).2 ∧ CountWf (t0.create nd).2 := by
  have hfold := midInv_fold hs0 hc0 habs hpre hch hcnt
    (t0.chain nd.path).length le_rfl
  rw [List.take_length] at hfold
  set F := (t0.chain nd.path).foldl (Tree.createStep nd) (1, t0) with hF
  have hrN : t0.rootNode.path.comps.length + (t0.chain nd.path).length =
      nd.path.comps.length := by
    have h1 := chain_length t0 nd.path
    have h2 := hpre.length_le
    omega
  have hpathk : (F.2.nodeAt F.1).path = nd.path := by
    have h := hfold.curpath
    rw [hrN] at h
    rw [h, List.take_length]
  have hb : t0.rootNode.path.absolute = true := hs0.2.1
  have hstrip : nd.path.stripBase t0.rootNode.path =
      some ⟨false, nd.path.comps.drop t0.rootNode.path.comps.length⟩ := by
    rw [stripBase_of_absolute _ _ hb]
    simp [habs, hpre]
  have hanc : t0.createAnc nd
      ⟨false, nd.path.comps.drop t0.rootNode.path.comps.length⟩ =
        t0.chain nd.path := createAnc_eq_chain t0 nd hb habs hpre
  have hcreateq : t0.create nd = (some F.1, F.2.updateNode F.1) := by
    rw [create_ok hstrip, hanc]
  have hswfk : StructWf F.2 := hfold.swf
  have hcur1 : 1 ≤ F.1 := hfold.cur1
  have hgetk : F.2.get F.1 = some (F.2.nodeAt F.1) :=
    tree_get_of_lt _ _ hcur1 hfold.curle
  have hchF : F.2.chain (F.2.nodeAt F.1).path = t0.chain nd.path := by
    rw [hpathk, Tree.chain, Tree.chain, hfold.rootp]
  have hcons : ∀ j, 1 ≤ j → j ≤ F.2.arena.length →
      (∀ m', m' < (F.2.chain (F.2.nodeAt F.1).path).length →
        F.2.walkFrom ((F.2.chain (F.2.nodeAt F.1).path).take m') ≠ some j) →
      (F.2.nodeAt j).children_open_count =
        F.2.recomputeCount ((F.2.nodeAt j).children) := by
    intro j hj1 hj2 hjW
    exact hfold.consist j hj1 hj2 (by
      intro m' hm' he
      exact hjW m' (by rw [hchF]; exact hm') (by rw [hchF]; exact he))
  have hupd := updateNode_spec hswfk hcur1 hgetk hcons
  refine ⟨hfold, hcreateq, hpathk, ?_, ?_, ?_⟩
  · rw [hcreateq]
    exact hupd.1
  · rw [hcreateq]
    exact hupd.2.1
  · rw [hcreateq]
    exact hupd.2.2.1

/-- `Tree::new` on a fresh root node (empty children, zero count, absolute
path) yields a well-formed tree. -/
theorem new_wf (root : Node) (habs : root.path.absolute = true)
    (hch : root.children = []) (hcnt : root.children_open_count = 0) :
    StructWf (Tree.new root) ∧ CountWf (Tree.new root) := by
  have hroot : (Tree.new root).nodeAt 1 = root := rfl
  constructor
  · refine ⟨by simp [Tree.new], ?_, ?_⟩
    · show ((Tree.new root).rootNode).path.absolute = true
      have h1 : (Tree.new root).rootNode = root := rfl
      rw [h1]
      exact habs
    · intro i hi
      have hi0 : i = 0 := by
        simp [Tree.new] at hi
        exact hi
      subst hi0
      simp only [Nat.zero_add]
      rw [hroot]
      refine ⟨⟨habs, ?_⟩, ?_, ?_, ?_⟩
      · have h1 : (Tree.new root).rootNode = root := rfl
        rw [h1]
      · intro kv hkv
        rw [hch] at hkv
        simp at hkv
      · simp [hch]
      · have hc : (Tree.new root).chain root.path = [] := by
          rw [Tree.chain]
          have h1 : (Tree.new root).rootNode = root := rfl
          rw [h1]
          simp
        rw [hc]
        rfl
  · intro i hi
    have hi0 : i = 0 := by
      simp [Tree.new] at hi
      exact hi
    subst hi0
    simp only [Nat.zero_add]
    rw [hroot, hcnt, hch]
    rfl

/-- `Tree::create` with a fresh argument node preserves well-formedness,
whatever the argument's path (a path not under the root leaves the tree
untouched). -/
theorem create_wf {t0 : Tree} (hs0 : StructWf t0) (hc0 : CountWf t0) (nd : Node)
    (hch : nd.children = []) (hcnt : nd.children_open_count = 0) :
    StructWf (t0.create nd).2 ∧ CountWf (t0.create nd).2 := by
  cases hstrip : nd.path.stripBase t0.rootNode.path with
  | none =>
    rw [create_fail hstrip]
    exact ⟨hs0, hc0⟩
  | some disc =>
    have hb : t0.rootNode.path.absolute = true := hs0.2.1
    rw [stripBase_of_absolute _ _ hb] at hstrip
    by_cases hcond : nd.path.absolute = true ∧
        t0.rootNode.path.comps <+: nd.path.comps
    · have hspec := create_spec hs0 hc0 hcond.1 hcond.2 hch hcnt
      exact ⟨hspec.2.2.2.2.1, hspec.2.2.2.2.2⟩
    · rw [if_neg hcond] at hstrip
      simp at hstrip

/-- Any sequence of `Tree::create` calls with fresh argument nodes keeps a
well-formed tree well-formed. -/
theorem creates_wf (ns : List Node) : ∀ (t : Tree), StructWf t → CountWf t →
    (∀ n ∈ ns, n.children = [] ∧ n.children_open_count = 0) →
    StructWf (ns.foldl (fun t n => (t.create n).2) t) ∧
      CountWf (ns.foldl (fun t n => (t.create n).2) t) := by
  induction ns with
  | nil =>
    intro t hs hc _
    exact ⟨hs, hc⟩
  | cons n ns ih =>
    intro t hs hc hfresh
    simp only [List.foldl_cons]
    have h1 := create_wf hs hc n (hfresh n (by simp)).1 (hfresh n (by simp)).2
    exact ih _ h1.1 h1.2 (fun x hx => hfresh x (by simp [hx]))

/-- `Tree::create` on an exact path already present in the tree follows the
existing child links all the way down, returns the existing index, and (the
final `update_node` recomputing only already-consistent counts) leaves the
tree completely unchanged. -/
theorem create_existing {t : Tree} (hs : StructWf t) (hc : CountWf t) {nd : Node}
    {i : Nat} {nx : Node} (h1 : 1 ≤ i) (hget : t.get i = some nx)
    (hpath : nx.path = nd.path) :
    t.create nd = (some i, t) := by
  have hat := swf_at hs h1 hget
  have habs : nd.path.absolute = true := by
    rw [← hpath]
    exact hat.1.1
  have hpre : t.rootNode.path.comps <+: nd.path.comps := by
    rw [← hpath]
    exact hat.1.2
  have hreach : t.walkFrom (t.chain nd.path) = some i := by
    rw [← hpath]
    exact hat.2.2.2
  have hb : t.rootNode.path.absolute = true := hs.2.1
  have hstrip : nd.path.stripBase t.rootNode.path =
      some ⟨false, nd.path.comps.drop t.rootNode.path.comps.length⟩ := by
    rw [stripBase_of_absolute _ _ hb]
    simp [habs, hpre]
  have hanc : t.createAnc nd
      ⟨false, nd.path.comps.drop t.rootNode.path.comps.length⟩ =
        t.chain nd.path := createAnc_eq_chain t nd hb habs hpre
  have key : ∀ m, m ≤ (t.chain nd.path).length →
      ∃ y, t.walkFrom ((t.chain nd.path).take m) = some y ∧
        ((t.chain nd.path).take m).foldl (Tree.createStep nd) (1, t) = (y, t) := by
    intro m
    induction m with
    | zero =>
      intro _
      exact ⟨1, by simp [Tree.walkFrom], by simp⟩
    | succ mm ih =>
      intro hm
      obtain ⟨y, hy, hfold⟩ := ih (by omega)
      have hmlt : mm < (t.chain nd.path).length := by omega
      obtain ⟨y', hy'⟩ := walk_take_some t (t.chain nd.path) i (mm + 1) hreach
      have hstep : (t.get y).bind (fun n => cmGet n.children
          ⟨nd.path.absolute,
            nd.path.comps.take (t.rootNode.path.comps.length + 1 + mm)⟩) =
          some y' := by
        have h2 := hy'
        rw [chain_take_succ t nd.path mm hmlt, walkFrom_eq_aux, walkAux_append,
          ← walkFrom_eq_aux, hy, walkAux_cons, Option.some_bind] at h2
        exact h2
      refine ⟨y', hy', ?_⟩
      rw [chain_take_succ t nd.path mm hmlt, List.foldl_append, hfold]
      simp only [List.foldl_cons, List.foldl_nil]
      rw [createStep_hit hstep]
  obtain ⟨y, hy, hfold⟩ := key (t.chain nd.path).length le_rfl
  rw [List.take_length] at hy hfold
  have hyi : y = i := by
    rw [hreach] at hy
    exact Option.some_injective _ hy.symm
  rw [hyi] at hfold
  rw [create_ok hstrip, hanc, hfold]
  show (some i, t.updateNode i) = (some i, t)
  rw [updateNode_id hs hc i]

/-- Chains of a child path and of its parent path agree on any prefix that
stays within the parent's depth. -/
theorem chain_take_of_child {t : Tree} {pp cp : RPath}
    (habs2 : cp.absolute = pp.absolute) (hdrop : cp.comps.dropLast = pp.comps)
    (hlen : cp.comps.length = pp.comps.length + 1)
    (hr : t.rootNode.path.comps.length ≤ pp.comps.length)
    {m : Nat} (hm : m ≤ pp.comps.length - t.rootNode.path.comps.length) :
    (t.chain cp).take m = (t.chain pp).take m := by
  have hne : cp.comps ≠ [] := by
    intro h
    rw [h] at hlen
    simp at hlen
  have hcp : pp.comps ++ [cp.comps.getLast hne] = cp.comps := by
    rw [← hdrop]
    exact List.dropLast_append_getLast hne
  have htake : cp.comps.take (t.rootNode.path.comps.length + m) =
      pp.comps.take (t.rootNode.path.comps.length + m) := by
    rw [← hcp, List.take_append_of_le_length (by omega)]
  rw [← chain_take_path t cp m (by omega) (by omega),
    ← chain_take_path t pp m hr hm]
  rw [show (⟨cp.absolute, cp.comps.take (t.rootNode.path.comps.length + m)⟩ : RPath)
    = ⟨pp.absolute, pp.comps.take (t.rootNode.path.comps.length + m)⟩ from by
      rw [habs2, htake]]

/-- `visibleIx` unpacked: the walk to every strict non-root ancestor lands on
an open node. -/
theorem visibleIx_iff {t : Tree} (hs : StructWf t) {j : Nat} (h1 : 1 ≤ j)
    (h2 : j ≤ t.arena.length) :
    t.visibleIx j = true ↔
      (∀ m, 1 ≤ m → m < (t.chain (t.nodeAt j).path).length → ∀ a,
        t.walkFrom ((t.chain (t.nodeAt j).path).take m) = some a →
        (t.nodeAt a).is_open = true) := by
  have hget : t.get j = some (t.nodeAt j) := tree_get_of_lt t j h1 h2
  have hreach : t.walkFrom (t.chain (t.nodeAt j).path) = some j :=
    (swf_at hs h1 hget).2.2.2
  rw [Tree.visibleIx, List.all_eq_true]
  constructor
  · intro h m hm1 hm2 a ha
    have hmem : m ∈ List.range' 1 ((t.chain (t.nodeAt j).path).length - 1) := by
      rw [List.mem_range'_1]
      omega
    have h3 := h m hmem
    rw [ha] at h3
    exact h3
  · intro h m hmem
    rw [List.mem_range'_1] at hmem
    obtain ⟨a, ha⟩ := walk_take_some t _ j m hreach
    rw [ha]
    exact h m hmem.1 (by omega) a ha

/-- Every item of the visible subtree below an in-range slot whose strict
non-root ancestors are all open names an in-range slot, carries a level one
below that slot's depth, and itself has all strict non-root ancestors open. -/
theorem visFrom_spec {t : Tree} (hs : StructWf t) :
    ∀ g ix l, t.arena.length - ix ≤ g → 1 ≤ ix → ix ≤ t.arena.length →
      (t.chain (t.nodeAt ix).path).length = l →
      (∀ m, 1 ≤ m → m ≤ l → ∀ a,
        t.walkFrom ((t.chain (t.nodeAt ix).path).take m) = some a →
        (t.nodeAt a).is_open = true) →
      ∀ v ∈ t.visFrom ix l, ∃ j, 1 ≤ j ∧ j ≤ t.arena.length ∧
        v.node = t.nodeAt j ∧
        (t.chain (t.nodeAt j).path).length = v.level + 1 ∧ l ≤ v.level ∧
        t.visibleIx j = true := by
  intro g
  induction g with
  | zero =>
    intro ix l hg h1 h2 hd hanc v hv
    have hch : ((t.get ix).getD default).children = [] :=
      swf_children_nil_of_ge hs (by omega)
    rw [Tree.visFrom, visFromF_children_nil t ix l hch] at hv
    simp at hv
  | succ g ih =>
    intro ix l hg h1 h2 hd hanc v hv
    rw [visFrom_unfold hs ix l, List.mem_flatMap] at hv
    obtain ⟨cix, hcixmem, hvin⟩ := hv
    rw [cmValues, List.mem_map] at hcixmem
    obtain ⟨kv, hkv, hkv2⟩ := hcixmem
    have hget : t.get ix = some (t.nodeAt ix) := tree_get_of_lt t ix h1 h2
    have hkv' : kv ∈ (t.nodeAt ix).children := hkv
    obtain ⟨hc1, hc2, hc3, hc4, hc5, hc6, hc7⟩ := swf_child_any hs hget hkv'
    subst hkv2
    have hpre : t.rootNode.path.comps <+: (t.nodeAt ix).path.comps :=
      (swf_at hs h1 hget).1.2
    have hrle := hpre.length_le
    have hdc : (t.chain (t.nodeAt kv.2).path).length = l + 1 := by
      rw [chain_length] at hd ⊢
      rw [hc4, hc7]
      omega
    have htr : ∀ m, m ≤ l →
        (t.chain (t.nodeAt kv.2).path).take m =
          (t.chain (t.nodeAt ix).path).take m := by
      intro m hm
      rw [hc4]
      apply chain_take_of_child hc5 hc6 hc7 hrle
      rw [chain_length] at hd
      omega
    have hreachc : t.walkFrom (t.chain (t.nodeAt kv.2).path) = some kv.2 :=
      (swf_at hs (by omega) hc3).2.2.2
    have hancc : ∀ m, 1 ≤ m → m ≤ l → ∀ a,
        t.walkFrom ((t.chain (t.nodeAt kv.2).path).take m) = some a →
        (t.nodeAt a).is_open = true := by
      intro m hm1 hm2 a ha
      rw [htr m hm2] at ha
      exact hanc m hm1 hm2 a ha
    have hvisc : t.visibleIx kv.2 = true := by
      refine (visibleIx_iff hs (by omega) hc2).mpr ?_
      intro m hm1 hm2 a ha
      rw [hdc] at hm2
      exact hancc m hm1 (by omega) a ha
    rcases List.mem_cons.mp hvin with hveq | hvrest
    · refine ⟨kv.2, by omega, hc2, ?_, ?_, ?_, hvisc⟩
      · rw [hveq]
        rfl
      · rw [hveq]
        exact hdc
      · rw [hveq]
    · by_cases hopen : ((t.get kv.2).getD default).is_open = true
      · rw [if_pos hopen] at hvrest
        have hanc' : ∀ m, 1 ≤ m → m ≤ l + 1 → ∀ a,
            t.walkFrom ((t.chain (t.nodeAt kv.2).path).take m) = some a →
            (t.nodeAt a).is_open = true := by
          intro m hm1 hm2 a ha
          rcases Nat.lt_or_ge m (l + 1) with hlt | hge
          · exact hancc m hm1 (by omega) a ha
          · have hm : m = l + 1 := by omega
            subst hm
            rw [show (t.chain (t.nodeAt kv.2).path).take (l + 1) =
                t.chain (t.nodeAt kv.2).path from by
              rw [← hdc]
              exact List.take_length _] at ha
            rw [hreachc] at ha
            have haa : a = kv.2 := Option.some_injective _ ha.symm
            rw [haa]
            exact hopen
        obtain ⟨j, hj1, hj2, hjn, hjd, hjl, hjv⟩ :=
          ih kv.2 (l + 1) (by omega) (by omega) hc2 hdc hanc' v hvrest
        exact ⟨j, hj1, hj2, hjn, hjd, by omega, hjv⟩
      · rw [if_neg hopen] at hvrest
        simp at hvrest

/-- Conversely: a node whose strict non-root ancestors are all open appears
in the visible subtree of any slot its walk passes through, at a level one
below its depth. -/
theorem visible_mem_gen {t : Tree} (hs : StructWf t) :
    ∀ dd ix l j, 1 ≤ ix → ix ≤ t.arena.length → 1 ≤ j → j ≤ t.arena.length →
      (t.chain (t.nodeAt j).path).length = l + dd → 1 ≤ dd →
      t.walkFrom ((t.chain (t.nodeAt j).path).take l) = some ix →
      (∀ m, l < m → m < l + dd → ∀ a,
        t.walkFrom ((t.chain (t.nodeAt j).path).take m) = some a →
        (t.nodeAt a).is_open = true) →
      (⟨t.nodeAt j, l + dd - 1⟩ : NodeView) ∈ t.visFrom ix l := by
  intro dd
  induction dd with
  | zero =>
    intro ix l j hx1 hx2 hj1 hj2 hd hdd hw ho
    omega
  | succ de ih =>
    intro ix l j hx1 hx2 hj1 hj2 hd hdd hwalkl hopen
    have hgetj : t.get j = some (t.nodeAt j) := tree_get_of_lt t j hj1 hj2
    have hreach : t.walkFrom (t.chain (t.nodeAt j).path) = some j :=
      (swf_at hs hj1 hgetj).2.2.2
    have hnix : t.get ix = some (t.nodeAt ix) := tree_get_of_lt t ix hx1 hx2
    cases hCl : (t.chain (t.nodeAt j).path)[l]? with
    | none =>
      exfalso
      rw [List.getElem?_eq_none_iff] at hCl
      omega
    | some e =>
      have htakes : (t.chain (t.nodeAt j).path).take (l + 1) =
          (t.chain (t.nodeAt j).path).take l ++ [e] := by
        rw [List.take_succ, hCl]
        rfl
      rcases Nat.eq_zero_or_pos de with h0 | hpos
      · -- the slot is a direct child of `ix`
        subst h0
        have hfull : (t.chain (t.nodeAt j).path).take (l + 1) =
            t.chain (t.nodeAt j).path := by
          rw [show l + 1 = (t.chain (t.nodeAt j).path).length from by omega]
          exact List.take_length _
        have hstep : cmGet (t.nodeAt ix).children e = some j := by
          have h2 := hreach
          rw [← hfull, htakes, walkFrom_eq_aux, walkAux_append,
            ← walkFrom_eq_aux, hwalkl, walkAux_cons, Option.some_bind] at h2
          have h3 : t.walkStep e ix = some j := h2
          rw [Tree.walkStep, hnix, Option.some_bind] at h3
          exact h3
        have hmem : (e, j) ∈ (t.nodeAt ix).children := cmGet_mem _ _ _ hstep
        rw [visFrom_unfold hs ix l, List.mem_flatMap]
        refine ⟨j, ?_, ?_⟩
        · rw [cmValues, List.mem_map]
          exact ⟨(e, j), hmem, rfl⟩
        · simp only [Nat.add_sub_cancel]
          exact List.mem_cons_self _ _
      · -- go through the parent one level below `ix`
        obtain ⟨par, hpar⟩ :=
          walk_take_some t (t.chain (t.nodeAt j).path) j (l + 1) hreach
        have hstep : cmGet (t.nodeAt ix).children e = some par := by
          have h2 := hpar
          rw [htakes, walkFrom_eq_aux, walkAux_append, ← walkFrom_eq_aux,
            hwalkl, walkAux_cons, Option.some_bind] at h2
          have h3 : t.walkStep e ix = some par := h2
          rw [Tree.walkStep, hnix, Option.some_bind] at h3
          exact h3
        have hmem : (e, par) ∈ (t.nodeAt ix).children := cmGet_mem _ _ _ hstep
        obtain ⟨hp1, hp2, hp3, hp4, hp5, hp6, hp7⟩ := swf_child_any hs hnix hmem
        have hparopen : (t.nodeAt par).is_open = true :=
          hopen (l + 1) (by omega) (by omega) par hpar
        have hrec := ih par (l + 1) j (by omega) hp2 hj1 hj2 (by omega) hpos hpar
          (fun m hm1 hm2 a ha => hopen m (by omega) (by omega) a ha)
        have hrec' : (⟨t.nodeAt j, l + (de + 1) - 1⟩ : NodeView) ∈
            t.visFrom par (l + 1) := by
          rw [show l + (de + 1) - 1 = (l + 1) + de - 1 from by omega]
          exact hrec
        rw [visFrom_unfold hs ix l, List.mem_flatMap]
        refine ⟨par, ?_, ?_⟩
        · rw [cmValues, List.mem_map]
          exact ⟨(e, par), hmem, rfl⟩
        · apply List.mem_cons_of_mem
          rw [if_pos (show ((t.get par).getD default).is_open = true from hparopen)]
          exact hrec'

theorem root_depth (t : Tree) : (t.chain (t.nodeAt 1).path).length = 0 := by
  rw [chain_length]
  have h1 : t.nodeAt 1 = t.rootNode := rfl
  rw [h1]
  omega

/-- Each traversed item names an in-range slot, its level is one below the
slot's depth, and all the slot's strict non-root ancestors are open. -/
theorem traverse_spec {t : Tree} (hs : StructWf t) :
    ∀ v ∈ t.traverse, ∃ j, 1 ≤ j ∧ j ≤ t.arena.length ∧
      v.node = t.nodeAt j ∧
      (t.chain (t.nodeAt j).path).length = v.level + 1 ∧
      t.visibleIx j = true := by
  intro v hv
  rw [traverse_eq_visFrom hs] at hv
  obtain ⟨j, h1, h2, h3, h4, h5, h6⟩ :=
    visFrom_spec hs t.arena.length 1 0 (by omega) le_rfl (swf_len_pos hs)
      (root_depth t) (fun m hm1 hm2 a _ => absurd (hm1.trans hm2) (by omega)) v hv
  exact ⟨j, h1, h2, h3, h4, h6⟩

/-- Conversely, every non-root slot with all strict non-root ancestors open
is traversed, at a level one below its depth. -/
theorem traverse_mem {t : Tree} (hs : StructWf t) {j : Nat} (hj1 : 1 ≤ j)
    (hj2 : j ≤ t.arena.length) (hd : 1 ≤ (t.chain (t.nodeAt j).path).length)
    (hvis : t.visibleIx j = true) :
    (⟨t.nodeAt j, (t.chain (t.nodeAt j).path).length - 1⟩ : NodeView) ∈
      t.traverse := by
  rw [traverse_eq_visFrom hs]
  have h := visible_mem_gen hs (t.chain (t.nodeAt j).path).length 1 0 j le_rfl
    (swf_len_pos hs) hj1 hj2 (by omega) hd (by simp [Tree.walkFrom])
    (by
      intro m hm1 hm2 a ha
      exact (visibleIx_iff hs hj1 hj2).mp hvis m (by omega) (by omega) a ha)
  simpa using h

theorem strEq_nodeAt_open {t t' : Tree} (h : StrEq t t') (ix : Nat) :
    (t.nodeAt ix).is_open = (t'.nodeAt ix).is_open := by
  cases hg : t.get ix with
  | none => rw [Tree.nodeAt, Tree.nodeAt, hg, strEq_get_none h hg]
  | some n =>
    rcases strEq_get_some h hg with ⟨n', hg', hstr⟩
    rw [Tree.nodeAt, Tree.nodeAt, hg, hg']
    exact nodeStr_open hstr.symm

theorem strEq_nodeAt_dir {t t' : Tree} (h : StrEq t t') (ix : Nat) :
    (t.nodeAt ix).is_dir = (t'.nodeAt ix).is_dir := by
  cases hg : t.get ix with
  | none => rw [Tree.nodeAt, Tree.nodeAt, hg, strEq_get_none h hg]
  | some n =>
    rcases strEq_get_some h hg with ⟨n', hg', hstr⟩
    rw [Tree.nodeAt, Tree.nodeAt, hg, hg']
    exact nodeStr_dir hstr.symm

theorem shapeEq_trans {t1 t2 t3 : Tree} (h12 : ShapeEq t1 t2)
    (h23 : ShapeEq t2 t3) : ShapeEq t1 t3 :=
  ⟨h12.1.trans h23.1, fun ix => (h12.2 ix).trans (h23.2 ix)⟩

/-- The open/close toggle keeps every path and child link. -/
theorem toggle_shapeEq {t : Tree} (hs : StructWf t) (hc : CountWf t) {ix : Nat}
    {n : Node} (h1 : 1 ≤ ix) (hget : t.get ix = some n) (b : Bool) :
    ShapeEq t (t.toggleOpen ix b) := by
  have htw := toggle_wf hs hc h1 hget b
  exact shapeEq_trans (shapeEq_set_flags t ix n { n with is_open := b } hget rfl rfl)
    (strEq_shapeEq htw.2.2)

/-- After a toggle the flag of the toggled slot has the requested value. -/
theorem toggle_open_at {t : Tree} (hs : StructWf t) (hc : CountWf t) {ix : Nat}
    {n : Node} (h1 : 1 ≤ ix) (hget : t.get ix = some n) (b : Bool) :
    ((t.toggleOpen ix b).nodeAt ix).is_open = b := by
  have htw := toggle_wf hs hc h1 hget b
  have hset : (t.setNode ix { n with is_open := b }).get ix =
      some { n with is_open := b } := get_set_self t ix _ n hget
  have h2 := strEq_nodeAt_open htw.2.2 ix
  rw [← h2, Tree.nodeAt, hset]
  rfl

theorem rpath_eq_of_prefix_ge {p q : RPath} (hab : p.absolute = q.absolute)
    (hpre : p.comps <+: q.comps) (hlen : q.comps.length ≤ p.comps.length) :
    p = q := by
  have hcomps : p.comps = q.comps :=
    hpre.eq_of_length (Nat.le_antisymm hpre.length_le hlen)
  calc p = ⟨p.absolute, p.comps⟩ := rfl
    _ = ⟨q.absolute, q.comps⟩ := by rw [hab, hcomps]
    _ = q := rfl

/-- Closing a non-root node removes every strict descendant from the
traversal: after the toggle no yielded item's path lies strictly under the
closed node's path. -/
theorem close_removes_desc {t : Tree} (hs : StructWf t) (hc : CountWf t)
    {ix : Nat} {n : Node} (h1 : 1 ≤ ix) (hget : t.get ix = some n)
    (hroot : n.path ≠ t.rootNode.path) :
    ∀ v ∈ (t.toggleOpen ix false).traverse,
      ¬ (n.path.comps <+: v.node.path.comps ∧ n.path ≠ v.node.path) := by
  intro v hv hcontra
  obtain ⟨hpre2, hne2⟩ := hcontra
  set t' := t.toggleOpen ix false with ht'
  have hsh : ShapeEq t t' := toggle_shapeEq hs hc h1 hget false
  have hs' : StructWf t' := (toggle_wf hs hc h1 hget false).1
  obtain ⟨j, hj1, hj2, hjn, hjd, hjv⟩ := traverse_spec hs' v hv
  have hat := swf_at hs h1 hget
  have habs : n.path.absolute = true := hat.1.1
  have hpren : t.rootNode.path.comps <+: n.path.comps := hat.1.2
  have hrle := hpren.length_le
  have hlen_gt : t.rootNode.path.comps.length < n.path.comps.length := by
    rcases Nat.lt_or_ge t.rootNode.path.comps.length n.path.comps.length with h | h
    · exact h
    · exact absurd (rpath_eq_of_prefix_ge (hs.2.1.trans habs.symm) hpren h).symm hroot
  have hvpath : v.node.path = (t'.nodeAt j).path := by rw [hjn]
  have hroot' : t'.rootNode.path = t.rootNode.path := (shapeEq_rootPath hsh).symm
  have hpath_ix : (t'.nodeAt ix).path = n.path := by
    rw [← shapeEq_nodeAt_path hsh ix, nodeAt_of_get t ix n hget]
  have hopen_ix : (t'.nodeAt ix).is_open = false :=
    toggle_open_at hs hc h1 hget false
  have hx2' : ix ≤ t'.arena.length := by
    have h2 := tree_get_lt t ix n hget
    have h3 := hsh.1
    omega
  have hget'ix : t'.get ix = some (t'.nodeAt ix) := tree_get_of_lt t' ix h1 hx2'
  have hreach_ix : t'.walkFrom (t'.chain (t'.nodeAt ix).path) = some ix :=
    (swf_at hs' h1 hget'ix).2.2.2
  have hgetj : t'.get j = some (t'.nodeAt j) := tree_get_of_lt t' j hj1 hj2
  have hatj := swf_at hs' hj1 hgetj
  have habsj : (t'.nodeAt j).path.absolute = true := hatj.1.1
  have hpre2' : n.path.comps <+: (t'.nodeAt j).path.comps := by
    rw [← hvpath]
    exact hpre2
  have hjlen : n.path.comps.length < (t'.nodeAt j).path.comps.length := by
    rcases Nat.lt_or_ge n.path.comps.length (t'.nodeAt j).path.comps.length with h | h
    · exact h
    · exact absurd (by
        rw [hvpath]
        exact rpath_eq_of_prefix_ge (habs.trans habsj.symm) hpre2' h) hne2
  have hr' : t'.rootNode.path.comps.length = t.rootNode.path.comps.length := by
    rw [hroot']
  have htake : (t'.chain (t'.nodeAt j).path).take
      (n.path.comps.length - t.rootNode.path.comps.length) = t'.chain n.path := by
    have hprej : t'.rootNode.path.comps <+: (t'.nodeAt j).path.comps := hatj.1.2
    have hrlej := hprej.length_le
    rw [← chain_take_path t' (t'.nodeAt j).path
      (n.path.comps.length - t.rootNode.path.comps.length)
      (by omega) (by omega)]
    congr 1
    have htk : (t'.nodeAt j).path.comps.take
        (t'.rootNode.path.comps.length +
          (n.path.comps.length - t.rootNode.path.comps.length)) = n.path.comps := by
      rw [hr', show t.rootNode.path.comps.length +
        (n.path.comps.length - t.rootNode.path.comps.length) =
          n.path.comps.length from by omega]
      exact (List.prefix_iff_eq_take.mp hpre2').symm
    calc (⟨(t'.nodeAt j).path.absolute,
        (t'.nodeAt j).path.comps.take (t'.rootNode.path.comps.length +
          (n.path.comps.length - t.rootNode.path.comps.length))⟩ : RPath)
        = ⟨true, n.path.comps⟩ := by rw [habsj, htk]
      _ = n.path := by rw [← habs]
  have hwn : t'.walkFrom (t'.chain n.path) = some ix := by
    rw [show t'.chain n.path = t'.chain (t'.nodeAt ix).path from by rw [hpath_ix]]
    exact hreach_ix
  have hdj : (t'.chain (t'.nodeAt j).path).length =
      (t'.nodeAt j).path.comps.length - t.rootNode.path.comps.length := by
    rw [chain_length, hroot']
  have hopen := (visibleIx_iff hs' hj1 hj2).mp hjv
    (n.path.comps.length - t.rootNode.path.comps.length) (by omega)
    (by rw [hdj]; omega) ix (by rw [htake]; exact hwn)
  rw [hopen_ix] at hopen
  simp at hopen

/-- Closing an open node and reopening it restores the original tree
exactly: the cached counts are recomputed to their former values. -/
theorem toggle_reopen {t : Tree} (hs : StructWf t) (hc : CountWf t) {ix : Nat}
    {n : Node} (h1 : 1 ≤ ix) (hget : t.get ix = some n) (hopen : n.is_open = true) :
    (t.toggleOpen ix false).toggleOpen ix true = t := by
  set A := t.toggleOpen ix false with hA
  have htw1 := toggle_wf hs hc h1 hget false
  have hsA : StructWf A := htw1.1
  have hcA : CountWf A := htw1.2.1
  have heA : StrEq (t.setNode ix { n with is_open := false }) A := htw1.2.2
  have hset1 : (t.setNode ix { n with is_open := false }).get ix =
      some { n with is_open := false } := get_set_self t ix _ n hget
  obtain ⟨nA, hgetA, hstrA⟩ := strEq_get_some heA hset1
  have htw2 := toggle_wf hsA hcA h1 hgetA true
  have hsB := htw2.1
  have hcB := htw2.2.1
  have heB : StrEq (A.setNode ix { nA with is_open := true }) (A.toggleOpen ix true) :=
    htw2.2.2
  have hkey : StrEq t (A.setNode ix { nA with is_open := true }) := by
    constructor
    · rw [set_length, ← heA.1, set_length]
    · intro j
      by_cases hj : j - 1 = ix - 1
      · have hlt := tree_get_lt t ix n hget
        have hgj : t.get j = some n := by
          rw [Tree.get, hj, ← Tree.get, hget]
        have hgj2 : (A.setNode ix { nA with is_open := true }).get j =
            some { nA with is_open := true } := by
          rw [Tree.get, Tree.setNode, hj]
          simp only
          rw [List.getElem?_set_self']
          rw [show A.arena[ix - 1]? = some nA from hgetA]
          rfl
        rw [hgj, hgj2]
        have hp : n.path = nA.path := by
          have h := nodeStr_path hstrA.symm
          exact h
        have hd2 : n.is_dir = nA.is_dir := by
          have h := nodeStr_dir hstrA.symm
          exact h
        have hch2 : n.children = nA.children := by
          have h := nodeStr_children hstrA.symm
          exact h
        show some (n.path, n.is_dir, n.is_open, n.children) =
          some (nA.path, nA.is_dir, true, nA.children)
        rw [hp, hd2, hch2, hopen]
      · have hAg : (A.setNode ix { nA with is_open := true }).get j = A.get j := by
          show (A.arena.set (ix - 1) _)[j - 1]? = A.arena[j - 1]?
          exact List.getElem?_set_ne (by omega)
        have htg : (t.setNode ix { n with is_open := false }).get j = t.get j := by
          show (t.arena.set (ix - 1) _)[j - 1]? = t.arena[j - 1]?
          exact List.getElem?_set_ne (by omega)
        rw [hAg, ← heA.2 j, htg]
  have hfinal : StrEq t (A.toggleOpen ix true) := strEq_trans hkey heB
  exact (wf_eq_of_strEq hs hsB hc hcB hfinal).symm

/-- C1: for a tree obtained from `Tree::new` on a fresh root node (absolute
path, empty children, zero cached count) followed by any finite sequence of
`Tree::create` calls whose argument nodes have empty children and zero
cached count (any path, `is_dir`, `is_open`), the cached
`root.children_open_count` equals the exact number of items a full
`TraverseTree` run to exhaustion yields — immediately after every create,
with no deferred recomputation observable. -/
theorem C1_counts_agree_with_traversal (root : Node) (ns : List Node)
    (habs : root.path.absolute = true) (hch : root.children = [])
    (hcnt : root.children_open_count = 0)
    (hns : ∀ n ∈ ns, n.children = [] ∧ n.children_open_count = 0) :
    ((ns.foldl (fun t n => (t.create n).2) (Tree.new root)).rootNode).children_open_count =
      ((ns.foldl (fun t n => (t.create n).2) (Tree.new root)).traverse).length := by
  have h0 := new_wf root habs hch hcnt
  have hwf := creates_wf ns (Tree.new root) h0.1 h0.2 hns
  exact (traverse_length_eq_count hwf.1 hwf.2).symm

/-- Witness for C1: a concrete root and create sequence. -/
theorem C1_witness :
    (rootW.path.absolute = true ∧ rootW.children = [] ∧
      rootW.children_open_count = 0 ∧
      ∀ n ∈ ([⟨⟨true, ["var", "games"]⟩, true, true, [], 0⟩,
        Node.new ⟨true, ["var", "games", "spelunky"]⟩] : List Node),
        n.children = [] ∧ n.children_open_count = 0) ∧
    ((([⟨⟨true, ["var", "games"]⟩, true, true, [], 0⟩,
        Node.new ⟨true, ["var", "games", "spelunky"]⟩] : List Node).foldl
          (fun t n => (t.create n).2) (Tree.new rootW)).rootNode).children_open_count =
      ((([⟨⟨true, ["var", "games"]⟩, true, true, [], 0⟩,
        Node.new ⟨true, ["var", "games", "spelunky"]⟩] : List Node).foldl
          (fun t n => (t.create n).2) (Tree.new rootW)).traverse).length :=
  ⟨⟨rfl, rfl, rfl, by decide⟩,
    C1_counts_agree_with_traversal rootW _ rfl rfl rfl (by decide)⟩

/-- C2: on a well-formed tree, `total_len()` is the root's cached count plus
one; `slice(k..k+n)` yields exactly the `k`-th through `(k+n-1)`-th items of
the unbounded traversal, in order; and `slice(0..total_len())` enumerates
exactly the unbounded traversal's sequence. -/
theorem C2_slice_matches_traversal (t : Tree) (hs : StructWf t) (hc : CountWf t)
    (k n : Nat) :
    t.totalLen = t.rootNode.children_open_count + 1 ∧
    t.sliceView k (k + n) = ((t.traverse).drop k).take n ∧
    t.sliceView 0 t.totalLen = t.traverse := by
  refine ⟨rfl, ?_, ?_⟩
  · rw [Tree.sliceView]
    congr 1
    omega
  · rw [Tree.sliceView, Nat.sub_zero, List.drop_zero]
    apply List.take_of_length_le
    rw [traverse_length_eq_count hs hc, Tree.totalLen]
    omega

/-- Witness for C2 at a concrete tree and range. -/
theorem C2_witness :
    (StructWf TW ∧ CountWf TW) ∧
    (TW.totalLen = TW.rootNode.children_open_count + 1 ∧
      TW.sliceView 1 (1 + 2) = ((TW.traverse).drop 1).take 2 ∧
      TW.sliceView 0 TW.totalLen = TW.traverse) :=
  ⟨⟨by decide, by decide⟩, C2_slice_matches_traversal TW (by decide) (by decide) 1 2⟩

/-- C3: `Tree::create` on a node whose exact path already sits at slot `i`
returns `Some(i)` and leaves the tree completely unchanged — the existing
slot's data survives even a create with different flags. -/
theorem C3_create_idempotent (t : Tree) (hs : StructWf t) (hc : CountWf t)
    (nd : Node) (i : Nat) (nx : Node) (h1 : 1 ≤ i) (hget : t.get i = some nx)
    (hpath : nx.path = nd.path) :
    t.create nd = (some i, t) :=
  create_existing hs hc h1 hget hpath

/-- Witness for C3: re-creating `/var/opt` with different flags and count
returns the existing index 2 and the unchanged tree. -/
theorem C3_witness :
    (StructWf TW ∧ CountWf TW ∧ TW.get 2 = some (TW.nodeAt 2) ∧
      (TW.nodeAt 2).path = (⟨⟨true, ["var", "opt"]⟩, false, true, [], 5⟩ : Node).path) ∧
    TW.create ⟨⟨true, ["var", "opt"]⟩, false, true, [], 5⟩ = (some 2, TW) :=
  ⟨⟨by decide, by decide, by decide, by decide⟩,
    C3_create_idempotent TW (by decide) (by decide) _ 2 (TW.nodeAt 2) (by decide)
      (by decide) (by decide)⟩

/-- C4: `Tree::create` returns no index exactly when the argument's path
does not have the tree root's path as a prefix (in the `Path::components`
sense that `strip_prefix` uses), and in that case the call performs no
mutation at all. -/
theorem C4_create_none_iff_not_under_root (t : Tree) (nd : Node) :
    ((t.create nd).1 = none ↔
      ¬ (t.rootNode.path.componentsList <+: nd.path.componentsList)) ∧
    (¬ (t.rootNode.path.componentsList <+: nd.path.componentsList) →
      t.create nd = (none, t)) := by
  have hsb : (nd.path.stripBase t.rootNode.path = none) ↔
      ¬ (t.rootNode.path.componentsList <+: nd.path.componentsList) := by
    rw [RPath.stripBase]
    by_cases hcond : t.rootNode.path.componentsList <+: nd.path.componentsList
    · simp [hcond]
    · simp [hcond]
  refine ⟨⟨?_, ?_⟩, ?_⟩
  · intro h
    cases hstrip : nd.path.stripBase t.rootNode.path with
    | none => exact hsb.mp hstrip
    | some disc =>
      rw [create_ok hstrip] at h
      simp at h
  · intro h
    rw [create_fail (hsb.mpr h)]
  · intro h
    exact create_fail (hsb.mpr h)

/-- C5: creating a node at a fresh path under the root synthesizes every
missing ancestor exactly once as a closed directory placeholder, links the
whole parent-to-child chain (the final walk resolves every chain prefix),
and stores the caller's node verbatim in the terminal slot. -/
theorem C5_create_synthesizes_ancestors (t0 : Tree) (nd : Node)
    (hs0 : StructWf t0) (hc0 : CountWf t0)
    (habs : nd.path.absolute = true)
    (hpre : t0.rootNode.path.comps <+: nd.path.comps)
    (hch : nd.children = []) (hcnt : nd.children_open_count = 0)
    (habsent : ∀ j, 1 ≤ j → j ≤ t0.arena.length → (t0.nodeAt j).path ≠ nd.path) :
    ∃ ix, (t0.create nd).1 = some ix ∧
      1 ≤ ix ∧ ix ≤ (t0.create nd).2.arena.length ∧
      ((t0.create nd).2.nodeAt ix).path = nd.path ∧
      ((t0.create nd).2.nodeAt ix).is_dir = nd.is_dir ∧
      ((t0.create nd).2.nodeAt ix).is_open = nd.is_open ∧
      (t0.create nd).2.walkFrom (t0.chain nd.path) = some ix ∧
      (∀ j, t0.arena.length < j → j ≤ (t0.create nd).2.arena.length → j ≠ ix →
        ((t0.create nd).2.nodeAt j).is_dir = true ∧
        ((t0.create nd).2.nodeAt j).is_open = false ∧
        ∃ mm, 1 ≤ mm ∧ mm < (t0.chain nd.path).length ∧
          ((t0.create nd).2.nodeAt j).path =
            ⟨nd.path.absolute,
              nd.path.comps.take (t0.rootNode.path.comps.length + mm)⟩) := by
  obtain ⟨hinv, hcr, hpathk, hstr, hswf, hcwf⟩ :=
    create_spec hs0 hc0 habs hpre hch hcnt
  set F := (t0.chain nd.path).foldl (Tree.createStep nd) (1, t0) with hF
  have hrN : t0.rootNode.path.comps.length + (t0.chain nd.path).length =
      nd.path.comps.length := by
    have hcl := chain_length t0 nd.path
    have hle := hpre.length_le
    omega
  have hnew : t0.arena.length < F.1 := by
    rcases Nat.lt_or_ge t0.arena.length F.1 with h | h
    · exact h
    · exfalso
      have h01 : 1 ≤ F.1 := hinv.cur1
      have hold := hinv.oldflags F.1 h01 h
      exact habsent F.1 h01 h (by rw [← hold.1]; exact hpathk)
  have hterm : F.2.nodeAt F.1 = nd := (hinv.newdata F.1 hnew hinv.curle).2.2 hpathk
  have hwalkF : F.2.walkFrom (t0.chain nd.path) = some F.1 := by
    have hw := hinv.walk
    rw [List.take_length] at hw
    exact hw
  refine ⟨F.1, ?_, hinv.cur1, ?_, ?_, ?_, ?_, ?_, ?_⟩
  · rw [hcr]
  · rw [← hstr.1]
    exact hinv.curle
  · rw [← strEq_nodeAt_path hstr F.1]
    exact hpathk
  · rw [← strEq_nodeAt_dir hstr F.1, hterm]
  · rw [← strEq_nodeAt_open hstr F.1, hterm]
  · rw [← strEq_walkFrom hstr]
    exact hwalkF
  · intro j hj1 hj2 hjx
    have hj2F : j ≤ F.2.arena.length := by
      rw [hstr.1]
      exact hj2
    obtain ⟨⟨mm, hmm1, hmm2, hmm3⟩, hinner, hterm'⟩ := hinv.newdata j hj1 hj2F
    have hne : (F.2.nodeAt j).path ≠ nd.path := by
      intro he
      apply hjx
      have hgj : F.2.get j = some (F.2.nodeAt j) :=
        tree_get_of_lt F.2 j (by omega) hj2F
      have hgx : F.2.get F.1 = some (F.2.nodeAt F.1) :=
        tree_get_of_lt F.2 F.1 hinv.cur1 hinv.curle
      exact walk_unique hinv.swf (by omega) hinv.cur1 hgj hgx (by rw [he, hpathk])
    have hflags := hinner hne
    refine ⟨?_, ?_, mm, hmm1, ?_, ?_⟩
    · rw [← strEq_nodeAt_dir hstr j]
      exact hflags.1
    · rw [← strEq_nodeAt_open hstr j]
      exact hflags.2
    · rcases Nat.lt_or_ge mm (t0.chain nd.path).length with h | h
      · exact h
      · exfalso
        have hmk : mm = (t0.chain nd.path).length := by omega
        apply hne
        rw [hmm3, hmk, hrN, List.take_length]
    · rw [← strEq_nodeAt_path hstr j]
      exact hmm3

/-- Witness for C5: creating `/var/games/spelunky` in a tree holding only
the root `/var`. -/
theorem C5_witness :
    ((Tree.new rootW).rootNode.path.comps <+:
        (Node.new ⟨true, ["var", "games", "spelunky"]⟩).path.comps ∧
      ∀ j, 1 ≤ j → j ≤ (Tree.new rootW).arena.length →
        ((Tree.new rootW).nodeAt j).path ≠
          (Node.new ⟨true, ["var", "games", "spelunky"]⟩).path) ∧
    (∃ ix, (((Tree.new rootW).create
        (Node.new ⟨true, ["var", "games", "spelunky"]⟩))).1 = some ix ∧
      1 ≤ ix ∧
      ix ≤ (((Tree.new rootW).create
        (Node.new ⟨true, ["var", "games", "spelunky"]⟩))).2.arena.length ∧
      ((((Tree.new rootW).create
        (Node.new ⟨true, ["var", "games", "spelunky"]⟩))).2.nodeAt ix).path =
          (Node.new ⟨true, ["var", "games", "spelunky"]⟩).path ∧
      ((((Tree.new rootW).create
        (Node.new ⟨true, ["var", "games", "spelunky"]⟩))).2.nodeAt ix).is_dir =
          (Node.new ⟨true, ["var", "games", "spelunky"]⟩).is_dir ∧
      ((((Tree.new rootW).create
        (Node.new ⟨true, ["var", "games", "spelunky"]⟩))).2.nodeAt ix).is_open =
          (Node.new ⟨true, ["var", "games", "spelunky"]⟩).is_open ∧
      (((Tree.new rootW).create
        (Node.new ⟨true, ["var", "games", "spelunky"]⟩))).2.walkFrom
          ((Tree.new rootW).chain
            (Node.new ⟨true, ["var", "games", "spelunky"]⟩).path) = some ix ∧
      (∀ j, (Tree.new rootW).arena.length < j →
        j ≤ (((Tree.new rootW).create
          (Node.new ⟨true, ["var", "games", "spelunky"]⟩))).2.arena.length →
        j ≠ ix →
        ((((Tree.new rootW).create
          (Node.new ⟨true, ["var", "games", "spelunky"]⟩))).2.nodeAt j).is_dir = true ∧
        ((((Tree.new rootW).create
          (Node.new ⟨true, ["var", "games", "spelunky"]⟩))).2.nodeAt j).is_open = false ∧
        ∃ mm, 1 ≤ mm ∧
          mm < ((Tree.new rootW).chain
            (Node.new ⟨true, ["var", "games", "spelunky"]⟩).path).length ∧
          ((((Tree.new rootW).create
            (Node.new ⟨true, ["var", "games", "spelunky"]⟩))).2.nodeAt j).path =
            ⟨(Node.new ⟨true, ["var", "games", "spelunky"]⟩).path.absolute,
              (Node.new ⟨true, ["var", "games", "spelunky"]⟩).path.comps.take
                ((Tree.new rootW).rootNode.path.comps.length + mm)⟩)) :=
  ⟨⟨by decide, by decide⟩,
    C5_create_synthesizes_ancestors (Tree.new rootW)
      (Node.new ⟨true, ["var", "games", "spelunky"]⟩) (by decide) (by decide)
      (by decide) (by decide) (by decide) (by decide) (by decide)⟩

/-- C6 (amended): the traversal yields a non-root node exactly when every
strict ancestor other than the root is open — the root's own flag is never
consulted.  Consequently closing a non-root node removes all of its strict
descendants from the traversal, and closing then reopening an open node
restores the tree (hence count and order) exactly. -/
theorem C6_visibility_open_ancestors (t : Tree) (hs : StructWf t) (hc : CountWf t) :
    (∀ v ∈ t.traverse, ∃ j, 1 ≤ j ∧ j ≤ t.arena.length ∧ v.node = t.nodeAt j ∧
      1 ≤ (t.chain (t.nodeAt j).path).length ∧ t.visibleIx j = true) ∧
    (∀ j, 1 ≤ j → j ≤ t.arena.length → 1 ≤ (t.chain (t.nodeAt j).path).length →
      t.visibleIx j = true →
      (⟨t.nodeAt j, (t.chain (t.nodeAt j).path).length - 1⟩ : NodeView) ∈
        t.traverse) ∧
    (∀ ix n, 1 ≤ ix → t.get ix = some n → n.path ≠ t.rootNode.path →
      ∀ v ∈ (t.toggleOpen ix false).traverse,
        ¬ (n.path.comps <+: v.node.path.comps ∧ n.path ≠ v.node.path)) ∧
    (∀ ix n, 1 ≤ ix → t.get ix = some n → n.is_open = true →
      (t.toggleOpen ix false).toggleOpen ix true = t) := by
  refine ⟨?_, ?_, ?_, ?_⟩
  · intro v hv
    obtain ⟨j, h1, h2, h3, h4, h5⟩ := traverse_spec hs v hv
    exact ⟨j, h1, h2, h3, by omega, h5⟩
  · intro j h1 h2 h3 h4
    exact traverse_mem hs h1 h2 h3 h4
  · intro ix n h1 hget hroot
    exact close_removes_desc hs hc h1 hget hroot
  · intro ix n h1 hget hopen
    exact toggle_reopen hs hc h1 hget hopen

/-- Counterexample to C6 as stated: in a tree whose root is closed the
traversal still yields the root's child — the condition "every strict
ancestor up to and including the root is open" is not required, because the
iterator never consults the root's flag. -/
theorem C6_counterexample :
    TC6.rootNode.is_open = false ∧
    (TC6.traverse).map (fun v => v.node.path) = [⟨true, ["r", "a"]⟩] := by
  decide

/-- Witness for C6: closing and reopening `/var/games` in the concrete tree
restores it exactly. -/
theorem C6_witness :
    (StructWf TW ∧ CountWf TW ∧ 1 ≤ 3 ∧ TW.get 3 = some (TW.nodeAt 3) ∧
      (TW.nodeAt 3).is_open = true) ∧
    (TW.toggleOpen 3 false).toggleOpen 3 true = TW :=
  ⟨⟨by decide, by decide, by decide, by decide, by decide⟩,
    (C6_visibility_open_ancestors TW (by decide) (by decide)).2.2.2 3 (TW.nodeAt 3)
      (by decide) (by decide) (by decide)⟩

/-- C7: the traversal never yields the root node itself — every yielded
item's path strictly extends the root's path. -/
theorem C7_traversal_never_yields_root (t : Tree) (hs : StructWf t) :
    ∀ v ∈ t.traverse, v.node.path ≠ t.rootNode.path ∧
      t.rootNode.path.comps <+: v.node.path.comps ∧
      t.rootNode.path.comps.length < v.node.path.comps.length := by
  intro v hv
  obtain ⟨j, h1, h2, h3, h4, h5⟩ := traverse_spec hs v hv
  have hget : t.get j = some (t.nodeAt j) := tree_get_of_lt t j h1 h2
  have hat := swf_at hs h1 hget
  have hpre := hat.1.2
  have hrle := hpre.length_le
  have hlen : t.rootNode.path.comps.length < (t.nodeAt j).path.comps.length := by
    have hcl := chain_length t (t.nodeAt j).path
    omega
  refine ⟨?_, by rw [h3]; exact hpre, by rw [h3]; exact hlen⟩
  intro he
  rw [h3] at he
  have h6 : (t.nodeAt j).path.comps.length = t.rootNode.path.comps.length :=
    congrArg (fun p : RPath => p.comps.length) he
  omega

/-- Witness for C7 at the concrete tree. -/
theorem C7_witness :
    StructWf TW ∧
    ∀ v ∈ TW.traverse, v.node.path ≠ TW.rootNode.path ∧
      TW.rootNode.path.comps <+: v.node.path.comps ∧
      TW.rootNode.path.comps.length < v.node.path.comps.length :=
  ⟨by decide, C7_traversal_never_yields_root TW (by decide)⟩

/-- C8 (amended): every yielded item's `level` is its depth below the root
minus one — the number of strict ancestors other than the root — not the
number of open ancestors strictly above it (which also counts the root when
it is open). -/
theorem C8_level_is_depth_below_root_minus_one (t : Tree) (hs : StructWf t) :
    ∀ v ∈ t.traverse, v.level + 1 = (t.chain v.node.path).length := by
  intro v hv
  obtain ⟨j, h1, h2, h3, h4, h5⟩ := traverse_spec hs v hv
  rw [h3]
  exact h4.symm

/-- Counterexample to C8 as stated: with an open root, the root's child is
yielded at level `0`, yet it has exactly one open ancestor strictly above
it (the root). -/
theorem C8_counterexample :
    ∃ v ∈ TC8.traverse, v.level ≠ TC8.openAncCount v.node.path := by
  decide

/-- Witness for C8 at the concrete tree. -/
theorem C8_witness :
    StructWf TW ∧
    ∀ v ∈ TW.traverse, v.level + 1 = (TW.chain v.node.path).length :=
  ⟨by decide, C8_level_is_depth_below_root_minus_one TW (by decide)⟩

/-- C9: the final-component lookup modelled on
`path.file_name().and_then(|s| s.to_str())` yields `none` for a path with
no final component (the bare root `/`).  In the source this `None` flows
straight into `.expect("path")`, which panics — contradicting the claim
that the failure is reported as an explicit, never-fatal error (the code
itself carries `TODO maybe not unwrap this`). -/
theorem C9_file_name_none_on_no_final_component :
    NodeView.fileNameOpt ⟨Node.new ⟨true, []⟩, 0⟩ = none := rfl

/-- C10: `slice(0..total_len())` yields `total_len() - 1` items — the root
row counted by `total_len`'s plus-one is never produced by `slice`. -/
theorem C10_slice_yields_one_less (t : Tree) (hs : StructWf t) (hc : CountWf t) :
    (t.sliceView 0 t.totalLen).length = t.totalLen - 1 := by
  rw [Tree.sliceView, Nat.sub_zero, List.drop_zero,
    List.take_of_length_le (by
      rw [traverse_length_eq_count hs hc, Tree.totalLen]
      omega),
    traverse_length_eq_count hs hc, Tree.totalLen]
  omega

/-- Witness for C10 at the concrete tree. -/
theorem C10_witness :
    (StructWf TW ∧ CountWf TW) ∧
    (TW.sliceView 0 TW.totalLen).length = TW.totalLen - 1 :=
  ⟨⟨by decide, by decide⟩, C10_slice_yields_one_less TW (by decide) (by decide)⟩

end FileExplorer
